import Mathlib

/-!
# zipfs: ZIP reader, namespace adapter and LRU cache

A shallow embedding of `src/zip.h` and of the archive adapter and cache of
`src/zipfs.cpp`.

Conventions of the embedding:

* a mapped byte slice is a `List Nat`; `byte_at` reads one `uint8_t`, and a read
  outside the slice yields `0`;
* a pointer into the slice is the `Nat` offset from its start, a null pointer is
  `none`;
* `size_t` and `uint64_t` values are `Nat`, reduced modulo `2 ^ 64` where the
  source can wrap; narrower fields are reduced to their width where they are
  stored;
* `while` and `for` loops are structural recursions on the number of iterations
  that remain.
-/

namespace Zipfs

/-! ## Byte-range view -/

/-- One `uint8_t` of the slice (`data[i]`). -/
def byte_at (data : List Nat) (i : Nat) : Nat := data.getD i 0 % 256

/-- Little-endian `uint16_t` at offset `i`. -/
def read_u16 (data : List Nat) (i : Nat) : Nat :=
  byte_at data i + 256 * byte_at data (i + 1)

/-- Little-endian `uint32_t` at offset `i`. -/
def read_u32 (data : List Nat) (i : Nat) : Nat :=
  read_u16 data i + 65536 * read_u16 data (i + 2)

/-- Little-endian `uint64_t` at offset `i`. -/
def read_u64 (data : List Nat) (i : Nat) : Nat :=
  read_u32 data i + 4294967296 * read_u32 data (i + 4)

/-- The `n` bytes that start at pointer `p`. -/
def bytes_at (data : List Nat) (p n : Nat) : List Nat :=
  (List.range n).map (fun k => byte_at data (p + k))

/-- The test `d[pos] == 'P' && d[pos + 1] == 'K' && d[pos + 2] == b2 && d[pos + 3] == b3`. -/
def sig_at (data : List Nat) (pos b2 b3 : Nat) : Bool :=
  byte_at data pos == 0x50 && byte_at data (pos + 1) == 0x4B &&
    byte_at data (pos + 2) == b2 && byte_at data (pos + 3) == b3

/-- The C library `memcmp` on the first `n` bytes of two buffers, compared as
unsigned bytes; only the sign of the result is specified by C. -/
def memcmp : List Nat → List Nat → Nat → Int
  | _, _, 0 => 0
  | a :: as, b :: bs, n + 1 =>
    if a < b then -1 else if b < a then 1 else memcmp as bs n
  | _, _, _ + 1 => 0

/-- The value `SIZE_MAX` of a 64-bit `size_t`. -/
def SIZE_MAX : Nat := 2 ^ 64 - 1

/-! ## Packed records (`#pragma pack(1)`), addressed from the byte after the signature -/

/-- Field `zip_dir_entry::compressed_size`. -/
def dir_compressed_size (data : List Nat) (entry : Nat) : Nat := read_u32 data (entry + 16)

/-- Field `zip_dir_entry::uncompressed_size`. -/
def dir_uncompressed_size (data : List Nat) (entry : Nat) : Nat := read_u32 data (entry + 20)

/-- Field `zip_dir_entry::compression`. -/
def dir_compression (data : List Nat) (entry : Nat) : Nat := read_u16 data (entry + 6)

/-- Field `zip_dir_entry::dos_time`. -/
def dir_dos_time (data : List Nat) (entry : Nat) : Nat := read_u32 data (entry + 8)

/-- Field `zip_dir_entry::filename_length`. -/
def dir_filename_length (data : List Nat) (entry : Nat) : Nat := read_u16 data (entry + 24)

/-- Field `zip_dir_entry::extra_field_length`. -/
def dir_extra_field_length (data : List Nat) (entry : Nat) : Nat := read_u16 data (entry + 26)

/-- Field `zip_dir_entry::comment_length`. -/
def dir_comment_length (data : List Nat) (entry : Nat) : Nat := read_u16 data (entry + 28)

/-- Field `zip_dir_entry::local_header_offset`. -/
def dir_local_header_offset (data : List Nat) (entry : Nat) : Nat := read_u32 data (entry + 38)

/-- Pointer `zip_dir_entry::file_name`. -/
def dir_file_name (entry : Nat) : Nat := entry + 42

/-- The name of a central-directory record:
`std::string_view(entry->file_name, entry->filename_length)`. -/
def dir_entry_name (data : List Nat) (entry : Nat) : List Nat :=
  bytes_at data (dir_file_name entry) (dir_filename_length data entry)

/-! ## `struct zip_archive` -/

/-- The data members of `zip_archive`. `m_central_dir` is kept as an offset into
`m_data`, which is exact for an archive object that is opened once. -/
structure zip_archive where
  m_data : List Nat := []
  m_size : Nat := 0
  m_zip_base_offset : Nat := 0
  m_zip_central_dir_offset : Nat := 0
  m_central_dir : Option Nat := none
  m_num_entries : Nat := 0
  m_entry_offsets : List Nat := []
  m_is_zip64 : Bool := false
  deriving DecidableEq, Repr

/-- The loop of `find_end_of_central_dir`: `k` iterations remain, `i` is the loop
counter. -/
def eocd_scan (data : List Nat) (size : Nat) : Nat → Nat → Option Nat
  | 0, _ => none
  | k + 1, i =>
    let pos := size - 4 - i
    if sig_at data pos 0x05 0x06 then some pos else eocd_scan data size k (i + 1)

/-- `zip_archive::find_end_of_central_dir`; `none` is `SIZE_MAX`. -/
def find_end_of_central_dir (data : List Nat) (size : Nat) : Option Nat :=
  if size < 22 then none
  else
    let search_size := min size 65557
    eocd_scan data size (search_size - 4) 0

/-- `zip_archive::find_zip64_end_of_central_dir_locator`; `none` is `SIZE_MAX`. -/
def find_zip64_end_of_central_dir_locator (data : List Nat) (_size eocd_pos : Nat) :
    Option Nat :=
  if eocd_pos < 20 then none
  else
    let locator_pos := eocd_pos - 20
    if sig_at data locator_pos 0x06 0x07 then some locator_pos else none

/-- `zip_archive::find_zip64_end_of_central_dir`; `none` is `SIZE_MAX`. -/
def find_zip64_end_of_central_dir (data : List Nat) (size offset : Nat) : Option Nat :=
  if (offset + 56) % 2 ^ 64 > size then none
  else if sig_at data offset 0x06 0x06 then some offset else none

/-- `zip_archive::is_valid`. -/
def is_valid (data : List Nat) (size : Nat) : Bool :=
  (find_end_of_central_dir data size).isSome

namespace zip_archive

/-- `zip_archive::size`. -/
def size (self : zip_archive) : Nat := self.m_num_entries

/-- `zip_archive::is_zip64`. -/
def is_zip64 (self : zip_archive) : Bool := self.m_is_zip64

/-- `zip_archive::check_zip64_support`. -/
def check_zip64_support (self : zip_archive) (eocd_pos : Nat) : zip_archive :=
  match find_zip64_end_of_central_dir_locator self.m_data self.m_size eocd_pos with
  | none => self
  | some locator_pos =>
    let relative_offset_of_zip64_end := read_u64 self.m_data (locator_pos + 4 + 4)
    match find_zip64_end_of_central_dir self.m_data self.m_size relative_offset_of_zip64_end with
    | none => self
    | some zip64_eocd_pos =>
      let size_of_record := read_u64 self.m_data (zip64_eocd_pos + 4)
      if size_of_record ≥ 44 then { self with m_is_zip64 := true } else self

/-- The first loop of `find_zip_base_offset`, scanning backwards for central
directory signatures. The first argument is `offset + 1`, so that `0` is the
wrap of `offset--` below zero (`offset > last_offset`); the result is
`(c, last_offset)`. -/
def central_dir_scan (data : List Nat) : Nat → Nat → Nat → Nat × Nat
  | 0, c, last_offset => (c, last_offset)
  | offset + 1, c, last_offset =>
    if last_offset - offset > 4096 then (c, last_offset)
    else if sig_at data offset 0x01 0x02 then central_dir_scan data offset (c + 1) offset
    else central_dir_scan data offset c last_offset

/-- The second loop of `find_zip_base_offset`, scanning forwards for
`SIGNATURE_ZIP`: `k` iterations remain (`offset < m_size - 4`). -/
def zip_base_scan (data : List Nat) : Nat → Nat → Nat
  | 0, _ => 0
  | k + 1, offset =>
    if read_u32 data offset == 0x04034b50 then offset
    else zip_base_scan data k (offset + 1)

/-- `zip_archive::find_zip_base_offset`: the returned offset, and the archive
with `m_num_entries` and `m_central_dir` set when a signature was counted.
It is called with `m_size ≥ 22`. -/
def find_zip_base_offset (self : zip_archive) : zip_archive × Nat :=
  let offset := self.m_size - 4
  let r := central_dir_scan self.m_data (offset + 1) 0 offset
  let self1 :=
    if r.1 > 0 then { self with m_num_entries := r.1, m_central_dir := some r.2 } else self
  (self1, zip_base_scan self.m_data (self.m_size - 4) 0)

/-- The loop of `parse_central_directory` that records entry offsets: `k`
iterations remain, `pos` is the running position. -/
def central_dir_walk (data : List Nat) (central_dir : Nat) : Nat → Nat → List Nat
  | 0, _ => []
  | k + 1, pos =>
    if !sig_at data (central_dir + pos) 0x01 0x02 then []
    else
      let current_entry := central_dir + pos + 4
      (pos % 2 ^ 32) ::
        central_dir_walk data central_dir k
          (pos + (46 + dir_filename_length data current_entry +
            dir_extra_field_length data current_entry + dir_comment_length data current_entry))

/-- The comparator handed to `std::sort` in `parse_central_directory`. -/
def entry_offset_less (data : List Nat) (central_dir : Nat) (a b : Nat) : Bool :=
  let entry_a := central_dir + a + 4
  let entry_b := central_dir + b + 4
  let min_len := min (dir_filename_length data entry_a) (dir_filename_length data entry_b)
  let cmp := memcmp (bytes_at data (dir_file_name entry_a) min_len)
    (bytes_at data (dir_file_name entry_b) min_len) min_len
  if cmp == 0 then
    decide (dir_filename_length data entry_a < dir_filename_length data entry_b)
  else decide (cmp < 0)

end zip_archive

/-- Insertion of one element for `std_sort`. -/
def sort_insert {α : Type} (less : α → α → Bool) (x : α) : List α → List α
  | [] => [x]
  | y :: ys => if less x y then x :: y :: ys else y :: sort_insert less x ys

/-- The library routine `std::sort(first, last, comp)`. The standard fixes the
result only up to the order of equivalent elements; an insertion sort stands
for it here. -/
def std_sort {α : Type} (less : α → α → Bool) : List α → List α
  | [] => []
  | x :: xs => sort_insert less x (std_sort less xs)

namespace zip_archive

/-- `zip_archive::parse_central_directory`. -/
def parse_central_directory (self : zip_archive) : zip_archive :=
  if self.m_num_entries == 0 then self
  else
    let central_dir := self.m_central_dir.getD 0
    let offsets := central_dir_walk self.m_data central_dir self.m_num_entries 0
    { self with m_entry_offsets := std_sort (entry_offset_less self.m_data central_dir) offsets }

/-- `zip_archive::open`. A thrown `std::runtime_error` is `Except.error`, with
the message and the state of the object at the throw. -/
def open_ (self : zip_archive) (data : List Nat) (size : Nat) :
    Except (String × zip_archive) zip_archive :=
  match find_end_of_central_dir data size with
  | none => .error ("Not a valid ZIP file", self)
  | some eocd_pos =>
    let self1 := { self with m_data := data, m_size := size }
    let self2 := self1.check_zip64_support eocd_pos
    let r := self2.find_zip_base_offset
    let self3 := { r.1 with m_zip_base_offset := r.2 }
    if r.2 == SIZE_MAX then .error ("Invalid ZIP file", self3)
    else .ok self3.parse_central_directory

/-- `zip_archive::find_entry_by_index`: the pointer to the record (past its
signature), `none` for `nullptr`. -/
def find_entry_by_index (self : zip_archive) (index : Nat) : Option Nat :=
  match self.m_central_dir with
  | none => none
  | some central_dir =>
    if index ≥ self.m_num_entries then none
    else if index < self.m_entry_offsets.length then
      let pos := self.m_entry_offsets.getD index 0
      some (central_dir + pos + 4)
    else none

/-- `zip_archive::get_filename`. -/
def get_filename (self : zip_archive) (index : Nat) : List Nat :=
  match self.find_entry_by_index index with
  | none => []
  | some entry => dir_entry_name self.m_data entry

/-- The linear fallback inside `find_entry_index`: `k` iterations remain. -/
def find_entry_linear (self : zip_archive) (name : List Nat) : Nat → Nat → Nat
  | 0, _ => self.m_num_entries
  | k + 1, i =>
    match self.find_entry_by_index i with
    | none => find_entry_linear self name k (i + 1)
    | some entry =>
      if dir_filename_length self.m_data entry == name.length &&
          memcmp (bytes_at self.m_data (dir_file_name entry) name.length) name name.length == 0
      then i
      else find_entry_linear self name k (i + 1)

/-- The three-way comparison of an entry name with the query in
`find_entry_index`. -/
def compare_filename (data : List Nat) (entry : Nat) (name : List Nat) : Int :=
  let len := name.length
  if dir_filename_length data entry == len then
    memcmp (bytes_at data (dir_file_name entry) len) name len
  else
    let min_len := min (dir_filename_length data entry) len
    let cmp := memcmp (bytes_at data (dir_file_name entry) min_len) name min_len
    if cmp == 0 then (if dir_filename_length data entry < len then -1 else 1) else cmp

/-- The binary-search loop of `find_entry_index`. The first argument bounds the
iterations that remain; `right - left` shrinks in every iteration, so
`right - left` iterations always suffice. -/
def find_entry_search (self : zip_archive) (name : List Nat) : Nat → Nat → Nat → Nat
  | 0, _, _ => self.m_num_entries
  | k + 1, left, right =>
    if left < right then
      let mid := left + (right - left) / 2
      match self.find_entry_by_index mid with
      | none => find_entry_linear self name (right - left) left
      | some entry =>
        let cmp := compare_filename self.m_data entry name
        if cmp == 0 then mid
        else if cmp < 0 then find_entry_search self name k (mid + 1) right
        else find_entry_search self name k left mid
    else self.m_num_entries

/-- `zip_archive::find_entry_index(name, len)`; the query is the byte string
`name` of length `len`. -/
def find_entry_index (self : zip_archive) (name : List Nat) : Nat :=
  if self.m_central_dir.isNone || name.length == 0 then self.m_num_entries
  else find_entry_search self name self.m_num_entries 0 self.m_num_entries

end zip_archive

namespace zip_archive

/-- The record loop of `parse_zip64_extended_info`: `k` iterations remain. The
result is the returned flag with the three in-out arguments. -/
def zip64_extended_walk (data : List Nat) (extra_field extra_field_length : Nat)
    (uncompressed_size compressed_size local_header_offset : Nat) :
    Nat → Nat → Bool × Nat × Nat × Nat
  | 0, _ => (false, uncompressed_size, compressed_size, local_header_offset)
  | k + 1, pos =>
    if pos + 4 ≤ extra_field_length then
      let header_id := read_u16 data (extra_field + pos)
      let data_size := read_u16 data (extra_field + pos + 2)
      if header_id == 0x0001 then
        let d := extra_field + pos + 4
        let data_pos := 0
        let r1 := if data_pos + 8 ≤ data_size then (read_u64 data (d + data_pos), data_pos + 8)
          else (uncompressed_size, data_pos)
        let r2 := if r1.2 + 8 ≤ data_size then (read_u64 data (d + r1.2), r1.2 + 8)
          else (compressed_size, r1.2)
        let r3 := if r2.2 + 8 ≤ data_size then (read_u64 data (d + r2.2), r2.2 + 8)
          else (local_header_offset, r2.2)
        (true, r1.1, r2.1, r3.1)
      else
        zip64_extended_walk data extra_field extra_field_length
          uncompressed_size compressed_size local_header_offset k (pos + 4 + data_size)
    else (false, uncompressed_size, compressed_size, local_header_offset)

/-- `zip_archive::parse_zip64_extended_info`. Every iteration advances `pos` by
at least 4, so `extra_field_length` iterations suffice. -/
def parse_zip64_extended_info (self : zip_archive) (extra_field : Option Nat)
    (extra_field_length : Nat)
    (uncompressed_size compressed_size local_header_offset : Nat) : Bool × Nat × Nat × Nat :=
  match extra_field with
  | none => (false, uncompressed_size, compressed_size, local_header_offset)
  | some p =>
    if extra_field_length == 0 then
      (false, uncompressed_size, compressed_size, local_header_offset)
    else
      zip64_extended_walk self.m_data p extra_field_length
        uncompressed_size compressed_size local_header_offset extra_field_length 0

/-- `zip_archive::get_file_data`: the pointer to the payload (`none` for
`nullptr`) and its size. -/
def get_file_data (self : zip_archive) (index : Nat) : Option Nat × Nat :=
  match self.find_entry_by_index index with
  | none => (none, 0)
  | some entry =>
    let uncompressed_size := dir_uncompressed_size self.m_data entry
    let compressed_size := dir_compressed_size self.m_data entry
    let local_header_offset := dir_local_header_offset self.m_data entry
    let z :=
      if self.m_is_zip64 && decide (dir_extra_field_length self.m_data entry > 0) then
        self.parse_zip64_extended_info
          (some (dir_file_name entry + dir_filename_length self.m_data entry))
          (dir_extra_field_length self.m_data entry)
          uncompressed_size compressed_size local_header_offset
      else (false, uncompressed_size, compressed_size, local_header_offset)
    let compressed_size := z.2.2.1
    let local_header_offset := z.2.2.2
    let absolute_header_offset := (self.m_zip_base_offset + local_header_offset) % 2 ^ 64
    if (absolute_header_offset + 30) % 2 ^ 64 > self.m_size then (none, 0)
    else
      let resolved : Option Nat :=
        if !sig_at self.m_data absolute_header_offset 0x03 0x04 then
          let absolute_header_offset :=
            (self.m_zip_base_offset + (local_header_offset ||| 0x0100000000)) % 2 ^ 64
          if (absolute_header_offset + 30) % 2 ^ 64 > self.m_size then none
          else if !sig_at self.m_data absolute_header_offset 0x03 0x04 then none
          else some absolute_header_offset
        else some absolute_header_offset
      match resolved with
      | none => (none, 0)
      | some local_header_ptr =>
        let local_filename_ptr := local_header_ptr + 4 + 26
        let local_extra_field_ptr := local_filename_ptr + read_u16 self.m_data (local_header_ptr + 4 + 22)
        let file_data_ptr := local_extra_field_ptr + read_u16 self.m_data (local_header_ptr + 4 + 24)
        let file_data_offset := file_data_ptr
        if (file_data_offset + compressed_size) % 2 ^ 64 > self.m_size then (none, 0)
        else (some file_data_ptr, compressed_size)

end zip_archive

/-- What `zip_file_info::data_ptr` points to: the payload inside the slice
(aliasing `raw_ptr`) or an owned buffer from `malloc`. -/
inductive data_buffer where
  | in_slice (p : Nat)
  | owned (bytes : List Nat)
  deriving DecidableEq, Repr

/-- The data members of `zip_file_info`; the defaults are those of the
default constructor. -/
structure zip_file_info where
  filename : List Nat := []
  is_directory : Bool := false
  compressed_size : Nat := 0
  uncompressed_size : Nat := 0
  mod_time : Nat := 0
  compression : Nat := 0
  raw_ptr : Option Nat := none
  data_ptr : Option data_buffer := none
  deriving DecidableEq, Repr

namespace zip_archive

/-- `zip_archive::get_file_info`. -/
def get_file_info (self : zip_archive) (index : Nat) : zip_file_info :=
  match self.find_entry_by_index index with
  | none => {}
  | some entry =>
    let r := self.get_file_data index
    let is_directory :=
      if dir_filename_length self.m_data entry > 0 then
        byte_at self.m_data (dir_file_name entry + (dir_filename_length self.m_data entry - 1)) == 0x2F
      else false
    let uncompressed_size := dir_uncompressed_size self.m_data entry
    let compressed_size := dir_compressed_size self.m_data entry
    let z :=
      if self.m_is_zip64 && decide (dir_extra_field_length self.m_data entry > 0) then
        self.parse_zip64_extended_info
          (some (dir_file_name entry + dir_filename_length self.m_data entry))
          (dir_extra_field_length self.m_data entry)
          uncompressed_size compressed_size 0
      else (false, uncompressed_size, compressed_size, 0)
    { filename := dir_entry_name self.m_data entry
      compressed_size := z.2.2.1
      uncompressed_size := z.2.1
      mod_time := dir_dos_time self.m_data entry
      compression := dir_compression self.m_data entry
      raw_ptr := r.1
      is_directory := is_directory }

end zip_archive

/-! ## Directory enumeration -/

/-- `std::string_view::find(c)`: the position of the first `c`, `none` for
`npos`. -/
def string_find (c : Nat) : List Nat → Option Nat
  | [] => none
  | x :: xs => if x == c then some 0 else (string_find c xs).map (· + 1)

/-- Modelled from the spec: the library expression
`(std::filesystem::path(parent) / dname).string()`, whose implementation is not
part of the repository; §4.6 gives the path of a synthesized directory as
`p + d`. -/
def path_join (parent dname : List Nat) : List Nat := parent ++ dname

/-- The record `zip_fake_dir_entry` (a `zip_dir_entry` followed by a 1024-byte
name buffer), with the fields of the value-initialised object. -/
structure zip_fake_dir_entry where
  version_made_by : Nat := 0
  version_needed : Nat := 0
  raw_flags : Nat := 0
  compression : Nat := 0
  dos_time : Nat := 0
  crc32 : Nat := 0
  compressed_size : Nat := 0
  uncompressed_size : Nat := 0
  filename_length : Nat := 0
  extra_field_length : Nat := 0
  comment_length : Nat := 0
  disk_number_start : Nat := 0
  internal_file_attributes : Nat := 0
  external_file_attributes : Nat := 0
  local_header_offset : Nat := 0
  xfile_name : List Nat := List.replicate 1024 0
  deriving DecidableEq, Repr

/-- The `const zip_dir_entry *` handed to a visitor: a record of the central
directory, or the synthesized record on the stack. -/
inductive visited_entry where
  | real (entry : Nat)
  | synthesized (e : zip_fake_dir_entry)
  deriving DecidableEq, Repr

/-- Field `filename_length` read through the visitor's pointer. -/
def visited_filename_length (data : List Nat) : visited_entry → Nat
  | .real entry => dir_filename_length data entry
  | .synthesized e => e.filename_length

/-- Name `(entry->file_name, entry->filename_length)` read through the visitor's
pointer; for a synthesized record `file_name` is `xfile_name`. -/
def visited_name (data : List Nat) : visited_entry → List Nat
  | .real entry => dir_entry_name data entry
  | .synthesized e => bytes_at e.xfile_name 0 e.filename_length

/-- Field `uncompressed_size` read through the visitor's pointer. -/
def visited_uncompressed_size (data : List Nat) : visited_entry → Nat
  | .real entry => dir_uncompressed_size data entry
  | .synthesized e => e.uncompressed_size

/-- The synthesized record built in `for_each_entry` for the path `dir_path`. -/
def make_virtual_entry (dir_path : List Nat) : zip_fake_dir_entry :=
  { external_file_attributes := 0x10
    filename_length := dir_path.length % 2 ^ 16
    xfile_name :=
      if dir_path.length < 1024 then dir_path ++ List.replicate (1024 - dir_path.length) 0
      else List.replicate 1024 0 }

namespace zip_archive

/-- The binary search at the head of `for_each_entry(parent, f)`; `none` is the
early `return` on a null entry. The first argument bounds the iterations that
remain; `right - left` shrinks in every iteration. -/
def for_each_start (self : zip_archive) (parent : List Nat) : Nat → Nat → Nat → Option Nat
  | 0, left, _ => some left
  | k + 1, left, right =>
    if left < right then
      let mid := left + (right - left) / 2
      match self.find_entry_by_index mid with
      | none => none
      | some entry =>
        let filename := dir_entry_name self.m_data entry
        if filename.length ≥ parent.length &&
            decide (memcmp filename parent parent.length ≥ 0) then
          for_each_start self parent k left mid
        else for_each_start self parent k (mid + 1) right
    else some left

/-- The main loop of `for_each_entry(parent, f)`: `k` iterations remain, `i` is
the loop index and `dir_name` the local string. The result lists the records
handed to the visitor, in call order; `stop` is the visitor's return value
(constantly `false` for a visitor that returns `void`). -/
def for_each_walk (self : zip_archive) (parent : List Nat) (stop : visited_entry → Bool)
    (start_index : Nat) : Nat → Nat → List Nat → List visited_entry
  | 0, _, _ => []
  | k + 1, i, dir_name =>
    match self.find_entry_by_index i with
    | none => for_each_walk self parent stop start_index k (i + 1) dir_name
    | some entry =>
      let filename := dir_entry_name self.m_data entry
      if !parent.isEmpty &&
          (decide (filename.length < parent.length) || filename.take parent.length != parent) then
        if i > start_index then []
        else for_each_walk self parent stop start_index k (i + 1) dir_name
      else if filename == parent then
        for_each_walk self parent stop start_index k (i + 1) dir_name
      else
        let relative_path := if !parent.isEmpty then filename.drop parent.length else filename
        match string_find 0x2F relative_path with
        | none =>
          if stop (.real entry) then [.real entry]
          else .real entry :: for_each_walk self parent stop start_index k (i + 1) dir_name
        | some slash_pos =>
          if slash_pos == relative_path.length - 1 then
            let dir_name := relative_path.take (slash_pos + 1)
            if stop (.real entry) then [.real entry]
            else .real entry :: for_each_walk self parent stop start_index k (i + 1) dir_name
          else
            let dname := relative_path.take (slash_pos + 1)
            if dname == dir_name then
              for_each_walk self parent stop start_index k (i + 1) dir_name
            else
              let dir_name := dname
              let dir_path := path_join parent dname
              let virtual_entry := visited_entry.synthesized (make_virtual_entry dir_path)
              if stop virtual_entry then [virtual_entry]
              else virtual_entry ::
                for_each_walk self parent stop start_index k (i + 1) dir_name

/-- `zip_archive::for_each_entry(parent, f)`: the records handed to `f`, in call
order. -/
def for_each_entry (self : zip_archive) (parent : List Nat) (stop : visited_entry → Bool) :
    List visited_entry :=
  if !(parent.isEmpty || parent.getLast? == some 0x2F) then []
  else
    let start_index : Option Nat :=
      if !parent.isEmpty then
        for_each_start self parent self.m_num_entries 0 self.m_num_entries
      else some 0
    match start_index with
    | none => []
    | some start_index =>
      for_each_walk self parent stop start_index (self.m_num_entries - start_index)
        start_index []

end zip_archive

/-! ## `lru_cache` -/

/-- The data members of `lru_cache<Key, Value>`. A node of the `std::list` is
the pair of its address and its key, front first; an iterator is the address of
its node, `none` for `end()`. `m_map` holds `key ↦ (first, second)` with
`first` the value and `second` the list iterator. `next_node` is the address
the allocator hands out for the next list node. -/
structure lru_cache (Key Value : Type) where
  m_map : List (Key × Value × Option Nat) := []
  m_list : List (Nat × Key) := []
  m_capacity : Nat
  next_node : Nat := 0
  deriving DecidableEq, Repr

namespace lru_cache

variable {Key Value : Type} [DecidableEq Key]

/-- `std::map::find`: the mapped value, `none` for `end()`. -/
def map_find (m : List (Key × Value × Option Nat)) (key : Key) : Option (Value × Option Nat) :=
  match m with
  | [] => none
  | (k, x) :: rest => if k = key then some x else map_find rest key

/-- `std::map::erase(key)`. -/
def map_erase (m : List (Key × Value × Option Nat)) (key : Key) :
    List (Key × Value × Option Nat) :=
  m.filter (fun e => decide (e.1 ≠ key))

/-- `std::map::emplace(key, xvalue)`: no effect when the key is present. -/
def map_emplace (m : List (Key × Value × Option Nat)) (key : Key) (x : Value × Option Nat) :
    List (Key × Value × Option Nat) :=
  match map_find m key with
  | some _ => m
  | none => (key, x) :: m

/-- The assignment `m[key] = xvalue`. -/
def map_assign (m : List (Key × Value × Option Nat)) (key : Key) (x : Value × Option Nat) :
    List (Key × Value × Option Nat) :=
  match m with
  | [] => [(key, x)]
  | (k, y) :: rest => if k = key then (k, x) :: rest else (k, y) :: map_assign rest key x

/-- `std::list::begin()`. -/
def list_begin (l : List (Nat × Key)) : Option Nat := l.head?.map (·.1)

/-- `std::list::erase(j)`. -/
def list_erase (l : List (Nat × Key)) (j : Option Nat) : List (Nat × Key) :=
  l.filter (fun n => decide (some n.1 ≠ j))

/-- The constructor `lru_cache(capacity)`. -/
def new (capacity : Nat) : lru_cache Key Value := { m_capacity := capacity }

/-- `lru_cache::size`. -/
def size (self : lru_cache Key Value) : Nat := self.m_map.length

/-- `lru_cache::capacity`. -/
def capacity (self : lru_cache Key Value) : Nat := self.m_capacity

/-- `lru_cache::empty`. -/
def empty (self : lru_cache Key Value) : Bool := self.m_map.isEmpty

/-- `lru_cache::contains`. -/
def contains (self : lru_cache Key Value) (key : Key) : Bool :=
  (map_find self.m_map key).isSome

/-- `std::list::push_front(key)`: a new node at the front. -/
def push_front (self : lru_cache Key Value) (key : Key) : lru_cache Key Value :=
  { self with m_list := (self.next_node, key) :: self.m_list, next_node := self.next_node + 1 }

/-- `lru_cache::evict`. On an empty list `--m_list.end()` is undefined; the
model leaves the cache as it is. -/
def evict (self : lru_cache Key Value) : lru_cache Key Value :=
  match self.m_list.getLast? with
  | none => self
  | some i =>
    { self with m_map := map_erase self.m_map i.2, m_list := list_erase self.m_list (some i.1) }

/-- `lru_cache::insert`. -/
def insert (self : lru_cache Key Value) (key : Key) (value : Value) : lru_cache Key Value :=
  match map_find self.m_map key with
  | some _ => self
  | none =>
    let self1 := if self.size ≥ self.m_capacity then self.evict else self
    let self2 := self1.push_front key
    let xvalue : Value × Option Nat := (value, list_begin self2.m_list)
    { self2 with m_map := map_emplace self2.m_map key xvalue }

/-- `lru_cache::get`: the value behind the returned pointer (`none` for
`nullptr`) and the cache afterwards. -/
def get (self : lru_cache Key Value) (key : Key) : Option Value × lru_cache Key Value :=
  match map_find self.m_map key with
  | none => (none, self)
  | some i =>
    let j := i.2
    if j ≠ list_begin self.m_list then
      let self1 := { self with m_list := list_erase self.m_list j }
      let self2 := self1.push_front key
      let j := list_begin self2.m_list
      let temp_value := i.1
      let xvalue : Value × Option Nat := (temp_value, j)
      let self3 := { self2 with m_map := map_assign self2.m_map key xvalue }
      ((map_find self3.m_map key).map (·.1), self3)
    else (some i.1, self)

/-- `lru_cache::clear`. -/
def clear (self : lru_cache Key Value) : lru_cache Key Value :=
  { self with m_map := [], m_list := [] }

end lru_cache

/-- One call on an `lru_cache`. -/
inductive lru_op (Key Value : Type) where
  | insert (key : Key) (value : Value)
  | get (key : Key)
  | contains (key : Key)
  | clear
  deriving DecidableEq, Repr

namespace lru_cache

variable {Key Value : Type} [DecidableEq Key]

/-- The cache after one call. -/
def step (self : lru_cache Key Value) : lru_op Key Value → lru_cache Key Value
  | .insert key value => self.insert key value
  | .get key => (self.get key).2
  | .contains _ => self
  | .clear => self.clear

/-- The cache after a sequence of calls, first call first. -/
def run (self : lru_cache Key Value) (ops : List (lru_op Key Value)) : lru_cache Key Value :=
  ops.foldl step self

/-- The keys of the recency list, front first. -/
def list_keys (self : lru_cache Key Value) : List Key := self.m_list.map (·.2)

/-- The keys of the map. -/
def map_keys (self : lru_cache Key Value) : List Key := self.m_map.map (·.1)

end lru_cache

/-! ## `struct zipfs_archive` -/

/-- The constant `DEFAULT_CACHE_SIZE`. -/
def DEFAULT_CACHE_SIZE : Nat := 1024

/-- The enumerator `zipfs_archive::NONE`. -/
def NONE : Int := 0

/-- The enumerator `zipfs_archive::FILE`. -/
def FILE : Int := 1

/-- The enumerator `zipfs_archive::DIR`. -/
def DIR : Int := 2

/-- `zipfs_archive::entry_t`. -/
structure entry_t where
  type : Int := 0
  index : Int := 0
  deriving DecidableEq, Repr

/-- `entry_t::is_file`. -/
def entry_t.is_file (e : entry_t) : Bool := e.type == FILE

/-- `entry_t::is_dir`. -/
def entry_t.is_dir (e : entry_t) : Bool := e.type == DIR

/-- `zipfs_archive::stat_t`. -/
structure stat_t where
  fpath : List Nat
  size : Nat
  mtime : Int
  type : Int
  deriving DecidableEq, Repr

/-- The conversion `static_cast<int>(n)` of a `size_t` to a 32-bit `int`. -/
def static_cast_int (n : Nat) : Int := ((n + 2 ^ 31) % 2 ^ 32 : Nat) - 2 ^ 31

/-- The conversion of an `int` to `size_t`. -/
def int_to_size_t (i : Int) : Nat := (i % 2 ^ 64).toNat

/-- The data members of `zipfs_archive`, without the file mapping. -/
structure zipfs_archive where
  archive : zip_archive := {}
  size : Nat := 0
  cache : lru_cache Int zip_file_info := lru_cache.new DEFAULT_CACHE_SIZE
  deriving DecidableEq, Repr

namespace zipfs_archive

/-- `zipfs_archive::open`, from the mapping of the file (`none` when the file
cannot be opened or mapped) and its size: the return code and the object. -/
def open_ (self : zipfs_archive) (mapping : Option (List Nat)) (mapping_size : Nat) :
    Int × zipfs_archive :=
  match mapping with
  | none => (-1, self)
  | some data =>
    match self.archive.open_ data mapping_size with
    | .ok ar => (0, { self with archive := ar, size := ar.size })
    | .error e => (-1, { self with archive := e.2 })

/-- `zipfs_archive::stat`. -/
def stat (self : zipfs_archive) (findex : Int) : stat_t :=
  if findex < 0 || int_to_size_t findex ≥ self.size then
    { fpath := [], size := 0, mtime := 0, type := NONE }
  else
    let info := self.archive.get_file_info (int_to_size_t findex)
    { fpath := info.filename
      size := info.uncompressed_size
      mtime := info.mod_time
      type := if info.is_directory then DIR else FILE }

/-- The scan of `locate` for an entry below the directory `dname`: `k`
iterations remain. -/
def locate_scan (self : zipfs_archive) (dname : List Nat) : Nat → Nat → entry_t
  | 0, _ => {}
  | k + 1, i =>
    let filename := self.archive.get_filename i
    if decide (filename.length > dname.length) && filename.take dname.length == dname then
      { type := DIR, index := static_cast_int i }
    else locate_scan self dname k (i + 1)

/-- `zipfs_archive::locate`. -/
def locate (self : zipfs_archive) (fname : List Nat) : entry_t :=
  if fname.isEmpty || fname == [0x2F] then { type := DIR, index := -1 }
  else
    let index := self.archive.find_entry_index fname
    if index == self.archive.size then
      let dname := fname ++ [0x2F]
      let index := self.archive.find_entry_index dname
      if index != self.archive.size then { type := DIR, index := static_cast_int index }
      else locate_scan self dname self.archive.size 0
    else
      let info := self.archive.get_file_info index
      { type := if info.is_directory then DIR else FILE, index := static_cast_int index }

/-- The visitor that `each` hands to `for_each_entry`: the `stat_t` it passes
on to `f`, if any. `substr(pos)` is `List.drop`: every name that `for_each_entry`
hands over is at least as long as `dir_path`. -/
def each_visit (self : zipfs_archive) (dir_path : List Nat) (entry : visited_entry) :
    Option stat_t :=
  let filename := visited_name self.archive.m_data entry
  if filename == dir_path then none
  else
    let relative_path := if !dir_path.isEmpty then filename.drop dir_path.length else filename
    match string_find 0x2F relative_path with
    | none =>
      some { fpath := relative_path
             size := visited_uncompressed_size self.archive.m_data entry
             mtime := 0
             type := FILE }
    | some slash_pos =>
      if slash_pos == relative_path.length - 1 then
        some { fpath := relative_path.take slash_pos, size := 0, mtime := 0, type := DIR }
      else none

/-- `zipfs_archive::each`: the `stat_t` values handed to `f`, in call order. -/
def each (self : zipfs_archive) (fname : List Nat) : List stat_t :=
  let ent := self.locate fname
  if ent.is_dir then
    let dir_path :=
      if !fname.isEmpty && fname.getLast? != some 0x2F then fname ++ [0x2F] else fname
    (self.archive.for_each_entry dir_path (fun _ => false)).filterMap (self.each_visit dir_path)
  else []

end zipfs_archive

/-! ## Sample archives -/

/-- Little-endian bytes of a 16-bit value. -/
def le16 (n : Nat) : List Nat := [n % 256, n / 256 % 256]

/-- Little-endian bytes of a 32-bit value. -/
def le32 (n : Nat) : List Nat := le16 (n % 65536) ++ le16 (n / 65536)

/-- A local file header for a stored member `name` with content `body`. -/
def sample_local (name body : List Nat) : List Nat :=
  [0x50, 0x4B, 0x03, 0x04] ++ le16 20 ++ le16 0 ++ le16 0 ++ le32 0 ++ le32 0 ++
    le32 body.length ++ le32 body.length ++ le16 name.length ++ le16 0 ++ name ++ body

/-- A central-directory record for a stored member `name` with content `body`
whose local header is at `off`. -/
def sample_central (name body : List Nat) (off : Nat) : List Nat :=
  [0x50, 0x4B, 0x01, 0x02] ++ le16 20 ++ le16 20 ++ le16 0 ++ le16 0 ++ le32 0 ++ le32 0 ++
    le32 body.length ++ le32 body.length ++ le16 name.length ++ le16 0 ++ le16 0 ++ le16 0 ++
    le16 0 ++ le32 0 ++ le32 off ++ name

/-- The local part and the central directory of a stored archive holding
`members`, laid out after `off` bytes. -/
def sample_parts : List (List Nat × List Nat) → Nat → List Nat × List Nat
  | [], _ => ([], [])
  | (name, body) :: rest, off =>
    let l := sample_local name body
    let r := sample_parts rest (off + l.length)
    (l ++ r.1, sample_central name body off ++ r.2)

/-- A complete ZIP file with the stored `members`, in the given order. -/
def sample_zip (members : List (List Nat × List Nat)) : List Nat :=
  let p := sample_parts members 0
  p.1 ++ p.2 ++ [0x50, 0x4B, 0x05, 0x06] ++ le16 0 ++ le16 0 ++ le16 members.length ++
    le16 members.length ++ le32 p.2.length ++ le32 p.1.length ++ le16 0

/-! ## The order on entry names -/

/-- The order of the entry table: lexicographic on unsigned bytes, and when one
name is the beginning of the other the shorter name is less. -/
def name_less : List Nat → List Nat → Bool
  | [], [] => false
  | [], _ :: _ => true
  | _ :: _, [] => false
  | a :: as, b :: bs => if a < b then true else if b < a then false else name_less as bs

/-- The name of the record at offset `pos` of the entry table. -/
def zip_archive.name_at (self : zip_archive) (pos : Nat) : List Nat :=
  dir_entry_name self.m_data (self.m_central_dir.getD 0 + pos + 4)

/-- The names of the records of the entry table, in table order. -/
def zip_archive.entry_names (self : zip_archive) : List (List Nat) :=
  self.m_entry_offsets.map self.name_at

/-- What a successful `open` establishes and the lookups rely on. -/
structure zip_archive.opened (ar : zip_archive) : Prop where
  sorted : (ar.entry_names).Pairwise (fun x y => name_less y x = false)
  length_le : ar.m_entry_offsets.length ≤ ar.m_num_entries
  null_dir : ar.m_central_dir = none → ar.m_num_entries = 0

/-- A stored archive with the members `a/x`, `b` and `c`. -/
def sample_abc : List Nat :=
  sample_zip [([0x61, 0x2F, 0x78], [1, 2, 3]), ([0x62], [4]), ([0x63], [])]

/-- The archive object after `open` on `sample_abc`: the central directory
starts at byte 99 and holds three records. -/
def sample_abc_archive : zip_archive :=
  { m_data := sample_abc, m_size := 264, m_central_dir := some 99, m_num_entries := 3,
    m_entry_offsets := [0, 49, 96] }

deriving instance DecidableEq for Except

/-- The adapter after `open` on `sample_abc`. -/
def sample_abc_fs : zipfs_archive := { archive := sample_abc_archive, size := 3 }

/-- A stored archive with four members: one with the empty name, one named `/`
and two named `x`. -/
def sample_dup : List Nat :=
  sample_zip [([], []), ([0x2F], []), ([0x78], [1]), ([0x78], [2])]

/-- The adapter after `open` on `sample_dup`: the central directory starts at
byte 125 and holds four records. -/
def sample_dup_fs : zipfs_archive :=
  { archive :=
      { m_data := sample_dup, m_size := 334, m_central_dir := some 125, m_num_entries := 4,
        m_entry_offsets := [0, 46, 140, 93] }
    size := 4 }

namespace lru_cache

variable {Key Value : Type} [DecidableEq Key]

/-- The dereference `*it` of a list iterator: the key of the node it
designates. -/
def list_deref (l : List (Nat × Key)) (it : Option Nat) : Option Key :=
  (l.find? (fun n => decide (some n.1 = it))).map (·.2)

/-- The value stored for `key`, without touching the recency list. -/
def stored (self : lru_cache Key Value) (key : Key) : Option Value :=
  (map_find self.m_map key).map (·.1)

/-- The representation invariant of the cache, without the capacity bound. -/
structure inv (c : lru_cache Key Value) : Prop where
  nodes_nodup : (c.m_list.map Prod.fst).Nodup
  nodes_lt : ∀ n ∈ c.m_list, n.1 < c.next_node
  map_nodup : (c.m_map.map Prod.fst).Nodup
  list_nodup : (c.m_list.map Prod.snd).Nodup
  keys_iff : ∀ k, k ∈ c.m_map.map Prod.fst ↔ k ∈ c.m_list.map Prod.snd
  iter : ∀ e ∈ c.m_map, ∃ node, e.2.2 = some node ∧ (node, e.1) ∈ c.m_list

end lru_cache

/-- The calls of the eviction scenario of §8 before its last insert:
`insert(1), insert(2), get(1)`, with the entry index as value. -/
def sample_lru_ops : List (lru_op Int Nat) := [.insert 1 10, .insert 2 20, .get 1]

/-- The key that a call names, when the call is an `insert` or a `get`. -/
def lru_op.accessed {Key Value : Type} : lru_op Key Value → Option Key
  | .insert key _ => some key
  | .get key => some key
  | .contains _ => none
  | .clear => none

/-- The keys named by the inserts and gets of a sequence of calls, most recent
call first. -/
def access_log {Key Value : Type} (ops : List (lru_op Key Value)) : List Key :=
  (ops.filterMap lru_op.accessed).reverse

namespace lru_cache

variable {Key Value : Type} [DecidableEq Key]

/-- The key that a call moves to the front of the recency list: the key of an
`insert` that finds it absent, the key of a `get` that finds it present. -/
def promoted (self : lru_cache Key Value) : lru_op Key Value → Option Key
  | .insert key _ => if self.contains key then none else some key
  | .get key => if self.contains key then some key else none
  | .contains _ => none
  | .clear => none

/-- The keys promoted by a sequence of calls on `self`, most recent call first,
in front of `log`. -/
def promotion_log (self : lru_cache Key Value) (log : List Key) :
    List (lru_op Key Value) → List Key
  | [] => log
  | op :: ops => promotion_log (self.step op) ((self.promoted op).toList ++ log) ops

end lru_cache
/-- The recency list is ordered by the position of its keys in the log. -/
def recency_ordered {Key Value : Type} [DecidableEq Key] (c : lru_cache Key Value)
    (log : List Key) : Prop :=
  (c.list_keys).Pairwise (fun a b => List.indexOf a log < List.indexOf b log) ∧
    ∀ k ∈ c.list_keys, k ∈ log

/-- The direct child of the root that stands for an entry name: the name up to
and including its first `/`, the whole name when it has none. -/
def direct_child : List Nat → List Nat
  | [] => []
  | c :: cs => if c = 0x2F then [c] else c :: direct_child cs

/-- The names that the main loop of `for_each_entry("", f)` hands to the
visitor, as a function of the names of the table and of the local `dir_name`. -/
def root_walk : List (List Nat) → List Nat → List (List Nat)
  | [], _ => []
  | n :: rest, dir_name =>
    if n = [] then root_walk rest dir_name
    else
      match string_find 0x2F n with
      | none => n :: root_walk rest dir_name
      | some slash_pos =>
        if slash_pos = n.length - 1 then n :: root_walk rest (n.take (slash_pos + 1))
        else if n.take (slash_pos + 1) = dir_name then root_walk rest dir_name
        else n.take (slash_pos + 1) :: root_walk rest (n.take (slash_pos + 1))

/-- The listing entry that stands for a direct child of the root: its name
without the trailing `/`, and its kind. -/
def child_listing (c : List Nat) : List Nat × Int :=
  match string_find 0x2F c with
  | none => (c, FILE)
  | some slash_pos => (c.take slash_pos, DIR)

/-- An empty archive: an end-of-central-directory record with no entries and
no comment, 22 bytes. -/
def sample_empty : List Nat :=
  [0x50, 0x4B, 0x05, 0x06] ++ le16 0 ++ le16 0 ++ le16 0 ++ le16 0 ++ le32 0 ++ le32 0 ++ le16 0

/-- An empty archive with a comment of `n` zero bytes. -/
def sample_commented (n : Nat) : List Nat :=
  ([0x50, 0x4B, 0x05, 0x06] ++ le16 0 ++ le16 0 ++ le16 0 ++ le16 0 ++ le32 0 ++ le32 0) ++
    (le16 n ++ List.replicate n 0)

/-- An empty archive with a comment of 65535 zero bytes: the signature of its
end-of-central-directory record is 65557 bytes before the end. -/
def sample_long_comment : List Nat := sample_commented 65535

/-- Little-endian bytes of a 64-bit value. -/
def le64 (n : Nat) : List Nat := le32 (n % 4294967296) ++ le32 (n / 4294967296)

/-- A ZIP64 extended-information extra field (header id `0x0001`) with 16 data
bytes: the uncompressed and the compressed size. -/
def sample_zip64_extra (uncompressed compressed : Nat) : List Nat :=
  le16 0x0001 ++ le16 16 ++ le64 uncompressed ++ le64 compressed

/-- A ZIP file with one member. The 32-bit size fields of its headers hold
`compressed` and `uncompressed`, its central-directory record carries the extra
field `extra`, and `body` follows its local header. With `zip64` the central
directory is followed by a ZIP64 end-of-central-directory record and its
locator. -/
def sample_single (zip64 : Bool) (method compressed uncompressed : Nat)
    (name extra body : List Nat) : List Nat :=
  let l := [0x50, 0x4B, 0x03, 0x04] ++ le16 45 ++ le16 0 ++ le16 method ++ le32 0 ++ le32 0 ++
    le32 compressed ++ le32 uncompressed ++ le16 name.length ++ le16 0 ++ name ++ body
  let c := [0x50, 0x4B, 0x01, 0x02] ++ le16 45 ++ le16 45 ++ le16 0 ++ le16 method ++ le32 0 ++
    le32 0 ++ le32 compressed ++ le32 uncompressed ++ le16 name.length ++ le16 extra.length ++
    le16 0 ++ le16 0 ++ le16 0 ++ le32 0 ++ le32 0 ++ name ++ extra
  let z := if zip64 then
      [0x50, 0x4B, 0x06, 0x06] ++ le64 44 ++ le16 45 ++ le16 45 ++ le32 0 ++ le32 0 ++ le64 1 ++
        le64 1 ++ le64 c.length ++ le64 l.length ++
      [0x50, 0x4B, 0x06, 0x07] ++ le32 0 ++ le64 (l.length + c.length) ++ le32 1
    else []
  l ++ c ++ z ++ [0x50, 0x4B, 0x05, 0x06] ++ le16 0 ++ le16 0 ++ le16 1 ++ le16 1 ++
    le32 c.length ++ le32 l.length ++ le16 0

/-- A ZIP64 archive whose stored member `b` (3 bytes of content) declares, in
its ZIP64 extended information, a compressed size of `2 ^ 64 - 1`. -/
def sample_overflow : List Nat :=
  sample_single true 0 0xFFFFFFFF 0xFFFFFFFF [0x62] (sample_zip64_extra 3 (2 ^ 64 - 1)) [1, 2, 3]

/-- A ZIP64 archive whose member `big.bin` has the 32-bit sizes `0xFFFFFFFF`
and ZIP64 extended information giving 5 GiB for both sizes. -/
def sample_big : List Nat :=
  sample_single true 0 0xFFFFFFFF 0xFFFFFFFF [0x62, 0x69, 0x67, 0x2E, 0x62, 0x69, 0x6E]
    (sample_zip64_extra 5368709120 5368709120) []

/-- The archive `sample_big` without its ZIP64 end-of-central-directory record
and locator: the entry still carries the ZIP64 extended information. -/
def sample_big_plain : List Nat :=
  sample_single false 0 0xFFFFFFFF 0xFFFFFFFF [0x62, 0x69, 0x67, 0x2E, 0x62, 0x69, 0x6E]
    (sample_zip64_extra 5368709120 5368709120) []


/-- The archive object after `open` on `sample_overflow`: one record at byte
34, ZIP64 detected. -/
def sample_overflow_archive : zip_archive :=
  { m_data := sample_overflow, m_size := 199, m_central_dir := some 34, m_num_entries := 1,
    m_entry_offsets := [0], m_is_zip64 := true }

/-- The adapter after `open` on `sample_big`: one record at byte 37, ZIP64
detected. -/
def sample_big_fs : zipfs_archive :=
  { archive :=
      { m_data := sample_big, m_size := 208, m_central_dir := some 37, m_num_entries := 1,
        m_entry_offsets := [0], m_is_zip64 := true }
    size := 1 }

/-- The adapter after `open` on `sample_big_plain`: one record at byte 37, no
ZIP64 structures found. -/
def sample_big_plain_fs : zipfs_archive :=
  { archive :=
      { m_data := sample_big_plain, m_size := 132, m_central_dir := some 37, m_num_entries := 1,
        m_entry_offsets := [0] }
    size := 1 }

/-- The sizes and the local header offset `(uncompressed_size, compressed_size,
local_header_offset)` that `get_file_data` holds for the record `entry` after
its ZIP64 block (the 32-bit fields of the record, overridden by
`parse_zip64_extended_info` under the guard of that block). -/
def zip_archive.zip64_fields (self : zip_archive) (entry : Nat) : Nat × Nat × Nat :=
  (if self.m_is_zip64 && decide (dir_extra_field_length self.m_data entry > 0) then
    self.parse_zip64_extended_info
      (some (dir_file_name entry + dir_filename_length self.m_data entry))
      (dir_extra_field_length self.m_data entry)
      (dir_uncompressed_size self.m_data entry) (dir_compressed_size self.m_data entry)
      (dir_local_header_offset self.m_data entry)
  else (false, dir_uncompressed_size self.m_data entry, dir_compressed_size self.m_data entry,
    dir_local_header_offset self.m_data entry)).2

/-- The first record with header id `0x0001` of the extra field of
`extra_field_length` bytes at `extra_field`, as (pointer to its data, declared
data size); records are 4 header bytes followed by the declared data size, `k`
bounds the number of records and `pos` is the offset of the next record. -/
def zip64_record (data : List Nat) (extra_field extra_field_length : Nat) :
    Nat → Nat → Option (Nat × Nat)
  | 0, _ => none
  | k + 1, pos =>
    if pos + 4 ≤ extra_field_length then
      if read_u16 data (extra_field + pos) = 0x0001 then
        some (extra_field + pos + 4, read_u16 data (extra_field + pos + 2))
      else zip64_record data extra_field extra_field_length k
        (pos + 4 + read_u16 data (extra_field + pos + 2))
    else none

/-- The ZIP64 extended-information record of the central-directory record
`entry`, if its extra field carries one. -/
def dir_zip64_record (data : List Nat) (entry : Nat) : Option (Nat × Nat) :=
  zip64_record data (dir_file_name entry + dir_filename_length data entry)
    (dir_extra_field_length data entry) (dir_extra_field_length data entry) 0

/-! ## `zip_file_info::data` and `zipfs_archive::read` -/

/-- zlib's return code `Z_STREAM_END`. -/
def Z_STREAM_END : Int := 1

/-- zlib's return code `Z_DATA_ERROR`. -/
def Z_DATA_ERROR : Int := -3

/-- zlib's return code `Z_BUF_ERROR`. -/
def Z_BUF_ERROR : Int := -5

/-- What the call `inflate(&strm, Z_FINISH)` reports: its return code, the
number of input bytes it consumed and the bytes it wrote at `next_out`. -/
structure inflate_result where
  ret : Int
  consumed : Nat
  output : List Nat
  deriving DecidableEq, Repr

/-- The block that `malloc(size)` returned after the decoder wrote `written`
at its start: `fresh k` is the byte that the block held at offset `k` when
`malloc` handed it out, which C leaves indeterminate. -/
def malloc_written (fresh : Nat → Nat) (size : Nat) (written : List Nat) : List Nat :=
  (List.range size).map (fun k => if k < written.length then written.getD k 0 else fresh k)

/-- `zip_file_info::data`: the returned pointer (`none` for `nullptr`) and the
object afterwards. `inflate` is the raw-deflate decoder of zlib
(`inflateInit2(-MAX_WBITS)`, `inflate(Z_FINISH)`), called with the `avail_in`
bytes at `next_in` and with `avail_out`; `slice` is the archive's byte range,
`fresh` the initial content of the block that `malloc` returns, and `malloc`
is taken to succeed. -/
def zip_file_info.data (inflate : List Nat → Nat → inflate_result) (slice : List Nat)
    (fresh : Nat → Nat) (self : zip_file_info) : Option data_buffer × zip_file_info :=
  match self.data_ptr with
  | some d => (some d, self)
  | none =>
    match self.raw_ptr with
    | none => (none, self)
    | some raw =>
      if self.is_directory then (none, self)
      else if self.compression == 0 then
        (some (.in_slice raw), { self with data_ptr := some (.in_slice raw) })
      else if self.compression == 8 then
        let avail_in := self.compressed_size % 2 ^ 32
        let avail_out := self.uncompressed_size % 2 ^ 32
        let r := inflate (bytes_at slice raw avail_in) avail_out
        if r.ret ≠ Z_STREAM_END then (none, self)
        else
          let decompressed :=
            data_buffer.owned (malloc_written fresh self.uncompressed_size (r.output.take avail_out))
          (some decompressed, { self with data_ptr := some decompressed })
      else (none, self)

/-- The `n` bytes behind a pointer that `data()` returned:
`std::string_view(data, n)`. -/
def data_buffer.view (slice : List Nat) (n : Nat) : data_buffer → List Nat
  | .in_slice p => bytes_at slice p n
  | .owned bytes => bytes_at bytes 0 n

namespace lru_cache

variable {Key Value : Type} [DecidableEq Key]

/-- A write through the pointer that `get(key)` returned: the value held for
`key` becomes `value`, its list iterator stays. -/
def store (self : lru_cache Key Value) (key : Key) (value : Value) : lru_cache Key Value :=
  match map_find self.m_map key with
  | none => self
  | some i => { self with m_map := map_assign self.m_map key (value, i.2) }

end lru_cache

namespace zipfs_archive

/-- `zipfs_archive::read`: the bytes of the returned view and the object
afterwards. The function calls itself after a cache miss; the first argument
bounds the depth of these calls, and `none` means that the bound was reached. -/
def read (inflate : List Nat → Nat → inflate_result) (fresh : Nat → Nat) :
    Nat → zipfs_archive → Int → Option (List Nat × zipfs_archive)
  | 0, _, _ => none
  | fuel + 1, self, findex =>
    let g := self.cache.get findex
    match g.1 with
    | some cached_info =>
      let d := cached_info.data inflate self.archive.m_data fresh
      let self1 := { self with cache := g.2.store findex d.2 }
      match d.1 with
      | none => some ([], self1)
      | some data => some (data.view self.archive.m_data d.2.uncompressed_size, self1)
    | none =>
      let self1 := { self with cache := g.2 }
      let info := self.archive.get_file_info (int_to_size_t findex)
      match info.raw_ptr with
      | none => some ([], self1)
      | some _ => read inflate fresh fuel { self1 with cache := self1.cache.insert findex info } findex

/-- The call `cache.clear()` on the adapter. -/
def clear_cache (self : zipfs_archive) : zipfs_archive :=
  { self with cache := self.cache.clear }

/-- The adapters that an `open` of the slice followed by calls of `read` and
`clear` on the cache can produce. -/
inductive reachable (inflate : List Nat → Nat → inflate_result) (data : List Nat) (size : Nat) :
    zipfs_archive → Prop
  | opened (z : zipfs_archive) (h : ({} : zipfs_archive).open_ (some data) size = (0, z)) :
      reachable inflate data size z
  | read (z z1 : zipfs_archive) (fresh : Nat → Nat) (fuel : Nat) (findex : Int) (r : List Nat)
      (hz : reachable inflate data size z) (h : read inflate fresh fuel z findex = some (r, z1)) :
      reachable inflate data size z1
  | clear (z : zipfs_archive) (hz : reachable inflate data size z) :
      reachable inflate data size z.clear_cache

end zipfs_archive

/-- What `read` hands out for a descriptor `info` that `get_file_info`
produced, when `fresh` is the initial content of the decoder's output block:
nothing without a payload pointer or without a pointer from `data()`, else the
`uncompressed_size` bytes behind that pointer. -/
def read_result (inflate : List Nat → Nat → inflate_result) (slice : List Nat)
    (fresh : Nat → Nat) (info : zip_file_info) : List Nat :=
  match info.raw_ptr with
  | none => []
  | some _ =>
    match (info.data inflate slice fresh).1 with
    | none => []
    | some d => d.view slice info.uncompressed_size

/-- A decoder for the sample archives: zlib's `inflate(Z_FINISH)` on a raw
deflate stream that consists of one final stored block (the byte `0x01`, the
block length `LEN` and its complement `NLEN` as 16-bit little-endian values,
then `LEN` literal bytes). Everything else is reported as a data error. -/
def sample_inflate (input : List Nat) (avail_out : Nat) : inflate_result :=
  match input with
  | 0x01 :: l0 :: l1 :: n0 :: n1 :: rest =>
    let len := l0 + 256 * l1
    if n0 + 256 * n1 + len = 65535 then
      if rest.length < len ∨ avail_out < len then
        { ret := Z_BUF_ERROR, consumed := 5 + min (min rest.length len) avail_out,
          output := rest.take (min len avail_out) }
      else { ret := Z_STREAM_END, consumed := 5 + len, output := rest.take len }
    else { ret := Z_DATA_ERROR, consumed := 5, output := [] }
  | _ => { ret := Z_DATA_ERROR, consumed := 0, output := [] }

/-- The stored-block deflate stream of the one byte `A`. -/
def sample_stream : List Nat := [0x01, 0x01, 0x00, 0xFE, 0xFF, 0x41]

/-- An archive whose member `d` is deflated: its stream decodes to the one byte
`A`, its headers declare an uncompressed size of 3. -/
def sample_short : List Nat := sample_single false 8 6 3 [0x64] [] sample_stream

/-- An archive whose member `d` is deflated: its headers declare 7 compressed
bytes, the stream of 6 bytes followed by one more byte, and an uncompressed
size of 1. -/
def sample_surplus : List Nat := sample_single false 8 7 1 [0x64] [] (sample_stream ++ [0x00])

/-- An archive with the member `u` of compression method 12, 3 bytes. -/
def sample_method : List Nat := sample_single false 12 3 3 [0x75] [] [1, 2, 3]

/-- What `read` keeps in the cache of an adapter: under every key a descriptor
that `get_file_info` produced for that key with a payload pointer, as it was
produced or as a call of `data()` that returned a pointer left it. -/
def zipfs_archive.cache_ok (inflate : List Nat → Nat → inflate_result) (z : zipfs_archive) :
    Prop :=
  ∀ k v, z.cache.stored k = some v →
    (z.archive.get_file_info (int_to_size_t k)).raw_ptr ≠ none ∧
    (v = z.archive.get_file_info (int_to_size_t k) ∨
      ∃ fresh d, (z.archive.get_file_info (int_to_size_t k)).data inflate z.archive.m_data fresh
        = (some d, v))

/-- The adapter after `open` on `sample_method`. -/
def sample_method_fs : zipfs_archive :=
  { archive :=
      { m_data := sample_method, m_size := 103, m_central_dir := some 34, m_num_entries := 1,
        m_entry_offsets := [0] }
    size := 1 }

/-- The adapter after `open` on `sample_short`. -/
def sample_short_fs : zipfs_archive :=
  { archive :=
      { m_data := sample_short, m_size := 106, m_central_dir := some 37, m_num_entries := 1,
        m_entry_offsets := [0] }
    size := 1 }

/-- The adapter after `open` on `sample_surplus`. -/
def sample_surplus_fs : zipfs_archive :=
  { archive :=
      { m_data := sample_surplus, m_size := 107, m_central_dir := some 38, m_num_entries := 1,
        m_entry_offsets := [0] }
    size := 1 }

/-- A stored archive with the one member `a`, whose content is the four bytes
`50 4B 01 02`. -/
def sample_nested : List Nat := sample_zip [([0x61], [0x50, 0x4B, 0x01, 0x02])]

/-- The archive object after `open` on `sample_nested`: two signatures counted,
the first of them at byte 31, inside the content of the member. -/
def sample_nested_archive : zip_archive :=
  { m_data := sample_nested, m_size := 104, m_central_dir := some 31, m_num_entries := 2,
    m_entry_offsets := [0] }

/-- The archive `sample_method` after five zero bytes. -/
def sample_prefixed : List Nat := [0, 0, 0, 0, 0] ++ sample_method

/-- The archive object after `open` on `sample_prefixed`. -/
def sample_prefixed_archive : zip_archive :=
  { m_data := sample_prefixed, m_size := 108, m_zip_base_offset := 5, m_central_dir := some 39,
    m_num_entries := 1, m_entry_offsets := [0] }

/-- The forward walk over the central directory at `central_dir` with exact
byte offsets: it starts at offset `pos`, every record advances by
`46 + filename_length + extra_field_length + comment_length`, and it stops at
the first position without the signature `50 4B 01 02` or after `k` records. -/
def central_dir_offsets (data : List Nat) (central_dir : Nat) : Nat → Nat → List Nat
  | 0, _ => []
  | k + 1, pos =>
    if sig_at data (central_dir + pos) 0x01 0x02 then
      pos :: central_dir_offsets data central_dir k
        (pos + (46 + dir_filename_length data (central_dir + pos + 4) +
          dir_extra_field_length data (central_dir + pos + 4) +
          dir_comment_length data (central_dir + pos + 4)))
    else []

/-- Byte `j` of a central-directory record of 2048 bytes: the signature, a
`filename_length` of 2002, and zero in every other field and in the name. -/
def sample_record_byte (j : Nat) : Nat :=
  if j = 0 then 0x50 else if j = 1 then 0x4B else if j = 2 then 0x01 else if j = 3 then 0x02
  else if j = 28 then 0xD2 else if j = 29 then 0x07 else 0

/-- Byte `k` of an end-of-central-directory record with zero fields. -/
def sample_eocd_byte (k : Nat) : Nat :=
  if k = 0 then 0x50 else if k = 1 then 0x4B else if k = 2 then 0x05 else if k = 3 then 0x06
  else 0

/-- Byte `i` of `sample_records m`. -/
def sample_records_byte (m i : Nat) : Nat :=
  if i < m * 2048 then sample_record_byte (i % 2048) else sample_eocd_byte (i - m * 2048)

/-- A slice of `m` central-directory records of 2048 bytes each, followed by
an end-of-central-directory record of 22 bytes. -/
def sample_records (m : Nat) : List Nat :=
  (List.range (m * 2048 + 22)).map (sample_records_byte m)

/-- A slice with `2 ^ 21 + 1` central-directory records of 2048 bytes: the last
record starts `2 ^ 32` bytes after the first. -/
def sample_huge : List Nat := sample_records 2097153

/-- A stored archive whose only member is `a/b/c.txt`, with one byte of
content. -/
def sample_nest : List Nat :=
  sample_zip [([0x61, 0x2F, 0x62, 0x2F, 0x63, 0x2E, 0x74, 0x78, 0x74], [1])]

/-- The adapter after `open` on `sample_nest`: one record at byte 40. -/
def sample_nest_fs : zipfs_archive :=
  { archive :=
      { m_data := sample_nest, m_size := 117, m_central_dir := some 40, m_num_entries := 1,
        m_entry_offsets := [0] }
    size := 1 }

/-- `STATUS_SUCCESS`. -/
def STATUS_SUCCESS : Nat := 0

/-- `STATUS_UNSUCCESSFUL`. -/
def STATUS_UNSUCCESSFUL : Nat := 0xC0000001

/-- What `zmReadFile` does for its caller: the returned `NTSTATUS`, the value
stored in `*ReadLength`, and the source range of its `memcpy`, as the pair of
`Offset` (relative to the start of the content) and the byte count `toread`;
`none` when `memcpy` is not reached. -/
structure read_reply where
  status : Nat
  ReadLength : Nat
  copied : Option (Int × Nat)
  deriving DecidableEq, Repr

/-- `zmReadFile`, from the point where `ar.read(findex)` has returned the view
`s`. `size - Offset` is evaluated in `size_t` (the `LONGLONG` `Offset` is
converted to unsigned, the difference is taken modulo `2 ^ 64`), and
`BufferLength` and `*ReadLength` are `DWORD`s. -/
def zmReadFile (s : List Nat) (BufferLength : Nat) (Offset : Int) : read_reply :=
  if s.isEmpty then { status := STATUS_UNSUCCESSFUL, ReadLength := 0, copied := none }
  else
    let size := s.length
    let toread := min ((size + 2 ^ 64 - int_to_size_t Offset) % 2 ^ 64) (BufferLength % 2 ^ 32)
    { status := STATUS_SUCCESS, ReadLength := toread % 2 ^ 32, copied := some (Offset, toread) }

/-- A name of 1025 bytes: 1023 bytes `a`, then `/x`. -/
def sample_long_name : List Nat := List.replicate 1023 0x61 ++ [0x2F, 0x78]

/-- A stored archive whose only member, with no content, is named
`sample_long_name`: 2148 bytes, local header at 0, central-directory record at
1055, end-of-central-directory record at 2126. -/
def sample_long : List Nat := sample_zip [(sample_long_name, [])]

/-- The 30 bytes of the local file header of `sample_long` before the name. -/
def sample_long_local : List Nat :=
  [0x50, 0x4B, 0x03, 0x04] ++ le16 20 ++ le16 0 ++ le16 0 ++ le32 0 ++ le32 0 ++
    le32 0 ++ le32 0 ++ le16 1025 ++ le16 0

/-- The 46 bytes of the central-directory record of `sample_long` before the
name. -/
def sample_long_central : List Nat :=
  [0x50, 0x4B, 0x01, 0x02] ++ le16 20 ++ le16 20 ++ le16 0 ++ le16 0 ++ le32 0 ++ le32 0 ++
    le32 0 ++ le32 0 ++ le16 1025 ++ le16 0 ++ le16 0 ++ le16 0 ++ le16 0 ++ le32 0 ++ le32 0

/-- The 22 bytes of the end-of-central-directory record of `sample_long`. -/
def sample_long_end : List Nat :=
  [0x50, 0x4B, 0x05, 0x06] ++ le16 0 ++ le16 0 ++ le16 1 ++ le16 1 ++ le32 1071 ++ le32 1055 ++
    le16 0

/-- Byte `j` of `sample_long_name`. -/
def sample_long_name_byte (j : Nat) : Nat :=
  if j < 1023 then 0x61 else if j = 1023 then 0x2F else if j = 1024 then 0x78 else 0

/-- Byte `i` of `sample_long`. -/
def sample_long_byte (i : Nat) : Nat :=
  if i < 30 then sample_long_local.getD i 0
  else if i < 1055 then sample_long_name_byte (i - 30)
  else if i < 1101 then sample_long_central.getD (i - 1055) 0
  else if i < 2126 then sample_long_name_byte (i - 1101)
  else sample_long_end.getD (i - 2126) 0

/-! ## Lemmas: bytes and `memcmp` -/

open zip_archive lru_cache

theorem bytes_at_length (data : List Nat) (p n : Nat) : (bytes_at data p n).length = n := by
  simp [bytes_at]

theorem bytes_at_take (data : List Nat) (p n m : Nat) (h : m ≤ n) :
    (bytes_at data p n).take m = bytes_at data p m := by
  unfold bytes_at
  rw [← List.map_take, List.take_range, Nat.min_eq_left h]

theorem dir_entry_name_length (data : List Nat) (entry : Nat) :
    (dir_entry_name data entry).length = dir_filename_length data entry := by
  simp [dir_entry_name, bytes_at_length]

theorem memcmp_take (x y : List Nat) (m : Nat) :
    memcmp (x.take m) (y.take m) m = memcmp x y m := by
  induction m generalizing x y with
  | zero => simp [memcmp]
  | succ m ih =>
    cases x with
    | nil => cases y <;> simp [memcmp]
    | cons a as =>
      cases y with
      | nil => simp [memcmp]
      | cons b bs => simp [memcmp, ih]

theorem memcmp_self_eq_zero (x y : List Nat) (m : Nat) (hx : m ≤ x.length) (hy : m ≤ y.length) :
    memcmp x y m = 0 ↔ x.take m = y.take m := by
  induction m generalizing x y with
  | zero => simp [memcmp]
  | succ m ih =>
    cases x with
    | nil => simp at hx
    | cons a as =>
      cases y with
      | nil => simp at hy
      | cons b bs =>
        simp only [List.length_cons, Nat.add_le_add_iff_right] at hx hy
        simp only [memcmp, List.take_succ_cons, List.cons.injEq]
        by_cases h1 : a < b
        · simp [h1]; omega
        · by_cases h2 : b < a
          · simp [h1, h2]; omega
          · have : a = b := by omega
            simp [h1, h2, this, ih as bs hx hy]

/-- The comparison made by the sort comparator and by the lookup, on two whole
names: `memcmp` on the common length, then the shorter name first. -/
theorem memcmp_min_less (x y : List Nat) :
    (if memcmp x y (min x.length y.length) == 0 then decide (x.length < y.length)
      else decide (memcmp x y (min x.length y.length) < 0)) = name_less x y := by
  induction x generalizing y with
  | nil => cases y <;> simp [memcmp, name_less]
  | cons a as ih =>
    cases y with
    | nil => simp [memcmp, name_less]
    | cons b bs =>
      have h := ih bs
      simp only [List.length_cons, Nat.succ_min_succ, memcmp, name_less]
      by_cases h1 : a < b
      · simp [h1]
      · by_cases h2 : b < a
        · simp [h1, h2]
        · simp only [h1, h2, if_false]
          simpa using h

/-! ## Lemmas: `name_less` is a strict total order -/

theorem name_less_irrefl (x : List Nat) : name_less x x = false := by
  induction x with
  | nil => rfl
  | cons a as ih => simp [name_less, ih]

theorem name_less_asymm (x y : List Nat) (h : name_less x y = true) : name_less y x = false := by
  induction x generalizing y with
  | nil => cases y <;> simp_all [name_less]
  | cons a as ih =>
    cases y with
    | nil => simp [name_less] at h
    | cons b bs =>
      simp only [name_less] at h ⊢
      by_cases h1 : a < b
      · have : ¬ b < a := by omega
        simp [h1, this]
      · by_cases h2 : b < a
        · simp [h1, h2] at h
        · simp only [h1, h2, if_false] at h ⊢
          exact ih bs h

theorem name_less_trans (x y z : List Nat) (h1 : name_less x y = true)
    (h2 : name_less y z = true) : name_less x z = true := by
  induction x generalizing y z with
  | nil =>
    cases z with
    | nil => cases y <;> simp_all [name_less]
    | cons c cs => simp [name_less]
  | cons a as ih =>
    cases y with
    | nil => simp [name_less] at h1
    | cons b bs =>
      cases z with
      | nil => simp [name_less] at h2
      | cons c cs =>
        simp only [name_less] at h1 h2 ⊢
        by_cases hab : a < b
        · by_cases hbc : b < c
          · have : a < c := by omega
            simp [this]
          · by_cases hcb : c < b
            · simp [hbc, hcb] at h2
            · have : a < c := by omega
              simp [this]
        · by_cases hba : b < a
          · simp [hab, hba] at h1
          · simp only [hab, hba, if_false] at h1
            have hab' : a = b := by omega
            subst hab'
            by_cases hac : a < c
            · simp [hac]
            · by_cases hca : c < a
              · simp [hac, hca] at h2
              · simp only [hac, hca, if_false] at h2 ⊢
                exact ih bs cs h1 h2

theorem name_less_total (x y : List Nat) (h1 : name_less x y = false)
    (h2 : name_less y x = false) : x = y := by
  induction x generalizing y with
  | nil => cases y <;> simp_all [name_less]
  | cons a as ih =>
    cases y with
    | nil => simp [name_less] at h2
    | cons b bs =>
      simp only [name_less] at h1 h2
      by_cases hab : a < b
      · simp [hab] at h1
      · by_cases hba : b < a
        · simp [hba] at h2
        · simp only [hab, hba, if_false] at h1 h2
          have : a = b := by omega
          rw [this, ih bs h1 h2]

/-- From `x ≤ y` and `y < z` follows `x < z`. -/
theorem name_less_of_le_of_less (x y z : List Nat) (h1 : name_less y x = false)
    (h2 : name_less y z = true) : name_less x z = true := by
  by_cases h : name_less x y = true
  · exact name_less_trans x y z h h2
  · have : x = y := name_less_total x y (by simpa using h) h1
    rw [this]; exact h2

/-- From `x < y` and `y ≤ z` follows `x < z`. -/
theorem name_less_of_less_of_le (x y z : List Nat) (h1 : name_less x y = true)
    (h2 : name_less z y = false) : name_less x z = true := by
  by_cases h : name_less y z = true
  · exact name_less_trans x y z h1 h
  · have : y = z := name_less_total y z (by simpa using h) h2
    rw [← this]; exact h1

/-! ## Lemmas: `std_sort` -/

theorem sort_insert_perm {α : Type} (less : α → α → Bool) (x : α) (l : List α) :
    (sort_insert less x l).Perm (x :: l) := by
  induction l with
  | nil => simp [sort_insert]
  | cons y ys ih =>
    simp only [sort_insert]
    split
    · exact List.Perm.refl _
    · exact (List.Perm.cons y ih).trans (List.Perm.swap x y ys)

theorem std_sort_perm {α : Type} (less : α → α → Bool) (l : List α) :
    (std_sort less l).Perm l := by
  induction l with
  | nil => simp [std_sort]
  | cons x xs ih =>
    simp only [std_sort]
    exact (sort_insert_perm less x _).trans (List.Perm.cons x ih)

theorem std_sort_length {α : Type} (less : α → α → Bool) (l : List α) :
    (std_sort less l).length = l.length :=
  (std_sort_perm less l).length_eq

theorem sort_insert_pairwise {α : Type} (less : α → α → Bool)
    (hasymm : ∀ a b, less a b = true → less b a = false)
    (htrans : ∀ a b c, less a b = true → less b c = true → less a c = true)
    (x : α) (l : List α) (h : l.Pairwise (fun a b => less b a = false)) :
    (sort_insert less x l).Pairwise (fun a b => less b a = false) := by
  induction l with
  | nil => simp [sort_insert]
  | cons y ys ih =>
    rw [List.pairwise_cons] at h
    simp only [sort_insert]
    by_cases hxy : less x y = true
    · simp only [hxy, if_true]
      refine List.Pairwise.cons ?_ (List.Pairwise.cons h.1 h.2)
      intro z hz
      rcases List.mem_cons.mp hz with rfl | hz
      · exact hasymm _ _ hxy
      · by_cases hzx : less z x = true
        · have := htrans z x y hzx hxy
          rw [h.1 z hz] at this
          exact absurd this (by simp)
        · simpa using hzx
    · simp only [hxy]
      refine List.Pairwise.cons ?_ (ih h.2)
      intro z hz
      have hz' : z ∈ x :: ys := (sort_insert_perm less x ys).subset hz
      rcases List.mem_cons.mp hz' with rfl | hz'
      · simpa using hxy
      · exact h.1 z hz'

theorem std_sort_pairwise {α : Type} (less : α → α → Bool)
    (hasymm : ∀ a b, less a b = true → less b a = false)
    (htrans : ∀ a b c, less a b = true → less b c = true → less a c = true)
    (l : List α) : (std_sort less l).Pairwise (fun a b => less b a = false) := by
  induction l with
  | nil => simp [std_sort]
  | cons x xs ih => exact sort_insert_pairwise less hasymm htrans x _ ih

/-! ## Lemmas: what `open` establishes -/

theorem entry_offset_less_eq (data : List Nat) (central_dir a b : Nat) :
    zip_archive.entry_offset_less data central_dir a b =
      name_less (dir_entry_name data (central_dir + a + 4))
        (dir_entry_name data (central_dir + b + 4)) := by
  have h := memcmp_min_less (dir_entry_name data (central_dir + a + 4))
    (dir_entry_name data (central_dir + b + 4))
  simp only [dir_entry_name_length] at h
  rw [← h]
  simp only [zip_archive.entry_offset_less]
  have e1 : bytes_at data (dir_file_name (central_dir + a + 4))
      (min (dir_filename_length data (central_dir + a + 4))
        (dir_filename_length data (central_dir + b + 4))) =
      (dir_entry_name data (central_dir + a + 4)).take
        (min (dir_filename_length data (central_dir + a + 4))
          (dir_filename_length data (central_dir + b + 4))) := by
    rw [dir_entry_name, bytes_at_take _ _ _ _ (Nat.min_le_left _ _)]
  have e2 : bytes_at data (dir_file_name (central_dir + b + 4))
      (min (dir_filename_length data (central_dir + a + 4))
        (dir_filename_length data (central_dir + b + 4))) =
      (dir_entry_name data (central_dir + b + 4)).take
        (min (dir_filename_length data (central_dir + a + 4))
          (dir_filename_length data (central_dir + b + 4))) := by
    rw [dir_entry_name, bytes_at_take _ _ _ _ (Nat.min_le_right _ _)]
  rw [e1, e2, memcmp_take]

theorem central_dir_walk_length (data : List Nat) (central_dir k pos : Nat) :
    (zip_archive.central_dir_walk data central_dir k pos).length ≤ k := by
  induction k generalizing pos with
  | zero => simp [zip_archive.central_dir_walk]
  | succ k ih =>
    simp only [zip_archive.central_dir_walk]
    split
    · simp
    · simp only [List.length_cons]
      have := ih (pos + (46 + dir_filename_length data (central_dir + pos + 4) +
        dir_extra_field_length data (central_dir + pos + 4) +
        dir_comment_length data (central_dir + pos + 4)))
      omega

theorem parse_central_directory_opened (s : zip_archive) (h0 : s.m_entry_offsets = [])
    (hcd : s.m_central_dir = none → s.m_num_entries = 0) :
    s.parse_central_directory.opened := by
  unfold zip_archive.parse_central_directory
  by_cases hn : s.m_num_entries = 0
  · simp only [hn, beq_self_eq_true, if_true]
    exact ⟨by simp [zip_archive.entry_names, h0], by simp [h0], hcd⟩
  · have hn' : (s.m_num_entries == 0) = false := by simpa using hn
    simp only [hn', Bool.false_eq_true, if_false]
    refine ⟨?_, ?_, hcd⟩
    · simp only [zip_archive.entry_names]
      rw [List.pairwise_map]
      have hs := std_sort_pairwise (zip_archive.entry_offset_less s.m_data (s.m_central_dir.getD 0))
        (fun a b h => by
          rw [entry_offset_less_eq] at h ⊢
          exact name_less_asymm _ _ h)
        (fun a b c h1 h2 => by
          rw [entry_offset_less_eq] at h1 h2 ⊢
          exact name_less_trans _ _ _ h1 h2)
        (zip_archive.central_dir_walk s.m_data (s.m_central_dir.getD 0) s.m_num_entries 0)
      refine hs.imp ?_
      intro a b hab
      rw [entry_offset_less_eq] at hab
      exact hab
    · simp only [std_sort_length]
      exact central_dir_walk_length _ _ _ _

theorem check_zip64_support_fields (s : zip_archive) (eocd_pos : Nat) :
    (s.check_zip64_support eocd_pos).m_data = s.m_data ∧
    (s.check_zip64_support eocd_pos).m_size = s.m_size ∧
    (s.check_zip64_support eocd_pos).m_central_dir = s.m_central_dir ∧
    (s.check_zip64_support eocd_pos).m_num_entries = s.m_num_entries ∧
    (s.check_zip64_support eocd_pos).m_entry_offsets = s.m_entry_offsets := by
  unfold zip_archive.check_zip64_support
  split
  · simp
  · dsimp only
    split
    · simp
    · split <;> simp

theorem find_zip_base_offset_fields (s : zip_archive) :
    s.find_zip_base_offset.1.m_data = s.m_data ∧
    s.find_zip_base_offset.1.m_entry_offsets = s.m_entry_offsets ∧
    (s.m_central_dir = none → s.m_num_entries = 0 →
      s.find_zip_base_offset.1.m_central_dir = none → s.find_zip_base_offset.1.m_num_entries = 0) := by
  unfold zip_archive.find_zip_base_offset
  simp only
  split <;> simp_all

/-- A successful `open` on a fresh object yields a sorted entry table. -/
theorem open_opened (data : List Nat) (size : Nat) (ar : zip_archive)
    (h : zip_archive.open_ {} data size = .ok ar) : ar.opened ∧ ar.m_data = data := by
  unfold zip_archive.open_ at h
  split at h
  · exact absurd h (by simp)
  · rename_i eocd_pos _
    simp only at h
    split at h
    · exact absurd h (by simp)
    · injection h with h
      subst h
      have hc := check_zip64_support_fields
        ({ m_data := data, m_size := size } : zip_archive) eocd_pos
      have hf := find_zip_base_offset_fields
        (({ m_data := data, m_size := size } : zip_archive).check_zip64_support eocd_pos)
      constructor
      · apply parse_central_directory_opened
        · show (zip_archive.find_zip_base_offset _).1.m_entry_offsets = []
          rw [hf.2.1, hc.2.2.2.2]
        · show (zip_archive.find_zip_base_offset _).1.m_central_dir = none →
            (zip_archive.find_zip_base_offset _).1.m_num_entries = 0
          exact hf.2.2 (by rw [hc.2.2.1]) (by rw [hc.2.2.2.1])
      · have : ∀ s : zip_archive, s.parse_central_directory.m_data = s.m_data := by
          intro s; unfold zip_archive.parse_central_directory; split <;> rfl
        rw [this]
        show (zip_archive.find_zip_base_offset _).1.m_data = data
        rw [hf.1, hc.1]

theorem memcmp_take_left (x y : List Nat) (m : Nat) :
    memcmp (x.take m) y m = memcmp x y m := by
  induction m generalizing x y with
  | zero => simp [memcmp]
  | succ m ih =>
    cases x with
    | nil => cases y <;> simp [memcmp]
    | cons a as =>
      cases y with
      | nil => simp [memcmp]
      | cons b bs => simp [memcmp, ih]

/-- The equality test of the linear fallback holds exactly for an equal name. -/
theorem name_match_iff (data : List Nat) (entry : Nat) (q : List Nat) :
    (dir_filename_length data entry == q.length &&
      memcmp (bytes_at data (dir_file_name entry) q.length) q q.length == 0) = true ↔
    dir_entry_name data entry = q := by
  by_cases hl : dir_filename_length data entry = q.length
  · have hx : bytes_at data (dir_file_name entry) q.length = dir_entry_name data entry := by
      rw [dir_entry_name, hl]
    have hlen : (dir_entry_name data entry).length = q.length := by
      rw [dir_entry_name_length, hl]
    rw [hx]
    simp only [hl, beq_self_eq_true, Bool.true_and, beq_iff_eq]
    rw [memcmp_self_eq_zero _ _ _ (by omega) (by omega)]
    rw [← hlen, List.take_length, hlen, List.take_length]
  · constructor
    · intro h
      simp [hl] at h
    · intro h
      rw [← h, dir_entry_name_length] at hl
      exact absurd rfl hl

/-- The three-way comparison of `find_entry_index` decides the order of names. -/
theorem compare_filename_spec (data : List Nat) (entry : Nat) (q : List Nat) :
    (compare_filename data entry q = 0 ↔ dir_entry_name data entry = q) ∧
    (compare_filename data entry q < 0 ↔ name_less (dir_entry_name data entry) q = true) := by
  have hm := memcmp_min_less (dir_entry_name data entry) q
  rw [dir_entry_name_length] at hm
  by_cases hl : dir_filename_length data entry = q.length
  · have hx : bytes_at data (dir_file_name entry) q.length = dir_entry_name data entry := by
      rw [dir_entry_name, hl]
    have hlen : (dir_entry_name data entry).length = q.length := by
      rw [dir_entry_name_length, hl]
    have hc : compare_filename data entry q = memcmp (dir_entry_name data entry) q q.length := by
      simp [compare_filename, hl, hx]
    rw [hl, Nat.min_self] at hm
    have hz := memcmp_self_eq_zero (dir_entry_name data entry) q q.length (by omega) (by omega)
    rw [← hlen, List.take_length, hlen, List.take_length] at hz
    rw [hc]
    refine ⟨hz, ?_⟩
    by_cases h0 : memcmp (dir_entry_name data entry) q q.length = 0
    · simp [h0] at hm
      simp [h0, hm]
    · simp [h0] at hm
      rw [← hm]; simp
  · have hx : bytes_at data (dir_file_name entry) (min (dir_filename_length data entry) q.length) =
        (dir_entry_name data entry).take (min (dir_filename_length data entry) q.length) := by
      rw [dir_entry_name, bytes_at_take _ _ _ _ (Nat.min_le_left _ _)]
    have hne : dir_entry_name data entry ≠ q := by
      intro h; rw [← h, dir_entry_name_length] at hl; exact hl rfl
    have hl' : (dir_filename_length data entry == q.length) = false := by simpa using hl
    simp only [compare_filename, hl', Bool.false_eq_true, if_false, hx, memcmp_take_left]
    by_cases h0 : memcmp (dir_entry_name data entry) q (min (dir_filename_length data entry) q.length) = 0
    · simp only [h0, beq_self_eq_true, if_true] at hm ⊢
      rw [← hm]
      by_cases hlt : dir_filename_length data entry < q.length
      · simp [hlt, hne]
      · simp [hlt, hne]
    · have h0' : (memcmp (dir_entry_name data entry) q
          (min (dir_filename_length data entry) q.length) == 0) = false := by simpa using h0
      simp only [h0', Bool.false_eq_true, if_false] at hm ⊢
      rw [← hm]
      simp [h0, hne]

/-! ## Lemmas: lookup by index and by name -/

theorem find_entry_by_index_eq (ar : zip_archive) (c i : Nat) (hc : ar.m_central_dir = some c)
    (hop : ar.opened) :
    ar.find_entry_by_index i =
      if i < ar.m_entry_offsets.length then some (c + ar.m_entry_offsets.getD i 0 + 4) else none := by
  have := hop.length_le
  unfold find_entry_by_index
  rw [hc]
  by_cases h : i < ar.m_entry_offsets.length
  · have h2 : ¬ i ≥ ar.m_num_entries := by omega
    simp [h, h2]
  · simp [h]

theorem find_entry_by_index_none_dir (ar : zip_archive) (i : Nat) (hc : ar.m_central_dir = none) :
    ar.find_entry_by_index i = none := by
  unfold find_entry_by_index
  rw [hc]

theorem get_filename_of_some (ar : zip_archive) (i entry : Nat)
    (h : ar.find_entry_by_index i = some entry) :
    ar.get_filename i = dir_entry_name ar.m_data entry := by
  simp [get_filename, h]

theorem get_filename_of_none (ar : zip_archive) (i : Nat)
    (h : ar.find_entry_by_index i = none) : ar.get_filename i = [] := by
  simp [get_filename, h]

theorem find_entry_by_index_lt (ar : zip_archive) (i entry : Nat) (hop : ar.opened)
    (h : ar.find_entry_by_index i = some entry) : i < ar.m_entry_offsets.length := by
  cases hc : ar.m_central_dir with
  | none => rw [find_entry_by_index_none_dir ar i hc] at h; exact absurd h (by simp)
  | some c =>
    rw [find_entry_by_index_eq ar c i hc hop] at h
    by_contra hn
    simp [hn] at h

theorem get_filename_eq_getD (ar : zip_archive) (i : Nat) (hop : ar.opened) :
    ar.get_filename i = ar.entry_names.getD i [] := by
  cases hc : ar.m_central_dir with
  | none =>
    have h0 := hop.null_dir hc
    have h1 := hop.length_le
    have h2 : ar.m_entry_offsets = [] := List.length_eq_zero.mp (by omega)
    rw [get_filename_of_none ar i (find_entry_by_index_none_dir ar i hc)]
    simp [entry_names, h2]
  | some c =>
    by_cases h : i < ar.m_entry_offsets.length
    · have he := find_entry_by_index_eq ar c i hc hop
      simp only [h, if_true] at he
      rw [get_filename_of_some ar i _ he]
      simp [entry_names, name_at, hc, List.getD_eq_getElem?_getD, List.getElem?_eq_getElem h]
    · have he := find_entry_by_index_eq ar c i hc hop
      simp only [h, if_false] at he
      rw [get_filename_of_none ar i he]
      simp [entry_names, List.getD_eq_getElem?_getD, List.getElem?_eq_none (Nat.le_of_not_lt h)]

/-- The names of the entry table never decrease along the table. -/
theorem get_filename_sorted (ar : zip_archive) (hop : ar.opened) (i j : Nat) (hij : i < j)
    (hj : j < ar.m_entry_offsets.length) :
    name_less (ar.get_filename j) (ar.get_filename i) = false := by
  rw [get_filename_eq_getD ar i hop, get_filename_eq_getD ar j hop]
  have hl : ar.entry_names.length = ar.m_entry_offsets.length := by simp [entry_names]
  have hs := hop.sorted
  rw [List.pairwise_iff_getElem] at hs
  have := hs i j (by omega) (by omega) hij
  simpa [List.getD_eq_getElem?_getD, List.getElem?_eq_getElem, hl, hj, Nat.lt_trans hij hj]
    using this

theorem find_entry_linear_spec (ar : zip_archive) (q : List Nat) (hq : q ≠ []) (k i : Nat)
    (hk : i + k ≤ ar.m_num_entries) :
    ((∃ j, i ≤ j ∧ j < i + k ∧ ar.get_filename j = q) →
      ar.find_entry_linear q k i < ar.m_num_entries ∧
        ar.get_filename (ar.find_entry_linear q k i) = q) ∧
    ((∀ j, i ≤ j → j < i + k → ar.get_filename j ≠ q) →
      ar.find_entry_linear q k i = ar.m_num_entries) := by
  induction k generalizing i with
  | zero =>
    refine ⟨?_, fun _ => rfl⟩
    rintro ⟨j, h1, h2, _⟩
    omega
  | succ k ih =>
    have ih' := ih (i + 1) (by omega)
    cases he : ar.find_entry_by_index i with
    | none =>
      have hn := get_filename_of_none ar i he
      have hr : ar.find_entry_linear q (k + 1) i = ar.find_entry_linear q k (i + 1) := by
        simp [find_entry_linear, he]
      rw [hr]
      constructor
      · rintro ⟨j, h1, h2, h3⟩
        apply ih'.1
        refine ⟨j, ?_, by omega, h3⟩
        by_contra hlt
        have : j = i := by omega
        rw [this, hn] at h3
        exact hq h3.symm
      · intro h
        exact ih'.2 (fun j h1 h2 => h j (by omega) (by omega))
    | some entry =>
      have hn := get_filename_of_some ar i entry he
      by_cases hm : dir_entry_name ar.m_data entry = q
      · have hr : ar.find_entry_linear q (k + 1) i = i := by
          have := (name_match_iff ar.m_data entry q).mpr hm
          simp only [find_entry_linear, he]
          rw [if_pos this]
        rw [hr]
        constructor
        · intro _
          exact ⟨by omega, by rw [hn, hm]⟩
        · intro h
          exact absurd (by rw [hn, hm]) (h i (Nat.le_refl _) (by omega))
      · have hr : ar.find_entry_linear q (k + 1) i = ar.find_entry_linear q k (i + 1) := by
          have := (name_match_iff ar.m_data entry q).not.mpr hm
          simp only [find_entry_linear, he]
          rw [if_neg this]
        rw [hr]
        constructor
        · rintro ⟨j, h1, h2, h3⟩
          apply ih'.1
          refine ⟨j, ?_, by omega, h3⟩
          by_contra hlt
          have : j = i := by omega
          rw [this, hn] at h3
          exact hm h3
        · intro h
          exact ih'.2 (fun j h1 h2 => h j (by omega) (by omega))

theorem find_entry_search_spec (ar : zip_archive) (hop : ar.opened) (q : List Nat) (hq : q ≠ [])
    (k left right : Nat) (hk : right - left ≤ k) (hr : right ≤ ar.m_num_entries)
    (hlo : ∀ j, j < left → j < ar.m_entry_offsets.length →
      name_less (ar.get_filename j) q = true)
    (hhi : ∀ j, right ≤ j → j < ar.m_entry_offsets.length →
      name_less q (ar.get_filename j) = true) :
    ((∃ j, j < ar.m_entry_offsets.length ∧ ar.get_filename j = q) →
      ar.find_entry_search q k left right < ar.m_num_entries ∧
        ar.get_filename (ar.find_entry_search q k left right) = q) ∧
    ((∀ j, j < ar.m_entry_offsets.length → ar.get_filename j ≠ q) →
      ar.find_entry_search q k left right = ar.m_num_entries) := by
  -- a match can only sit inside the interval
  have hin : ∀ j, j < ar.m_entry_offsets.length → ar.get_filename j = q →
      left ≤ j ∧ j < right := by
    intro j hj hjq
    constructor
    · by_contra hlt
      have := hlo j (by omega) hj
      rw [hjq, name_less_irrefl] at this
      exact absurd this (by simp)
    · by_contra hge
      have := hhi j (by omega) hj
      rw [hjq, name_less_irrefl] at this
      exact absurd this (by simp)
  induction k generalizing left right with
  | zero =>
    refine ⟨?_, fun _ => rfl⟩
    rintro ⟨j, hj, hjq⟩
    have := hin j hj hjq
    omega
  | succ k ih =>
    by_cases hlr : left < right
    · have hmid1 : left ≤ left + (right - left) / 2 := by omega
      have hmid2 : left + (right - left) / 2 < right := by omega
      cases he : ar.find_entry_by_index (left + (right - left) / 2) with
      | none =>
        have hres : ar.find_entry_search q (k + 1) left right =
            ar.find_entry_linear q (right - left) left := by
          simp [find_entry_search, hlr, he]
        rw [hres]
        have hlin := find_entry_linear_spec ar q hq (right - left) left (by omega)
        constructor
        · rintro ⟨j, hj, hjq⟩
          have := hin j hj hjq
          exact hlin.1 ⟨j, this.1, by omega, hjq⟩
        · intro h
          apply hlin.2
          intro j h1 h2 hjq
          by_cases hj : j < ar.m_entry_offsets.length
          · exact h j hj hjq
          · have : ar.find_entry_by_index j = none := by
              cases hf : ar.find_entry_by_index j with
              | none => rfl
              | some e => exact absurd (find_entry_by_index_lt ar j e hop hf) hj
            rw [get_filename_of_none ar j this] at hjq
            exact hq hjq.symm
      | some entry =>
        have hn := get_filename_of_some ar _ entry he
        have hmlt := find_entry_by_index_lt ar _ entry hop he
        have hcmp := compare_filename_spec ar.m_data entry q
        by_cases h0 : compare_filename ar.m_data entry q = 0
        · have hres : ar.find_entry_search q (k + 1) left right = left + (right - left) / 2 := by
            simp [find_entry_search, hlr, he, h0]
          rw [hres]
          have hq' : ar.get_filename (left + (right - left) / 2) = q := by
            rw [hn]; exact hcmp.1.mp h0
          constructor
          · intro _
            exact ⟨by omega, hq'⟩
          · intro h
            exact absurd hq' (h _ hmlt)
        · have h0' : (compare_filename ar.m_data entry q == 0) = false := by simpa using h0
          by_cases hneg : compare_filename ar.m_data entry q < 0
          · have hres : ar.find_entry_search q (k + 1) left right =
                ar.find_entry_search q k (left + (right - left) / 2 + 1) right := by
              simp [find_entry_search, hlr, he, h0, hneg]
            rw [hres]
            have hless : name_less (ar.get_filename (left + (right - left) / 2)) q = true := by
              rw [hn]; exact hcmp.2.mp hneg
            have hlo' : ∀ j, j < left + (right - left) / 2 + 1 → j < ar.m_entry_offsets.length →
                name_less (ar.get_filename j) q = true := by
              intro j hj1 hj2
              by_cases hjm : j = left + (right - left) / 2
              · rw [hjm]; exact hless
              · exact name_less_of_le_of_less _ _ _
                  (get_filename_sorted ar hop j _ (by omega) hmlt) hless
            apply ih (left + (right - left) / 2 + 1) right (by omega) hr hlo' hhi
            intro j hj hjq
            constructor
            · by_contra hlt
              have := hlo' j (by omega) hj
              rw [hjq, name_less_irrefl] at this
              exact absurd this (by simp)
            · exact (hin j hj hjq).2
          · have hres : ar.find_entry_search q (k + 1) left right =
                ar.find_entry_search q k left (left + (right - left) / 2) := by
              simp [find_entry_search, hlr, he, h0, hneg]
            rw [hres]
            have hne : dir_entry_name ar.m_data entry ≠ q := fun h => h0 (hcmp.1.mpr h)
            have hnl : name_less (dir_entry_name ar.m_data entry) q = false := by
              cases hh : name_less (dir_entry_name ar.m_data entry) q with
              | false => rfl
              | true => exact absurd (hcmp.2.mpr hh) hneg
            have hgt : name_less q (ar.get_filename (left + (right - left) / 2)) = true := by
              rw [hn]
              cases hh : name_less q (dir_entry_name ar.m_data entry) with
              | true => rfl
              | false => exact absurd (name_less_total _ _ hnl hh) hne
            have hhi' : ∀ j, left + (right - left) / 2 ≤ j → j < ar.m_entry_offsets.length →
                name_less q (ar.get_filename j) = true := by
              intro j hj1 hj2
              by_cases hjm : j = left + (right - left) / 2
              · rw [hjm]; exact hgt
              · exact name_less_of_less_of_le _ _ _ hgt
                  (get_filename_sorted ar hop _ j (by omega) hj2)
            apply ih left (left + (right - left) / 2) (by omega) (by omega) hlo hhi'
            intro j hj hjq
            constructor
            · exact (hin j hj hjq).1
            · by_contra hge
              have := hhi' j (by omega) hj
              rw [hjq, name_less_irrefl] at this
              exact absurd this (by simp)
    · have hres : ar.find_entry_search q (k + 1) left right = ar.m_num_entries := by
        simp [find_entry_search, hlr]
      rw [hres]
      refine ⟨?_, fun _ => rfl⟩
      rintro ⟨j, hj, hjq⟩
      have := hin j hj hjq
      omega

/-- Lookup by name on a sorted table: an entry named `q` is found, and the
not-found marker is returned exactly when there is none. -/
theorem find_entry_index_spec (ar : zip_archive) (hop : ar.opened) (q : List Nat)
    (hq : q ≠ []) :
    ((∃ i, i < ar.size ∧ ar.get_filename i = q) →
      ar.find_entry_index q < ar.size ∧ ar.get_filename (ar.find_entry_index q) = q) ∧
    ((∀ i, i < ar.size → ar.get_filename i ≠ q) → ar.find_entry_index q = ar.size) := by
  have hlen : q.length ≠ 0 := by
    intro h; exact hq (List.length_eq_zero.mp h)
  cases hc : ar.m_central_dir with
  | none =>
    have hr : ar.find_entry_index q = ar.m_num_entries := by
      simp [find_entry_index, hc]
    rw [hr]
    refine ⟨?_, fun _ => rfl⟩
    rintro ⟨i, _, hi⟩
    rw [get_filename_of_none ar i (find_entry_by_index_none_dir ar i hc)] at hi
    exact absurd hi.symm hq
  | some c =>
    have hr : ar.find_entry_index q =
        ar.find_entry_search q ar.m_num_entries 0 ar.m_num_entries := by
      simp [find_entry_index, hc, hlen]
    rw [hr]
    have hs := find_entry_search_spec ar hop q hq ar.m_num_entries 0 ar.m_num_entries
      (by omega) (Nat.le_refl _) (fun j hj _ => absurd hj (by omega))
      (fun j hj hj2 => absurd hj2 (by have := hop.length_le; omega))
    constructor
    · rintro ⟨i, hi, hiq⟩
      apply hs.1
      refine ⟨i, ?_, hiq⟩
      by_contra hn
      have : ar.find_entry_by_index i = none := by
        rw [find_entry_by_index_eq ar c i hc hop]; simp [hn]
      rw [get_filename_of_none ar i this] at hiq
      exact hq hiq.symm
    · intro h
      apply hs.2
      intro j hj
      exact h j (by have := hop.length_le; unfold zip_archive.size; omega)

set_option maxRecDepth 100000 in
theorem sample_abc_open :
    zip_archive.open_ {} sample_abc 264 = .ok sample_abc_archive := by decide

/-- C1: on every successfully opened archive and for every non-empty query `q`,
`find_entry_index q` returns an index below `size()` whose entry name equals `q`
whenever some entry is named `q`, and returns the not-found marker `size()`
whenever no entry is named `q`. -/
theorem find_entry_index_correct (data : List Nat) (size : Nat) (ar : zip_archive)
    (hopen : zip_archive.open_ {} data size = .ok ar) (q : List Nat) (hq : q ≠ []) :
    ((∃ i, i < ar.size ∧ ar.get_filename i = q) →
      ar.find_entry_index q < ar.size ∧ ar.get_filename (ar.find_entry_index q) = q) ∧
    ((∀ i, i < ar.size → ar.get_filename i ≠ q) → ar.find_entry_index q = ar.size) :=
  find_entry_index_spec ar (open_opened data size ar hopen).1 q hq

set_option maxRecDepth 100000 in
/-- C1 at the archive `sample_abc` and the query `b`, which is found at index 1. -/
theorem find_entry_index_correct_witness :
    zip_archive.open_ {} sample_abc 264 = .ok sample_abc_archive ∧
    sample_abc_archive.find_entry_index [0x62] = 1 ∧
    (((∃ i, i < sample_abc_archive.size ∧ sample_abc_archive.get_filename i = [0x62]) →
      sample_abc_archive.find_entry_index [0x62] < sample_abc_archive.size ∧
        sample_abc_archive.get_filename (sample_abc_archive.find_entry_index [0x62]) = [0x62]) ∧
    ((∀ i, i < sample_abc_archive.size → sample_abc_archive.get_filename i ≠ [0x62]) →
      sample_abc_archive.find_entry_index [0x62] = sample_abc_archive.size)) :=
  ⟨sample_abc_open, by decide,
    find_entry_index_correct sample_abc 264 sample_abc_archive sample_abc_open [0x62] (by decide)⟩

/-- C2: after every successful open the entry table is sorted by name: for all
positions `a < b` of the table, the name at `b` is not less than the name at
`a` in the order "lexicographic on unsigned bytes, the shorter name first when
one name begins the other". -/
theorem entry_offsets_sorted (data : List Nat) (size : Nat) (ar : zip_archive)
    (hopen : zip_archive.open_ {} data size = .ok ar) (a b : Nat) (hab : a < b)
    (hb : b < ar.m_entry_offsets.length) :
    name_less (ar.name_at (ar.m_entry_offsets.getD b 0))
      (ar.name_at (ar.m_entry_offsets.getD a 0)) = false := by
  have hop := (open_opened data size ar hopen).1
  have h := get_filename_sorted ar hop a b hab hb
  have hn : ∀ i, i < ar.m_entry_offsets.length →
      ar.get_filename i = ar.name_at (ar.m_entry_offsets.getD i 0) := by
    intro i hi
    rw [get_filename_eq_getD ar i hop]
    simp [entry_names, List.getD_eq_getElem?_getD, List.getElem?_eq_getElem hi]
  rw [hn a (by omega), hn b hb] at h
  exact h

set_option maxRecDepth 100000 in
/-- C2 at the archive `sample_abc` and the positions 0 and 2 (`a/x` and `c`). -/
theorem entry_offsets_sorted_witness :
    zip_archive.open_ {} sample_abc 264 = .ok sample_abc_archive ∧ 0 < 2 ∧
    2 < sample_abc_archive.m_entry_offsets.length ∧
    sample_abc_archive.name_at (sample_abc_archive.m_entry_offsets.getD 2 0) = [0x63] ∧
    name_less (sample_abc_archive.name_at (sample_abc_archive.m_entry_offsets.getD 2 0))
      (sample_abc_archive.name_at (sample_abc_archive.m_entry_offsets.getD 0 0)) = false :=
  ⟨sample_abc_open, by decide, by decide, by decide,
    entry_offsets_sorted sample_abc 264 sample_abc_archive sample_abc_open 0 2 (by decide)
      (by decide)⟩

/-! ## Lemmas: `locate` -/

set_option maxRecDepth 100000 in
theorem sample_abc_fs_open :
    zipfs_archive.open_ {} (some sample_abc) 264 = (0, sample_abc_fs) := by decide

set_option maxRecDepth 100000 in
theorem sample_dup_fs_open :
    zipfs_archive.open_ {} (some sample_dup) 334 = (0, sample_dup_fs) := by decide

/-- A successful `zipfs_archive::open` is a successful `zip_archive::open`. -/
theorem zipfs_open_ok (data : List Nat) (size : Nat) (z : zipfs_archive)
    (h : zipfs_archive.open_ {} (some data) size = (0, z)) :
    z.archive.opened ∧ z.archive.m_data = data ∧ z.size = z.archive.size := by
  unfold zipfs_archive.open_ at h
  simp only at h
  split at h
  · rename_i ar har
    have hz : z = { ({} : zipfs_archive) with archive := ar, size := ar.size } := by
      have := congrArg Prod.snd h
      exact this.symm
    have ho := open_opened data size ar har
    subst hz
    exact ⟨ho.1, ho.2, rfl⟩
  · have := congrArg Prod.fst h
    simp at this

theorem bytes_at_getLast? (data : List Nat) (p n : Nat) (hn : 0 < n) :
    (bytes_at data p n).getLast? = some (byte_at data (p + (n - 1))) := by
  obtain ⟨m, rfl⟩ : ∃ m, n = m + 1 := ⟨n - 1, by omega⟩
  simp [bytes_at, List.range_succ]

theorem get_file_info_is_directory (ar : zip_archive) (i entry : Nat)
    (h : ar.find_entry_by_index i = some entry) :
    (ar.get_file_info i).is_directory = decide ((ar.get_filename i).getLast? = some 0x2F) := by
  rw [get_filename_of_some ar i entry h]
  simp only [get_file_info, h]
  by_cases hl : dir_filename_length ar.m_data entry > 0
  · rw [if_pos hl, dir_entry_name, bytes_at_getLast? _ _ _ hl]
    by_cases hb : byte_at ar.m_data
        (dir_file_name entry + (dir_filename_length ar.m_data entry - 1)) = 47 <;> simp [hb]
  · have h0 : dir_filename_length ar.m_data entry = 0 := by omega
    rw [if_neg hl, dir_entry_name, h0]
    simp [bytes_at]

theorem get_file_info_filename (ar : zip_archive) (i : Nat) :
    (ar.get_file_info i).filename = ar.get_filename i := by
  unfold get_file_info get_filename
  split <;> rfl

/-- The scan of `locate` returns the first entry that lies below `dname`. -/
theorem locate_scan_spec (z : zipfs_archive) (dname : List Nat) (k i : Nat) :
    ((∃ j, i ≤ j ∧ j < i + k ∧ (z.archive.get_filename j).length > dname.length ∧
        (z.archive.get_filename j).take dname.length = dname) →
      ∃ j, i ≤ j ∧ j < i + k ∧ (z.archive.get_filename j).length > dname.length ∧
        (z.archive.get_filename j).take dname.length = dname ∧
        z.locate_scan dname k i = { type := DIR, index := static_cast_int j }) ∧
    ((∀ j, i ≤ j → j < i + k → ¬ ((z.archive.get_filename j).length > dname.length ∧
        (z.archive.get_filename j).take dname.length = dname)) →
      z.locate_scan dname k i = {}) := by
  induction k generalizing i with
  | zero =>
    refine ⟨?_, fun _ => rfl⟩
    rintro ⟨j, h1, h2, _⟩
    omega
  | succ k ih =>
    have ih' := ih (i + 1)
    by_cases hP : (z.archive.get_filename i).length > dname.length ∧
        (z.archive.get_filename i).take dname.length = dname
    · have hr : z.locate_scan dname (k + 1) i = { type := DIR, index := static_cast_int i } := by
        simp [zipfs_archive.locate_scan, hP.1, hP.2]
      constructor
      · intro _
        exact ⟨i, Nat.le_refl _, by omega, hP.1, hP.2, hr⟩
      · intro h
        exact absurd hP (h i (Nat.le_refl _) (by omega))
    · have hr : z.locate_scan dname (k + 1) i = z.locate_scan dname k (i + 1) := by
        simp only [zipfs_archive.locate_scan]
        rw [if_neg]
        simpa using hP
      rw [hr]
      constructor
      · rintro ⟨j, h1, h2, h3, h4⟩
        have hji : j ≠ i := by
          rintro rfl
          exact hP ⟨h3, h4⟩
        obtain ⟨j', a1, a2, a3, a4, a5⟩ := ih'.1 ⟨j, by omega, by omega, h3, h4⟩
        exact ⟨j', by omega, by omega, a3, a4, a5⟩
      · intro h
        exact ih'.2 (fun j h1 h2 => h j (by omega) (by omega))

/-- On values below `2 ^ 31` the conversion to `int` keeps the value. -/
theorem static_cast_int_of_lt (n : Nat) (h : n < 2 ^ 31) : static_cast_int n = n := by
  unfold static_cast_int
  have : (n + 2 ^ 31) % 2 ^ 32 = n + 2 ^ 31 := Nat.mod_eq_of_lt (by omega)
  rw [this]
  push_cast
  omega

/-- C3, at the archive `sample_abc` (members `a/x`, `b`, `c`): the entry `a/x`
lies below `a/`, yet `for_each_entry("a/", f)` hands nothing to the visitor,
because the binary search for the start index steps over it; through the
adapter, `locate("a")` reports a directory and `each("a")` lists nothing. -/
theorem for_each_entry_skips_child :
    zipfs_archive.open_ {} (some sample_abc) 264 = (0, sample_abc_fs) ∧
    sample_abc_fs.archive.get_filename 0 = [0x61, 0x2F, 0x78] ∧
    sample_abc_fs.archive.for_each_start [0x61, 0x2F] 3 0 3 = some 3 ∧
    sample_abc_fs.archive.for_each_entry [0x61, 0x2F] (fun _ => false) = [] ∧
    sample_abc_fs.locate [0x61] = { type := DIR, index := 0 } ∧
    sample_abc_fs.each [0x61] = [] := by
  refine ⟨sample_abc_fs_open, ?_, ?_, ?_, ?_, ?_⟩ <;> decide

/-- `locate` on a path that names an entry of a sorted table exactly. -/
theorem locate_of_exact (z : zipfs_archive) (hop : z.archive.opened) (p : List Nat)
    (hp : p ≠ []) (hroot : p ≠ [0x2F])
    (hex : ∃ i, i < z.archive.size ∧ z.archive.get_filename i = p) :
    ∃ i, i < z.archive.size ∧ z.archive.get_filename i = p ∧
      z.locate p =
        { type := if p.getLast? = some 0x2F then DIR else FILE, index := static_cast_int i } := by
  have hf := (find_entry_index_spec z.archive hop p hp).1 hex
  refine ⟨z.archive.find_entry_index p, hf.1, hf.2, ?_⟩
  have hne : (z.archive.find_entry_index p == z.archive.size) = false := by
    simpa using Nat.ne_of_lt hf.1
  have hsome : ∃ e, z.archive.find_entry_by_index (z.archive.find_entry_index p) = some e := by
    cases he : z.archive.find_entry_by_index (z.archive.find_entry_index p) with
    | some e => exact ⟨e, rfl⟩
    | none =>
      have := get_filename_of_none z.archive _ he
      rw [hf.2] at this
      exact absurd this hp
  obtain ⟨e, he⟩ := hsome
  have hd := get_file_info_is_directory z.archive _ e he
  rw [hf.2] at hd
  have hp1 : p.isEmpty = false := by
    cases p with
    | nil => exact absurd rfl hp
    | cons a as => rfl
  have hp2 : (p == [0x2F]) = false := by simpa using hroot
  simp only [zipfs_archive.locate, hp1, hp2, hne, hd, Bool.or_self, Bool.false_eq_true,
    if_false]
  by_cases hl : p.getLast? = some 0x2F <;> simp [hl]

/-- C5: on every successfully opened archive and for every path `p` other than
the empty path and `/` that names an entry exactly, `locate p` returns kind
`DIR` if `p` ends in `/` and kind `FILE` otherwise, together with the position
(as the `int` the code returns) of an entry named `p`. -/
theorem locate_exact (data : List Nat) (size : Nat) (z : zipfs_archive)
    (hopen : zipfs_archive.open_ {} (some data) size = (0, z)) (p : List Nat)
    (hp : p ≠ []) (hroot : p ≠ [0x2F])
    (hex : ∃ i, i < z.archive.size ∧ z.archive.get_filename i = p) :
    ∃ i, i < z.archive.size ∧ z.archive.get_filename i = p ∧
      z.locate p =
        { type := if p.getLast? = some 0x2F then DIR else FILE, index := static_cast_int i } :=
  locate_of_exact z (zipfs_open_ok data size z hopen).1 p hp hroot hex

set_option maxRecDepth 100000 in
/-- C5 at the archive `sample_abc` and the path `b`: a file at index 1. -/
theorem locate_exact_witness :
    zipfs_archive.open_ {} (some sample_abc) 264 = (0, sample_abc_fs) ∧
    sample_abc_fs.locate [0x62] = { type := FILE, index := 1 } ∧
    ∃ i, i < sample_abc_fs.archive.size ∧ sample_abc_fs.archive.get_filename i = [0x62] ∧
      sample_abc_fs.locate [0x62] =
        { type := if [0x62].getLast? = some 0x2F then DIR else FILE,
          index := static_cast_int i } :=
  ⟨sample_abc_fs_open, by decide,
    locate_exact sample_abc 264 sample_abc_fs sample_abc_fs_open [0x62] (by decide) (by decide)
      ⟨1, by decide, by decide⟩⟩

theorem locate_not_found_step (z : zipfs_archive) (p : List Nat) (hp : p ≠ []) (hroot : p ≠ [0x2F])
    (h1 : z.archive.find_entry_index p = z.archive.size) :
    z.locate p =
      if z.archive.find_entry_index (p ++ [0x2F]) != z.archive.size then
        { type := DIR, index := static_cast_int (z.archive.find_entry_index (p ++ [0x2F])) }
      else z.locate_scan (p ++ [0x2F]) z.archive.size 0 := by
  have hp1 : p.isEmpty = false := by
    cases p with
    | nil => exact absurd rfl hp
    | cons a as => rfl
  have hp2 : (p == [0x2F]) = false := by simpa using hroot
  simp only [zipfs_archive.locate, hp1, hp2, h1, Bool.or_self, Bool.false_eq_true, if_false,
    beq_self_eq_true, if_true]

/-- C6: on every successfully opened archive and for every path `p` other than
the empty path and `/` that names no entry exactly: `locate p` returns `DIR`
with the position of an entry named `p/` if there is one; otherwise `DIR` with
the position of some entry whose name begins with `p/` if there is one;
otherwise kind `NONE`. -/
theorem locate_directory (data : List Nat) (size : Nat) (z : zipfs_archive)
    (hopen : zipfs_archive.open_ {} (some data) size = (0, z)) (p : List Nat)
    (hp : p ≠ []) (hroot : p ≠ [0x2F])
    (hno : ∀ i, i < z.archive.size → z.archive.get_filename i ≠ p) :
    ((∃ i, i < z.archive.size ∧ z.archive.get_filename i = p ++ [0x2F]) →
      ∃ i, i < z.archive.size ∧ z.archive.get_filename i = p ++ [0x2F] ∧
        z.locate p = { type := DIR, index := static_cast_int i }) ∧
    ((∀ i, i < z.archive.size → z.archive.get_filename i ≠ p ++ [0x2F]) →
      (∃ i, i < z.archive.size ∧ (p ++ [0x2F]) <+: z.archive.get_filename i) →
      ∃ i, i < z.archive.size ∧ (p ++ [0x2F]) <+: z.archive.get_filename i ∧
        z.locate p = { type := DIR, index := static_cast_int i }) ∧
    ((∀ i, i < z.archive.size → ¬ (p ++ [0x2F]) <+: z.archive.get_filename i) →
      z.locate p = { type := NONE, index := 0 }) := by
  have hop := (zipfs_open_ok data size z hopen).1
  have h1 := (find_entry_index_spec z.archive hop p hp).2 hno
  have hd : p ++ [0x2F] ≠ [] := by simp
  have h2 := find_entry_index_spec z.archive hop (p ++ [0x2F]) hd
  have hloc := locate_not_found_step z p hp hroot h1
  have hscan := locate_scan_spec z (p ++ [0x2F]) z.archive.size 0
  -- without an entry named `p/`, the scan condition is "begins with `p/`"
  have hcond : (∀ i, i < z.archive.size → z.archive.get_filename i ≠ p ++ [0x2F]) →
      ∀ j, j < z.archive.size →
        (((z.archive.get_filename j).length > (p ++ [0x2F]).length ∧
          (z.archive.get_filename j).take (p ++ [0x2F]).length = p ++ [0x2F]) ↔
        (p ++ [0x2F]) <+: z.archive.get_filename j) := by
    intro hne j hj
    rw [List.prefix_iff_eq_take]
    constructor
    · rintro ⟨_, h⟩
      exact h.symm
    · intro h
      refine ⟨?_, h.symm⟩
      by_contra hle
      have hlen : (z.archive.get_filename j).length ≤ (p ++ [0x2F]).length := by omega
      rw [List.take_of_length_le hlen] at h
      exact hne j hj h.symm
  refine ⟨?_, ?_, ?_⟩
  · intro hex
    have hf := h2.1 hex
    refine ⟨_, hf.1, hf.2, ?_⟩
    rw [hloc, if_pos]
    simpa using Nat.ne_of_lt hf.1
  · intro hne hex
    have hf := h2.2 hne
    rw [hloc, if_neg (by simp [hf])]
    obtain ⟨i, hi, hpre⟩ := hex
    obtain ⟨j, _, hj, a3, a4, a5⟩ :=
      hscan.1 ⟨i, Nat.zero_le _, by omega, ((hcond hne i hi).mpr hpre).1,
        ((hcond hne i hi).mpr hpre).2⟩
    exact ⟨j, by omega, (hcond hne j (by omega)).mp ⟨a3, a4⟩, a5⟩
  · intro hnone
    have hne : ∀ i, i < z.archive.size → z.archive.get_filename i ≠ p ++ [0x2F] := by
      intro i hi h
      exact hnone i hi (by rw [h])
    have hf := h2.2 hne
    rw [hloc, if_neg (by simp [hf])]
    have := hscan.2 (fun j _ hj hc => hnone j (by omega) ((hcond hne j (by omega)).mp hc))
    rw [this]
    rfl

set_option maxRecDepth 100000 in
/-- C6 at the archive `sample_abc` and the path `a`: no entry is named `a` or
`a/`, the entry `a/x` at index 0 begins with `a/`, and `locate` answers
`(DIR, 0)`. -/
theorem locate_directory_witness :
    zipfs_archive.open_ {} (some sample_abc) 264 = (0, sample_abc_fs) ∧
    sample_abc_fs.locate [0x61] = { type := DIR, index := 0 } ∧
    (((∃ i, i < sample_abc_fs.archive.size ∧
        sample_abc_fs.archive.get_filename i = [0x61] ++ [0x2F]) →
      ∃ i, i < sample_abc_fs.archive.size ∧
        sample_abc_fs.archive.get_filename i = [0x61] ++ [0x2F] ∧
        sample_abc_fs.locate [0x61] = { type := DIR, index := static_cast_int i }) ∧
    ((∀ i, i < sample_abc_fs.archive.size →
        sample_abc_fs.archive.get_filename i ≠ [0x61] ++ [0x2F]) →
      (∃ i, i < sample_abc_fs.archive.size ∧
        ([0x61] ++ [0x2F]) <+: sample_abc_fs.archive.get_filename i) →
      ∃ i, i < sample_abc_fs.archive.size ∧
        ([0x61] ++ [0x2F]) <+: sample_abc_fs.archive.get_filename i ∧
        sample_abc_fs.locate [0x61] = { type := DIR, index := static_cast_int i }) ∧
    ((∀ i, i < sample_abc_fs.archive.size →
        ¬ ([0x61] ++ [0x2F]) <+: sample_abc_fs.archive.get_filename i) →
      sample_abc_fs.locate [0x61] = { type := NONE, index := 0 })) :=
  ⟨sample_abc_fs_open, by decide,
    locate_directory sample_abc 264 sample_abc_fs sample_abc_fs_open [0x61] (by decide)
      (by decide) (by decide)⟩

theorem int_to_size_t_natCast (i : Nat) (h : i < 2 ^ 64) : int_to_size_t (i : Int) = i := by
  unfold int_to_size_t
  have : ((i : Int) % 2 ^ 64) = (i : Int) := Int.emod_eq_of_lt (by omega) (by omega)
  rw [this]
  simp

theorem stat_fpath (z : zipfs_archive) (i : Nat) (hi : i < z.size) (h31 : i < 2 ^ 31) :
    (z.stat (i : Int)).fpath = z.archive.get_filename i := by
  have h64 : int_to_size_t (i : Int) = i := int_to_size_t_natCast i (by omega)
  simp only [zipfs_archive.stat, h64]
  rw [if_neg]
  · exact get_file_info_filename z.archive i
  · simp
    omega

/-- C7, at the archive `sample_dup` (members with the names `""`, `/`, `x`,
`x`): `locate(stat(i).path)` is `(DIR, -1)` for the entries at 0 and 1, and it
is the same answer `(FILE, 2)` for the two entries named `x` at 2 and 3, so it
does not return the index `i` for every `i < len`. -/
theorem locate_stat_not_identity :
    zipfs_archive.open_ {} (some sample_dup) 334 = (0, sample_dup_fs) ∧
    sample_dup_fs.size = 4 ∧
    sample_dup_fs.locate (sample_dup_fs.stat 0).fpath = { type := DIR, index := -1 } ∧
    sample_dup_fs.locate (sample_dup_fs.stat 1).fpath = { type := DIR, index := -1 } ∧
    sample_dup_fs.locate (sample_dup_fs.stat 2).fpath = { type := FILE, index := 2 } ∧
    sample_dup_fs.locate (sample_dup_fs.stat 3).fpath = { type := FILE, index := 2 } ∧
    ¬ (∀ i : Nat, i < sample_dup_fs.size →
        (sample_dup_fs.locate (sample_dup_fs.stat i).fpath).index = i) := by
  refine ⟨sample_dup_fs_open, by decide, by decide, by decide, by decide, by decide, ?_⟩
  intro h
  exact absurd (h 3 (by decide)) (by decide)

/-- C7, amended: on every successfully opened archive and for every index
`i < len` (an `int`, so below `2 ^ 31`) whose entry name is not empty, is not
`/` and is borne by no other entry, `locate(stat(i).path)` returns index `i`
with kind `DIR` if the name ends in `/` and kind `FILE` otherwise. -/
theorem locate_stat_unique (data : List Nat) (size : Nat) (z : zipfs_archive)
    (hopen : zipfs_archive.open_ {} (some data) size = (0, z)) (i : Nat) (hi : i < z.size)
    (h31 : i < 2 ^ 31) (hne : z.archive.get_filename i ≠ [])
    (hroot : z.archive.get_filename i ≠ [0x2F])
    (huniq : ∀ j, j < z.size → j ≠ i → z.archive.get_filename j ≠ z.archive.get_filename i) :
    z.locate (z.stat (i : Int)).fpath =
      { type := if (z.archive.get_filename i).getLast? = some 0x2F then DIR else FILE,
        index := (i : Int) } := by
  have hsz := (zipfs_open_ok data size z hopen).2.2
  rw [stat_fpath z i hi h31]
  obtain ⟨j, hj, hjn, hloc⟩ := locate_of_exact z (zipfs_open_ok data size z hopen).1
    (z.archive.get_filename i) hne hroot ⟨i, by omega, rfl⟩
  have hji : j = i := by
    by_contra hc
    exact huniq j (by omega) hc hjn
  rw [hloc, hji, static_cast_int_of_lt i h31]

set_option maxRecDepth 100000 in
/-- C7, amended, at the archive `sample_abc` and the index 0 (`a/x`). -/
theorem locate_stat_unique_witness :
    zipfs_archive.open_ {} (some sample_abc) 264 = (0, sample_abc_fs) ∧
    sample_abc_fs.archive.get_filename 0 = [0x61, 0x2F, 0x78] ∧
    sample_abc_fs.locate (sample_abc_fs.stat ((0 : Nat) : Int)).fpath =
      { type := if (sample_abc_fs.archive.get_filename 0).getLast? = some 0x2F then DIR else FILE,
        index := ((0 : Nat) : Int) } :=
  ⟨sample_abc_fs_open, by decide,
    locate_stat_unique sample_abc 264 sample_abc_fs sample_abc_fs_open 0 (by decide) (by decide)
      (by decide) (by decide) (by decide)⟩

/-! ## Lemmas: the map and the list of `lru_cache` -/

section lru_lemmas

variable {Key Value : Type} [DecidableEq Key]

theorem map_find_none_iff (m : List (Key × Value × Option Nat)) (k : Key) :
    map_find m k = none ↔ k ∉ m.map Prod.fst := by
  induction m with
  | nil => simp [map_find]
  | cons e rest ih =>
    obtain ⟨k', x⟩ := e
    by_cases h : k' = k
    · simp [map_find, h]
    · simp only [map_find, h, if_false, List.map_cons, List.mem_cons, not_or]
      rw [ih]
      constructor
      · intro h2; exact ⟨fun h3 => h h3.symm, h2⟩
      · intro h2; exact h2.2

theorem map_find_some_mem (m : List (Key × Value × Option Nat)) (k : Key)
    (x : Value × Option Nat) (h : map_find m k = some x) : (k, x) ∈ m := by
  induction m with
  | nil => simp [map_find] at h
  | cons e rest ih =>
    obtain ⟨k', y⟩ := e
    by_cases hk : k' = k
    · simp [map_find, hk] at h
      simp [hk, h]
    · simp only [map_find, hk, if_false] at h
      exact List.mem_cons_of_mem _ (ih h)

theorem map_find_of_mem (m : List (Key × Value × Option Nat)) (k : Key)
    (x : Value × Option Nat) (hn : (m.map Prod.fst).Nodup) (h : (k, x) ∈ m) :
    map_find m k = some x := by
  induction m with
  | nil => simp at h
  | cons e rest ih =>
    obtain ⟨k', y⟩ := e
    simp only [List.map_cons, List.nodup_cons] at hn
    rcases List.mem_cons.mp h with h | h
    · injection h with h1 h2
      simp [map_find, h1, h2]
    · have hk : k' ≠ k := by
        intro hk
        apply hn.1
        rw [hk]
        exact List.mem_map_of_mem Prod.fst h
      simp only [map_find, hk, if_false]
      exact ih hn.2 h

theorem map_erase_mem (m : List (Key × Value × Option Nat)) (k : Key)
    (e : Key × Value × Option Nat) : e ∈ map_erase m k ↔ e ∈ m ∧ e.1 ≠ k := by
  simp [map_erase]

theorem map_erase_keys (m : List (Key × Value × Option Nat)) (k k' : Key) :
    k' ∈ (map_erase m k).map Prod.fst ↔ k' ∈ m.map Prod.fst ∧ k' ≠ k := by
  simp only [List.mem_map, map_erase_mem]
  constructor
  · rintro ⟨e, ⟨h1, h2⟩, h3⟩
    exact ⟨⟨e, h1, h3⟩, by rw [← h3]; exact h2⟩
  · rintro ⟨⟨e, h1, h3⟩, h2⟩
    exact ⟨e, ⟨h1, by rw [h3]; exact h2⟩, h3⟩

theorem map_erase_nodup (m : List (Key × Value × Option Nat)) (k : Key)
    (hn : (m.map Prod.fst).Nodup) : ((map_erase m k).map Prod.fst).Nodup :=
  hn.sublist (List.Sublist.map _ (List.filter_sublist _))

theorem map_erase_length (m : List (Key × Value × Option Nat)) (k : Key)
    (hn : (m.map Prod.fst).Nodup) (hk : k ∈ m.map Prod.fst) :
    (map_erase m k).length + 1 = m.length := by
  induction m with
  | nil => simp at hk
  | cons e rest ih =>
    simp only [List.map_cons, List.nodup_cons] at hn
    by_cases he : e.1 = k
    · have hrest : map_erase rest k = rest := by
        unfold map_erase
        rw [List.filter_eq_self]
        intro a ha
        have : a.1 ≠ k := by
          intro h
          apply hn.1
          rw [he, ← h]
          exact List.mem_map_of_mem Prod.fst ha
        simpa using this
      have : map_erase (e :: rest) k = map_erase rest k := by
        simp [map_erase, he]
      rw [this, hrest]
      simp
    · have hk' : k ∈ rest.map Prod.fst := by
        simp only [List.map_cons, List.mem_cons] at hk
        rcases hk with hk | hk
        · exact absurd hk.symm he
        · exact hk
      have : map_erase (e :: rest) k = e :: map_erase rest k := by
        simp [map_erase, he]
      rw [this]
      simp only [List.length_cons]
      rw [ih hn.2 hk']

theorem map_erase_length_le (m : List (Key × Value × Option Nat)) (k : Key) :
    (map_erase m k).length ≤ m.length := List.length_filter_le _ _

theorem map_find_erase_ne (m : List (Key × Value × Option Nat)) (k k' : Key) (h : k' ≠ k) :
    map_find (map_erase m k) k' = map_find m k' := by
  induction m with
  | nil => simp [map_erase, map_find]
  | cons e rest ih =>
    obtain ⟨a, x⟩ := e
    by_cases ha : a = k
    · have : map_erase ((a, x) :: rest) k = map_erase rest k := by simp [map_erase, ha]
      rw [this, ih]
      have : a ≠ k' := by rw [ha]; exact fun h' => h h'.symm
      simp [map_find, this]
    · have : map_erase ((a, x) :: rest) k = (a, x) :: map_erase rest k := by
        simp [map_erase, ha]
      rw [this]
      simp only [map_find, ih]

theorem map_assign_keys (m : List (Key × Value × Option Nat)) (k : Key)
    (x : Value × Option Nat) (hk : k ∈ m.map Prod.fst) :
    (map_assign m k x).map Prod.fst = m.map Prod.fst := by
  induction m with
  | nil => simp at hk
  | cons e rest ih =>
    obtain ⟨a, y⟩ := e
    by_cases ha : a = k
    · simp [map_assign, ha]
    · simp only [map_assign, ha, if_false, List.map_cons, List.cons.injEq, true_and]
      apply ih
      simp only [List.map_cons, List.mem_cons] at hk
      rcases hk with hk | hk
      · exact absurd hk.symm ha
      · exact hk

theorem map_assign_mem (m : List (Key × Value × Option Nat)) (k : Key)
    (x : Value × Option Nat) (hn : (m.map Prod.fst).Nodup) (e : Key × Value × Option Nat)
    (h : e ∈ map_assign m k x) : e = (k, x) ∨ (e ∈ m ∧ e.1 ≠ k) := by
  induction m with
  | nil =>
    simp [map_assign] at h
    exact Or.inl h
  | cons a rest ih =>
    obtain ⟨a, y⟩ := a
    simp only [List.map_cons, List.nodup_cons] at hn
    by_cases ha : a = k
    · simp only [map_assign, ha, if_true, List.mem_cons] at h
      rcases h with h | h
      · exact Or.inl h
      · refine Or.inr ⟨List.mem_cons_of_mem _ h, ?_⟩
        intro he
        apply hn.1
        rw [ha, ← he]
        exact List.mem_map_of_mem Prod.fst h
    · simp only [map_assign, ha, if_false, List.mem_cons] at h
      rcases h with h | h
      · refine Or.inr ⟨by rw [h]; exact List.mem_cons_self _ _, ?_⟩
        rw [h]; exact ha
      · rcases ih hn.2 h with h' | h'
        · exact Or.inl h'
        · exact Or.inr ⟨List.mem_cons_of_mem _ h'.1, h'.2⟩

theorem map_assign_length (m : List (Key × Value × Option Nat)) (k : Key)
    (x : Value × Option Nat) (hk : k ∈ m.map Prod.fst) :
    (map_assign m k x).length = m.length := by
  have := congrArg List.length (map_assign_keys m k x hk)
  simpa using this

theorem map_find_assign_self (m : List (Key × Value × Option Nat)) (k : Key)
    (x : Value × Option Nat) : map_find (map_assign m k x) k = some x := by
  induction m with
  | nil => simp [map_assign, map_find]
  | cons e rest ih =>
    obtain ⟨a, y⟩ := e
    by_cases ha : a = k
    · simp [map_assign, map_find, ha]
    · simp [map_assign, map_find, ha, ih]

theorem map_find_assign_ne (m : List (Key × Value × Option Nat)) (k k' : Key)
    (x : Value × Option Nat) (h : k' ≠ k) :
    map_find (map_assign m k x) k' = map_find m k' := by
  induction m with
  | nil =>
    have : k ≠ k' := fun h' => h h'.symm
    simp [map_assign, map_find, this]
  | cons e rest ih =>
    obtain ⟨a, y⟩ := e
    by_cases ha : a = k
    · have : k ≠ k' := fun h' => h h'.symm
      simp [map_assign, map_find, ha, this]
    · simp [map_assign, map_find, ha, ih]

omit [DecidableEq Key] in
theorem list_erase_mem (l : List (Nat × Key)) (node : Nat) (n : Nat × Key) :
    n ∈ list_erase l (some node) ↔ n ∈ l ∧ n.1 ≠ node := by
  simp [list_erase]

omit [DecidableEq Key] in
theorem list_erase_keys (l : List (Nat × Key)) (node : Nat) (key : Key)
    (h1 : (l.map Prod.fst).Nodup) (h2 : (l.map Prod.snd).Nodup) (hm : (node, key) ∈ l)
    (k : Key) :
    k ∈ (list_erase l (some node)).map Prod.snd ↔ k ∈ l.map Prod.snd ∧ k ≠ key := by
  simp only [List.mem_map, list_erase_mem]
  constructor
  · rintro ⟨n, ⟨hn, hne⟩, hk⟩
    refine ⟨⟨n, hn, hk⟩, ?_⟩
    intro hkk
    have := List.inj_on_of_nodup_map h2 hn hm (by rw [hk, hkk])
    rw [this] at hne
    exact hne rfl
  · rintro ⟨⟨n, hn, hk⟩, hne⟩
    refine ⟨n, ⟨hn, ?_⟩, hk⟩
    intro hnn
    have := List.inj_on_of_nodup_map h1 hn hm (by rw [hnn])
    rw [this] at hk
    exact hne hk.symm

omit [DecidableEq Key] in
theorem inv_length (c : lru_cache Key Value) (h : c.inv) : c.m_list.length = c.m_map.length := by
  have hp : (c.m_list.map Prod.snd).Perm (c.m_map.map Prod.fst) :=
    (List.perm_ext_iff_of_nodup h.list_nodup h.map_nodup).mpr (fun k => (h.keys_iff k).symm)
  simpa using hp.length_eq

omit [DecidableEq Key] in
theorem inv_new (capacity : Nat) : (lru_cache.new capacity : lru_cache Key Value).inv :=
  ⟨by simp [lru_cache.new], by simp [lru_cache.new], by simp [lru_cache.new],
    by simp [lru_cache.new], by simp [lru_cache.new], by simp [lru_cache.new]⟩

omit [DecidableEq Key] in
theorem inv_clear (c : lru_cache Key Value) : c.clear.inv :=
  ⟨by simp [lru_cache.clear], by simp [lru_cache.clear], by simp [lru_cache.clear],
    by simp [lru_cache.clear], by simp [lru_cache.clear], by simp [lru_cache.clear]⟩

theorem inv_evict (c : lru_cache Key Value) (h : c.inv) : c.evict.inv := by
  unfold lru_cache.evict
  cases hl : c.m_list.getLast? with
  | none => exact h
  | some i =>
    obtain ⟨node, key⟩ := i
    have hm : (node, key) ∈ c.m_list := List.mem_of_getLast?_eq_some hl
    refine ⟨?_, ?_, ?_, ?_, ?_, ?_⟩
    · exact h.nodes_nodup.sublist (List.Sublist.map _ (List.filter_sublist _))
    · intro n hn
      exact h.nodes_lt n ((list_erase_mem _ _ _).mp hn).1
    · exact map_erase_nodup _ _ h.map_nodup
    · exact h.list_nodup.sublist (List.Sublist.map _ (List.filter_sublist _))
    · intro k
      show k ∈ (map_erase c.m_map key).map Prod.fst ↔
        k ∈ (list_erase c.m_list (some node)).map Prod.snd
      rw [map_erase_keys, list_erase_keys _ _ _ h.nodes_nodup h.list_nodup hm, h.keys_iff]
    · intro e he
      have he' := (map_erase_mem _ _ _).mp he
      obtain ⟨nd, h1, h2⟩ := h.iter e he'.1
      refine ⟨nd, h1, (list_erase_mem _ _ _).mpr ⟨h2, ?_⟩⟩
      intro hnn
      have := List.inj_on_of_nodup_map h.nodes_nodup h2 hm (by rw [hnn])
      injection this with _ hk
      exact he'.2 hk

theorem evict_not_mem (c : lru_cache Key Value) (key : Key)
    (hk : key ∉ c.m_map.map Prod.fst) : key ∉ c.evict.m_map.map Prod.fst := by
  unfold lru_cache.evict
  cases hl : c.m_list.getLast? with
  | none => exact hk
  | some i =>
    intro hmem
    exact hk ((map_erase_keys _ _ _).mp hmem).1

/-- The cache after `push_front(key)` and `emplace(key, (value, begin()))` for
an absent key. -/
theorem inv_push_emplace (c : lru_cache Key Value) (h : c.inv) (key : Key) (value : Value)
    (hk : key ∉ c.m_map.map Prod.fst) :
    ({ c.push_front key with
        m_map := map_emplace (c.push_front key).m_map key
          (value, list_begin (c.push_front key).m_list) } : lru_cache Key Value).inv ∧
    map_emplace (c.push_front key).m_map key (value, list_begin (c.push_front key).m_list) =
      (key, value, some c.next_node) :: c.m_map := by
  have hfind : map_find c.m_map key = none := (map_find_none_iff _ _).mpr hk
  have hmap : map_emplace (c.push_front key).m_map key
      (value, list_begin (c.push_front key).m_list) =
      (key, value, some c.next_node) :: c.m_map := by
    simp [map_emplace, lru_cache.push_front, hfind, list_begin]
  refine ⟨?_, hmap⟩
  rw [hmap]
  have hkl : key ∉ c.m_list.map Prod.snd := fun hc => hk ((h.keys_iff key).mpr hc)
  refine ⟨?_, ?_, ?_, ?_, ?_, ?_⟩
  · show ((((c.next_node, key) :: c.m_list)).map Prod.fst).Nodup
    simp only [List.map_cons, List.nodup_cons]
    refine ⟨?_, h.nodes_nodup⟩
    intro hc
    obtain ⟨n, hn, hn2⟩ := List.mem_map.mp hc
    have := h.nodes_lt n hn
    omega
  · intro n hn
    show n.1 < c.next_node + 1
    rcases List.mem_cons.mp hn with hn | hn
    · rw [hn]; simp
    · have := h.nodes_lt n hn
      omega
  · show ((((key, value, some c.next_node) :: c.m_map)).map Prod.fst).Nodup
    simp only [List.map_cons, List.nodup_cons]
    exact ⟨hk, h.map_nodup⟩
  · show ((((c.next_node, key) :: c.m_list)).map Prod.snd).Nodup
    simp only [List.map_cons, List.nodup_cons]
    exact ⟨hkl, h.list_nodup⟩
  · intro k
    show k ∈ ((key, value, some c.next_node) :: c.m_map).map Prod.fst ↔
      k ∈ ((c.next_node, key) :: c.m_list).map Prod.snd
    simp only [List.map_cons, List.mem_cons]
    rw [h.keys_iff]
  · intro e he
    show ∃ node, e.2.2 = some node ∧ (node, e.1) ∈ (c.next_node, key) :: c.m_list
    rcases List.mem_cons.mp he with he | he
    · exact ⟨c.next_node, by rw [he], by rw [he]; exact List.mem_cons_self _ _⟩
    · obtain ⟨nd, h1, h2⟩ := h.iter e he
      exact ⟨nd, h1, List.mem_cons_of_mem _ h2⟩

theorem insert_absent_eq (c : lru_cache Key Value) (key : Key) (value : Value)
    (hk : map_find c.m_map key = none) :
    c.insert key value =
      { (if c.size ≥ c.m_capacity then c.evict else c).push_front key with
        m_map := map_emplace ((if c.size ≥ c.m_capacity then c.evict else c).push_front key).m_map
          key (value,
            list_begin ((if c.size ≥ c.m_capacity then c.evict else c).push_front key).m_list) } := by
  simp only [lru_cache.insert, hk]

theorem inv_insert (c : lru_cache Key Value) (h : c.inv) (key : Key) (value : Value) :
    (c.insert key value).inv := by
  cases hf : map_find c.m_map key with
  | some x =>
    have : c.insert key value = c := by simp [lru_cache.insert, hf]
    rw [this]; exact h
  | none =>
    rw [insert_absent_eq c key value hf]
    have hk := (map_find_none_iff _ _).mp hf
    by_cases hs : c.size ≥ c.m_capacity
    · simp only [hs, if_true]
      exact (inv_push_emplace c.evict (inv_evict c h) key value (evict_not_mem c key hk)).1
    · simp only [hs, if_false]
      exact (inv_push_emplace c h key value hk).1

theorem inv_get (c : lru_cache Key Value) (h : c.inv) (key : Key) : (c.get key).2.inv := by
  unfold lru_cache.get
  cases hf : map_find c.m_map key with
  | none => exact h
  | some i =>
    obtain ⟨v, j⟩ := i
    have hmem := map_find_some_mem _ _ _ hf
    obtain ⟨node, hj, hnode⟩ := h.iter _ hmem
    simp only at hj hnode
    by_cases hb : j ≠ list_begin c.m_list
    · simp only [hb, ne_eq, not_false_eq_true, if_true]
      subst hj
      have hkm : key ∈ c.m_map.map Prod.fst := List.mem_map_of_mem Prod.fst hmem
      refine ⟨?_, ?_, ?_, ?_, ?_, ?_⟩
      · show (((c.next_node, key) :: list_erase c.m_list (some node)).map Prod.fst).Nodup
        simp only [List.map_cons, List.nodup_cons]
        refine ⟨?_, h.nodes_nodup.sublist (List.Sublist.map _ (List.filter_sublist _))⟩
        intro hc
        obtain ⟨n, hn, hn2⟩ := List.mem_map.mp hc
        have := h.nodes_lt n ((list_erase_mem _ _ _).mp hn).1
        omega
      · intro n hn
        show n.1 < c.next_node + 1
        rcases List.mem_cons.mp hn with hn | hn
        · rw [hn]; simp
        · have := h.nodes_lt n ((list_erase_mem _ _ _).mp hn).1
          omega
      · show ((map_assign c.m_map key _).map Prod.fst).Nodup
        rw [map_assign_keys _ _ _ hkm]
        exact h.map_nodup
      · show (((c.next_node, key) :: list_erase c.m_list (some node)).map Prod.snd).Nodup
        simp only [List.map_cons, List.nodup_cons]
        refine ⟨?_, h.list_nodup.sublist (List.Sublist.map _ (List.filter_sublist _))⟩
        intro hc
        exact ((list_erase_keys _ _ _ h.nodes_nodup h.list_nodup hnode key).mp hc).2 rfl
      · intro k
        show k ∈ (map_assign c.m_map key _).map Prod.fst ↔
          k ∈ ((c.next_node, key) :: list_erase c.m_list (some node)).map Prod.snd
        rw [map_assign_keys _ _ _ hkm, h.keys_iff]
        simp only [List.map_cons, List.mem_cons]
        rw [list_erase_keys _ _ _ h.nodes_nodup h.list_nodup hnode]
        constructor
        · intro hk
          by_cases hkk : k = key
          · exact Or.inl hkk
          · exact Or.inr ⟨hk, hkk⟩
        · rintro (hk | hk)
          · rw [hk]; exact (h.keys_iff key).mp hkm
          · exact hk.1
      · intro e he
        show ∃ nd, e.2.2 = some nd ∧ (nd, e.1) ∈ (c.next_node, key) :: list_erase c.m_list (some node)
        rcases map_assign_mem _ _ _ h.map_nodup e he with he | he
        · refine ⟨c.next_node, ?_, ?_⟩
          · rw [he]; simp [lru_cache.push_front, list_begin]
          · rw [he]; exact List.mem_cons_self _ _
        · obtain ⟨nd, h1, h2⟩ := h.iter e he.1
          refine ⟨nd, h1, List.mem_cons_of_mem _ ((list_erase_mem _ _ _).mpr ⟨h2, ?_⟩)⟩
          intro hnn
          have := List.inj_on_of_nodup_map h.nodes_nodup h2 hnode (by rw [hnn])
          injection this with _ hk
          exact he.2 hk
    · simp only [hb, if_false]
      exact h

theorem inv_step (c : lru_cache Key Value) (h : c.inv) (op : lru_op Key Value) :
    (c.step op).inv := by
  cases op with
  | insert key value => exact inv_insert c h key value
  | get key => exact inv_get c h key
  | contains key => exact h
  | clear => exact inv_clear c

theorem inv_run (c : lru_cache Key Value) (h : c.inv) (ops : List (lru_op Key Value)) :
    (c.run ops).inv := by
  induction ops generalizing c with
  | nil => exact h
  | cons op ops ih => exact ih (c.step op) (inv_step c h op)

end lru_lemmas

section lru_theorems

variable {Key Value : Type} [DecidableEq Key]

omit [DecidableEq Key] in
theorem list_deref_of_mem (l : List (Nat × Key)) (node : Nat) (key : Key)
    (hn : (l.map Prod.fst).Nodup) (h : (node, key) ∈ l) :
    list_deref l (some node) = some key := by
  induction l with
  | nil => simp at h
  | cons n rest ih =>
    simp only [List.map_cons, List.nodup_cons] at hn
    by_cases hnode : n.1 = node
    · have hmem : n ∈ n :: rest := List.mem_cons_self _ _
      have hnn : (n.1, n.2) = (node, key) := by
        rcases List.mem_cons.mp h with h | h
        · rw [← h]
        · exfalso
          apply hn.1
          rw [hnode]
          exact List.mem_map_of_mem Prod.fst h
      injection hnn with _ h2
      simp [list_deref, List.find?, hnode, h2]
    · have h' : (node, key) ∈ rest := by
        rcases List.mem_cons.mp h with h | h
        · rw [← h] at hnode
          exact absurd rfl hnode
        · exact h
      have := ih hn.2 h'
      have hd : decide (some n.1 = some node) = false := by simpa using hnode
      simp only [list_deref, List.find?, hd] at this ⊢
      exact this

theorem step_capacity (c : lru_cache Key Value) (op : lru_op Key Value) :
    (c.step op).m_capacity = c.m_capacity := by
  cases op with
  | insert key value =>
    simp only [lru_cache.step, lru_cache.insert, lru_cache.push_front, lru_cache.evict]
    split
    · rfl
    · split
      · split <;> rfl
      · rfl
  | get key =>
    simp only [lru_cache.step, lru_cache.get, lru_cache.push_front]
    split
    · rfl
    · split <;> rfl
  | contains key => rfl
  | clear => rfl

theorem evict_size (c : lru_cache Key Value) (h : c.inv) (hs : 1 ≤ c.size) :
    c.evict.size + 1 = c.size := by
  have hlen := inv_length c h
  unfold lru_cache.size at hs ⊢
  unfold lru_cache.evict
  cases hl : c.m_list.getLast? with
  | none =>
    rw [List.getLast?_eq_none_iff] at hl
    rw [hl] at hlen
    simp at hlen
    omega
  | some i =>
    have hm : i ∈ c.m_list := List.mem_of_getLast?_eq_some hl
    have hk : i.2 ∈ c.m_map.map Prod.fst :=
      (h.keys_iff i.2).mpr (List.mem_map_of_mem Prod.snd hm)
    exact map_erase_length _ _ h.map_nodup hk

theorem size_step (c : lru_cache Key Value) (h : c.inv) (hC : 1 ≤ c.m_capacity)
    (hs : c.size ≤ c.m_capacity) (op : lru_op Key Value) :
    (c.step op).size ≤ c.m_capacity := by
  cases op with
  | insert key value =>
    show (c.insert key value).size ≤ c.m_capacity
    cases hf : map_find c.m_map key with
    | some x =>
      have : c.insert key value = c := by simp [lru_cache.insert, hf]
      rw [this]; exact hs
    | none =>
      rw [insert_absent_eq c key value hf]
      have hk := (map_find_none_iff _ _).mp hf
      by_cases hfull : c.size ≥ c.m_capacity
      · simp only [hfull, if_true]
        have he := evict_size c h (by omega)
        have hm := (inv_push_emplace c.evict (inv_evict c h) key value
          (evict_not_mem c key hk)).2
        show (map_emplace _ _ _).length ≤ _
        rw [hm]
        simp only [List.length_cons]
        unfold lru_cache.size at he hs
        omega
      · simp only [hfull, if_false]
        have hm := (inv_push_emplace c h key value hk).2
        show (map_emplace _ _ _).length ≤ _
        rw [hm]
        simp only [List.length_cons]
        unfold lru_cache.size at hfull
        omega
  | get key =>
    show (c.get key).2.size ≤ c.m_capacity
    unfold lru_cache.get
    cases hf : map_find c.m_map key with
    | none => exact hs
    | some i =>
      have hmem := map_find_some_mem _ _ _ hf
      have hkm : key ∈ c.m_map.map Prod.fst := List.mem_map_of_mem Prod.fst hmem
      by_cases hb : i.2 ≠ list_begin c.m_list
      · simp only [hb, ne_eq, not_false_eq_true, if_true]
        show (map_assign c.m_map key _).length ≤ _
        rw [map_assign_length _ _ _ hkm]
        exact hs
      · simp only [hb, if_false]
        exact hs
  | contains key => exact hs
  | clear => simp [lru_cache.step, lru_cache.clear, lru_cache.size]

theorem run_capacity (c : lru_cache Key Value) (ops : List (lru_op Key Value)) :
    (c.run ops).m_capacity = c.m_capacity := by
  induction ops generalizing c with
  | nil => rfl
  | cons op ops ih =>
    show ((c.step op).run ops).m_capacity = _
    rw [ih, step_capacity]

theorem size_run (c : lru_cache Key Value) (h : c.inv) (hC : 1 ≤ c.m_capacity)
    (hs : c.size ≤ c.m_capacity) (ops : List (lru_op Key Value)) :
    (c.run ops).size ≤ c.m_capacity := by
  induction ops generalizing c with
  | nil => exact hs
  | cons op ops ih =>
    show ((c.step op).run ops).size ≤ _
    have := ih (c.step op) (inv_step c h op) (by rw [step_capacity]; exact hC)
      (by rw [step_capacity]; exact size_step c h hC hs op)
    rw [step_capacity] at this
    exact this

/-- C8: for a cache of capacity `C ≥ 1`, after any finite sequence of `insert`,
`get`, `contains` and `clear` from the empty cache: every key of the map occurs
exactly once in the recency list, every key of the list is in the map, the list
iterator stored with each map entry designates a node that holds the entry's
own key, and list length = map size ≤ `C`. -/
theorem lru_representation_invariant (C : Nat) (hC : 1 ≤ C) (ops : List (lru_op Key Value)) :
    (∀ k ∈ ((lru_cache.new C : lru_cache Key Value).run ops).map_keys,
      ((lru_cache.new C : lru_cache Key Value).run ops).list_keys.count k = 1) ∧
    (∀ k ∈ ((lru_cache.new C : lru_cache Key Value).run ops).list_keys,
      k ∈ ((lru_cache.new C : lru_cache Key Value).run ops).map_keys) ∧
    (∀ e ∈ ((lru_cache.new C : lru_cache Key Value).run ops).m_map,
      list_deref ((lru_cache.new C : lru_cache Key Value).run ops).m_list e.2.2 = some e.1) ∧
    ((lru_cache.new C : lru_cache Key Value).run ops).m_list.length =
      ((lru_cache.new C : lru_cache Key Value).run ops).m_map.length ∧
    ((lru_cache.new C : lru_cache Key Value).run ops).m_map.length ≤ C := by
  have h := inv_run (lru_cache.new C : lru_cache Key Value) (inv_new C) ops
  have hs := size_run (lru_cache.new C : lru_cache Key Value) (inv_new C) hC
    (by simp [lru_cache.new, lru_cache.size]) ops
  refine ⟨?_, ?_, ?_, inv_length _ h, hs⟩
  · intro k hk
    exact List.count_eq_one_of_mem h.list_nodup ((h.keys_iff k).mp hk)
  · intro k hk
    exact (h.keys_iff k).mpr hk
  · intro e he
    obtain ⟨node, h1, h2⟩ := h.iter e he
    rw [h1]
    exact list_deref_of_mem _ _ _ h.nodes_nodup h2

end lru_theorems

/-- C8 at capacity 2 and the calls `insert(1), insert(2), get(1)`. -/
theorem lru_representation_invariant_witness :
    1 ≤ 2 ∧
    ((lru_cache.new 2 : lru_cache Int Nat).run sample_lru_ops).list_keys = [1, 2] ∧
    ((∀ k ∈ ((lru_cache.new 2 : lru_cache Int Nat).run sample_lru_ops).map_keys,
      ((lru_cache.new 2 : lru_cache Int Nat).run sample_lru_ops).list_keys.count k = 1) ∧
    (∀ k ∈ ((lru_cache.new 2 : lru_cache Int Nat).run sample_lru_ops).list_keys,
      k ∈ ((lru_cache.new 2 : lru_cache Int Nat).run sample_lru_ops).map_keys) ∧
    (∀ e ∈ ((lru_cache.new 2 : lru_cache Int Nat).run sample_lru_ops).m_map,
      list_deref ((lru_cache.new 2 : lru_cache Int Nat).run sample_lru_ops).m_list e.2.2 =
        some e.1) ∧
    ((lru_cache.new 2 : lru_cache Int Nat).run sample_lru_ops).m_list.length =
      ((lru_cache.new 2 : lru_cache Int Nat).run sample_lru_ops).m_map.length ∧
    ((lru_cache.new 2 : lru_cache Int Nat).run sample_lru_ops).m_map.length ≤ 2) :=
  ⟨by decide, by decide, lru_representation_invariant 2 (by decide) sample_lru_ops⟩

section lru_recency

variable {Key Value : Type} [DecidableEq Key]

theorem recency_cons (l l' : List Key) (log : List Key) (k : Key)
    (h : l.Pairwise (fun a b => List.indexOf a log < List.indexOf b log))
    (hmem : ∀ a ∈ l, a ∈ log) (hsub : l'.Sublist l) (hk : k ∉ l') :
    (k :: l').Pairwise (fun a b => List.indexOf a (k :: log) < List.indexOf b (k :: log)) ∧
      ∀ a ∈ k :: l', a ∈ k :: log := by
  constructor
  · refine List.Pairwise.cons ?_ ?_
    · intro b hb
      have hbk : k ≠ b := fun hc => hk (hc ▸ hb)
      rw [List.indexOf_cons_self, List.indexOf_cons_ne _ hbk]
      omega
    · refine (h.sublist hsub).imp_of_mem ?_
      intro a b ha hb hab
      have hak : k ≠ a := fun hc => hk (hc ▸ ha)
      have hbk : k ≠ b := fun hc => hk (hc ▸ hb)
      rw [List.indexOf_cons_ne _ hak, List.indexOf_cons_ne _ hbk]
      omega
  · intro a ha
    rcases List.mem_cons.mp ha with ha | ha
    · rw [ha]; exact List.mem_cons_self _ _
    · exact List.mem_cons_of_mem _ (hmem a (hsub.subset ha))

theorem contains_iff (c : lru_cache Key Value) (key : Key) :
    c.contains key = true ↔ key ∈ c.m_map.map Prod.fst := by
  unfold lru_cache.contains
  cases hf : map_find c.m_map key with
  | none => simp [(map_find_none_iff _ _).mp hf]
  | some x =>
    simp only [Option.isSome_some, true_iff]
    exact List.mem_map_of_mem Prod.fst (map_find_some_mem _ _ _ hf)

theorem evict_list_sublist (c : lru_cache Key Value) :
    (c.evict.m_list.map Prod.snd).Sublist (c.m_list.map Prod.snd) := by
  unfold lru_cache.evict
  cases hl : c.m_list.getLast? with
  | none => exact List.Sublist.refl _
  | some i => exact List.Sublist.map _ (List.filter_sublist _)

theorem recency_step (c : lru_cache Key Value) (h : c.inv) (log : List Key)
    (hr : recency_ordered c log) (op : lru_op Key Value) :
    recency_ordered (c.step op) ((c.promoted op).toList ++ log) := by
  cases op with
  | insert key value =>
    cases hf : map_find c.m_map key with
    | some x =>
      have h1 : c.insert key value = c := by simp [lru_cache.insert, hf]
      have h2 : c.contains key = true := by simp [lru_cache.contains, hf]
      simp only [lru_cache.step, lru_cache.promoted, h1, h2, if_true, Option.toList,
        List.nil_append]
      exact hr
    | none =>
      have h2 : c.contains key = false := by simp [lru_cache.contains, hf]
      have hk := (map_find_none_iff _ _).mp hf
      have hkl : key ∉ c.m_list.map Prod.snd := fun hc => hk ((h.keys_iff key).mpr hc)
      simp only [lru_cache.step, lru_cache.promoted, h2, Bool.false_eq_true, if_false,
        Option.toList, List.singleton_append]
      rw [insert_absent_eq c key value hf]
      by_cases hs : c.size ≥ c.m_capacity
      · simp only [hs, if_true]
        exact recency_cons (c.m_list.map Prod.snd) (c.evict.m_list.map Prod.snd) log key hr.1 hr.2
          (evict_list_sublist c) (fun hc => hkl ((evict_list_sublist c).subset hc))
      · simp only [hs, if_false]
        exact recency_cons (c.m_list.map Prod.snd) (c.m_list.map Prod.snd) log key hr.1 hr.2
          (List.Sublist.refl _) hkl
  | get key =>
    cases hf : map_find c.m_map key with
    | none =>
      have h1 : (c.get key).2 = c := by simp [lru_cache.get, hf]
      have h2 : c.contains key = false := by simp [lru_cache.contains, hf]
      simp only [lru_cache.step, lru_cache.promoted, h1, h2, Bool.false_eq_true, if_false,
        Option.toList, List.nil_append]
      exact hr
    | some i =>
      obtain ⟨v, j⟩ := i
      have h2 : c.contains key = true := by simp [lru_cache.contains, hf]
      have hmem := map_find_some_mem _ _ _ hf
      obtain ⟨node, hj, hnode⟩ := h.iter _ hmem
      simp only at hj hnode
      subst hj
      simp only [lru_cache.step, lru_cache.promoted, h2, if_true, Option.toList,
        List.singleton_append]
      by_cases hb : some node ≠ list_begin c.m_list
      · have hg : ((c.get key).2).list_keys =
            key :: (list_erase c.m_list (some node)).map Prod.snd := by
          simp [lru_cache.get, hf, hb, lru_cache.push_front, lru_cache.list_keys]
        unfold recency_ordered
        rw [hg]
        exact recency_cons (c.m_list.map Prod.snd) _ log key hr.1 hr.2
          (List.Sublist.map _ (List.filter_sublist _))
          (fun hc => ((list_erase_keys _ _ _ h.nodes_nodup h.list_nodup hnode key).mp hc).2 rfl)
      · have hg : (c.get key).2 = c := by
          simp only [lru_cache.get, hf]
          rw [if_neg hb]
        have hbeg : list_begin c.m_list = some node := by
          by_contra hc
          exact hb (fun h' => hc h'.symm)
        -- the first node of the list is the node of `key`
        cases hl : c.m_list with
        | nil => rw [hl] at hnode; simp at hnode
        | cons n rest =>
          have hn1 : n.1 = node := by
            rw [hl] at hbeg
            simpa [list_begin] using hbeg
          have hn : n = (node, key) :=
            List.inj_on_of_nodup_map h.nodes_nodup (by rw [hl]; exact List.mem_cons_self _ _)
              hnode (by rw [hn1])
          have hkeys : c.list_keys = key :: rest.map Prod.snd := by
            simp [lru_cache.list_keys, hl, hn]
          have hnd := h.list_nodup
          rw [hl, hn] at hnd
          simp only [List.map_cons, List.nodup_cons] at hnd
          unfold recency_ordered at hr ⊢
          rw [hg, hkeys]
          rw [hkeys] at hr
          exact recency_cons (key :: rest.map Prod.snd) (rest.map Prod.snd) log key hr.1 hr.2
            (List.sublist_cons_self _ _) hnd.1
  | contains key =>
    simp only [lru_cache.step, lru_cache.promoted, Option.toList, List.nil_append]
    exact hr
  | clear =>
    simp only [lru_cache.step, lru_cache.promoted, Option.toList, List.nil_append]
    exact ⟨by simp [lru_cache.clear, lru_cache.list_keys],
      by simp [lru_cache.clear, lru_cache.list_keys]⟩

theorem recency_run (c : lru_cache Key Value) (h : c.inv) (log : List Key)
    (hr : recency_ordered c log) (ops : List (lru_op Key Value)) :
    recency_ordered (c.run ops) (c.promotion_log log ops) := by
  induction ops generalizing c log with
  | nil => exact hr
  | cons op ops ih =>
    exact ih (c.step op) (inv_step c h op) _ (recency_step c h log hr op)

end lru_recency

section lru_insert

variable {Key Value : Type} [DecidableEq Key]

theorem stored_insert_self (c : lru_cache Key Value) (h : c.inv) (key : Key) (value : Value)
    (hf : map_find c.m_map key = none) :
    (c.insert key value).list_keys.head? = some key ∧
    (c.insert key value).contains key = true ∧
    (c.insert key value).stored key = some value ∧
    ((c.insert key value).get key).1 = some value := by
  have hk := (map_find_none_iff _ _).mp hf
  have hfront : ∀ c0 : lru_cache Key Value, c0.inv → key ∉ c0.m_map.map Prod.fst →
      ∀ c1 : lru_cache Key Value,
      c1 = { c0.push_front key with
        m_map := map_emplace (c0.push_front key).m_map key
          (value, list_begin (c0.push_front key).m_list) } →
      c1.list_keys.head? = some key ∧ c1.contains key = true ∧ c1.stored key = some value ∧
        (c1.get key).1 = some value := by
    intro c0 h0 hk0 c1 hc1
    have hm := (inv_push_emplace c0 h0 key value hk0).2
    have hmap : c1.m_map = (key, value, some c0.next_node) :: c0.m_map := by
      rw [hc1]; exact hm
    have hlist : c1.m_list = (c0.next_node, key) :: c0.m_list := by
      rw [hc1]; rfl
    have hfind : map_find c1.m_map key = some (value, some c0.next_node) := by
      rw [hmap]; simp [map_find]
    refine ⟨by simp [lru_cache.list_keys, hlist], by simp [lru_cache.contains, hfind],
      by simp [lru_cache.stored, hfind], ?_⟩
    have hbeg : list_begin c1.m_list = some c0.next_node := by
      rw [hlist]; rfl
    simp [lru_cache.get, hfind, hbeg]
  rw [insert_absent_eq c key value hf]
  by_cases hs : c.size ≥ c.m_capacity
  · simp only [hs, if_true]
    exact hfront c.evict (inv_evict c h) (evict_not_mem c key hk) _ rfl
  · simp only [hs, if_false]
    exact hfront c h hk _ rfl

theorem stored_insert_other (c : lru_cache Key Value) (h : c.inv) (key : Key) (value : Value)
    (hf : map_find c.m_map key = none) (k : Key) (hne : k ≠ key) :
    (c.insert key value).stored k =
      (if c.size ≥ c.m_capacity then c.evict else c).stored k := by
  have hk := (map_find_none_iff _ _).mp hf
  rw [insert_absent_eq c key value hf]
  have hne' : key ≠ k := fun hc => hne hc.symm
  by_cases hs : c.size ≥ c.m_capacity
  · simp only [hs, if_true]
    have hm := (inv_push_emplace c.evict (inv_evict c h) key value (evict_not_mem c key hk)).2
    show (map_find (map_emplace _ _ _) k).map _ = _
    rw [hm]
    simp [map_find, hne', lru_cache.stored]
  · simp only [hs, if_false]
    have hm := (inv_push_emplace c h key value hk).2
    show (map_find (map_emplace _ _ _) k).map _ = _
    rw [hm]
    simp [map_find, hne', lru_cache.stored]

theorem stored_evict (c : lru_cache Key Value) (t : Key)
    (ht : c.list_keys.getLast? = some t) (k : Key) :
    c.evict.stored k = if k = t then none else c.stored k := by
  have hl : ∃ i, c.m_list.getLast? = some i ∧ i.2 = t := by
    simp only [lru_cache.list_keys, List.getLast?_map] at ht
    cases hl : c.m_list.getLast? with
    | none => rw [hl] at ht; simp at ht
    | some i =>
      rw [hl] at ht
      exact ⟨i, rfl, by simpa using ht⟩
  obtain ⟨i, hi, hit⟩ := hl
  have he : c.evict.m_map = map_erase c.m_map t := by
    simp [lru_cache.evict, hi, hit]
  unfold lru_cache.stored
  rw [he]
  by_cases hkt : k = t
  · simp only [hkt, if_true]
    have : map_find (map_erase c.m_map t) t = none := by
      rw [map_find_none_iff]
      intro hc
      exact ((map_erase_keys _ _ _).mp hc).2 rfl
    rw [this]; rfl
  · simp only [hkt, if_false]
    rw [map_find_erase_ne _ _ _ hkt]

/-- C10: `insert(k, v)` of an absent key on a cache of capacity `C ≥ 1` (any
cache reached from the empty one): when `size == C` it removes the key at the
tail of the recency list with its value and keeps every other key with its
value; otherwise it keeps every key with its value; afterwards `k` is at the
front of the list, `contains(k)` holds and `get(k)` yields `v`. In the scenario
of capacity 2 with `insert(1), insert(2), get(1), insert(3)`, key 2 is gone
and keys 1 and 3 are present. -/
theorem lru_insert_absent (C : Nat) (hC : 1 ≤ C) (ops : List (lru_op Key Value)) (k : Key)
    (v : Value)
    (habs : ((lru_cache.new C : lru_cache Key Value).run ops).contains k = false) :
    (((lru_cache.new C : lru_cache Key Value).run ops).size = C →
      ∃ t, ((lru_cache.new C : lru_cache Key Value).run ops).list_keys.getLast? = some t ∧
        ((lru_cache.new C : lru_cache Key Value).run ops).contains t = true ∧
        (((lru_cache.new C : lru_cache Key Value).run ops).insert k v).contains t = false ∧
        ∀ k', k' ≠ k → k' ≠ t →
          (((lru_cache.new C : lru_cache Key Value).run ops).insert k v).stored k' =
            ((lru_cache.new C : lru_cache Key Value).run ops).stored k') ∧
    (((lru_cache.new C : lru_cache Key Value).run ops).size ≠ C →
      ∀ k', k' ≠ k →
        (((lru_cache.new C : lru_cache Key Value).run ops).insert k v).stored k' =
          ((lru_cache.new C : lru_cache Key Value).run ops).stored k') ∧
    (((lru_cache.new C : lru_cache Key Value).run ops).insert k v).list_keys.head? = some k ∧
    (((lru_cache.new C : lru_cache Key Value).run ops).insert k v).contains k = true ∧
    ((((lru_cache.new C : lru_cache Key Value).run ops).insert k v).get k).1 = some v ∧
    (∀ v1 v2 v3 : Value,
      ((lru_cache.new 2 : lru_cache Int Value).run
        [.insert 1 v1, .insert 2 v2, .get 1, .insert 3 v3]).contains 2 = false ∧
      ((lru_cache.new 2 : lru_cache Int Value).run
        [.insert 1 v1, .insert 2 v2, .get 1, .insert 3 v3]).contains 1 = true ∧
      ((lru_cache.new 2 : lru_cache Int Value).run
        [.insert 1 v1, .insert 2 v2, .get 1, .insert 3 v3]).contains 3 = true) := by
  have h := inv_run (lru_cache.new C : lru_cache Key Value) (inv_new C) ops
  have hs := size_run (lru_cache.new C : lru_cache Key Value) (inv_new C) hC
    (by simp [lru_cache.new, lru_cache.size]) ops
  have hcap := run_capacity (lru_cache.new C : lru_cache Key Value) ops
  generalize (lru_cache.new C : lru_cache Key Value).run ops = c at h hs hcap habs
  have hcapC : c.m_capacity = C := by rw [hcap]; rfl
  have hsC : c.size ≤ C := by
    have : (lru_cache.new C : lru_cache Key Value).m_capacity = C := rfl
    rw [this] at hs; exact hs
  have hf : map_find c.m_map k = none := by
    cases hf : map_find c.m_map k with
    | none => rfl
    | some x => simp [lru_cache.contains, hf] at habs
  have hself := stored_insert_self c h k v hf
  refine ⟨?_, ?_, hself.1, hself.2.1, hself.2.2.2, ?_⟩
  · intro hfull
    have hlen := inv_length c h
    have hne : c.m_list ≠ [] := by
      intro hc
      rw [hc] at hlen
      unfold lru_cache.size at hfull
      simp at hlen
      omega
    obtain ⟨i, hi⟩ : ∃ i, c.m_list.getLast? = some i := by
      cases hl : c.m_list.getLast? with
      | none => exact absurd (List.getLast?_eq_none_iff.mp hl) hne
      | some i => exact ⟨i, rfl⟩
    have ht : c.list_keys.getLast? = some i.2 := by
      simp [lru_cache.list_keys, List.getLast?_map, hi]
    have htm : i.2 ∈ c.m_map.map Prod.fst :=
      (h.keys_iff i.2).mpr (List.mem_map_of_mem Prod.snd (List.mem_of_getLast?_eq_some hi))
    have htk : i.2 ≠ k := by
      intro hc
      rw [hc] at htm
      exact (map_find_none_iff _ _).mp hf htm
    have hge : c.size ≥ c.m_capacity := by omega
    refine ⟨i.2, ht, (contains_iff c i.2).mpr htm, ?_, ?_⟩
    · have := stored_insert_other c h k v hf i.2 htk
      simp only [hge, if_true] at this
      rw [stored_evict c i.2 ht] at this
      simp only [if_true] at this
      unfold lru_cache.stored at this
      unfold lru_cache.contains
      cases hm : map_find (c.insert k v).m_map i.2 with
      | none => rfl
      | some x => rw [hm] at this; simp at this
    · intro k' hk1 hk2
      have := stored_insert_other c h k v hf k' hk1
      simp only [hge, if_true] at this
      rw [stored_evict c i.2 ht] at this
      simp only [hk2, if_false] at this
      exact this
  · intro hnfull k' hk1
    have hlt : ¬ c.size ≥ c.m_capacity := by omega
    have := stored_insert_other c h k v hf k' hk1
    simp only [hlt, if_false] at this
    exact this
  · intro v1 v2 v3
    refine ⟨?_, ?_, ?_⟩ <;> rfl

end lru_insert

section lru_eviction

variable {Key Value : Type} [DecidableEq Key]

theorem contains_eq_stored (c : lru_cache Key Value) (k : Key) :
    c.contains k = (c.stored k).isSome := by
  simp [lru_cache.contains, lru_cache.stored]

theorem insert_removes_tail (c : lru_cache Key Value) (h : c.inv) (key e : Key) (value : Value)
    (hbefore : c.contains e = true) (hafter : (c.insert key value).contains e = false) :
    c.contains key = false ∧ c.size ≥ c.m_capacity ∧ c.list_keys.getLast? = some e := by
  have hf : map_find c.m_map key = none := by
    cases hf : map_find c.m_map key with
    | none => rfl
    | some x =>
      have h1 : c.insert key value = c := by simp [lru_cache.insert, hf]
      rw [h1, hbefore] at hafter
      exact absurd hafter (by simp)
  have hne : e ≠ key := by
    intro hc
    rw [hc] at hbefore
    simp [lru_cache.contains, hf] at hbefore
  have hel : e ∈ c.list_keys := (h.keys_iff e).mp ((contains_iff c e).mp hbefore)
  rw [contains_eq_stored, stored_insert_other c h key value hf e hne] at hafter
  rw [contains_eq_stored] at hbefore
  refine ⟨by simp [lru_cache.contains, hf], ?_⟩
  by_cases hs : c.size ≥ c.m_capacity
  · refine ⟨hs, ?_⟩
    simp only [hs, if_true] at hafter
    cases ht : c.list_keys.getLast? with
    | none =>
      rw [List.getLast?_eq_none_iff] at ht
      rw [ht] at hel
      exact absurd hel (List.not_mem_nil _)
    | some t =>
      rw [stored_evict c t ht e] at hafter
      by_cases het : e = t
      · rw [het]
      · rw [if_neg het, hbefore] at hafter
        exact absurd hafter (by simp)
  · simp only [hs, if_false] at hafter
    rw [hbefore] at hafter
    exact absurd hafter (by simp)

/-- C9, amended: after any sequence of calls on a cache of capacity `C`,
whenever `insert(key, value)` evicts a key `e` (`contains(e)` holds before the
call and no longer after it), `e` was promoted (by an `insert` that found it
absent or a `get` that found it present), and every other key present before
the call was promoted more recently than `e`. -/
theorem lru_evicts_least_recently_promoted (C : Nat) (ops : List (lru_op Key Value))
    (key e : Key) (value : Value)
    (hbefore : ((lru_cache.new C : lru_cache Key Value).run ops).contains e = true)
    (hafter :
      (((lru_cache.new C : lru_cache Key Value).run ops).insert key value).contains e = false) :
    e ∈ (lru_cache.new C : lru_cache Key Value).promotion_log [] ops ∧
    ∀ k, ((lru_cache.new C : lru_cache Key Value).run ops).contains k = true → k ≠ e →
      List.indexOf k ((lru_cache.new C : lru_cache Key Value).promotion_log [] ops) <
        List.indexOf e ((lru_cache.new C : lru_cache Key Value).promotion_log [] ops) := by
  have h := inv_run (lru_cache.new C : lru_cache Key Value) (inv_new C) ops
  have hr := recency_run (lru_cache.new C : lru_cache Key Value) (inv_new C) []
    ⟨by simp [lru_cache.new, lru_cache.list_keys], by simp [lru_cache.new, lru_cache.list_keys]⟩
    ops
  generalize (lru_cache.new C : lru_cache Key Value).run ops = c at h hr hbefore hafter
  generalize (lru_cache.new C : lru_cache Key Value).promotion_log [] ops = log at hr
  have ht := (insert_removes_tail c h key e value hbefore hafter).2.2
  obtain ⟨ys, hkeys⟩ := List.getLast?_eq_some_iff.mp ht
  have hp := hr.1
  rw [hkeys, List.pairwise_append] at hp
  constructor
  · exact hr.2 e (by rw [hkeys]; simp)
  · intro k hk hke
    have hkl : k ∈ c.list_keys := (h.keys_iff k).mp ((contains_iff c k).mp hk)
    rw [hkeys] at hkl
    rcases List.mem_append.mp hkl with hkl | hkl
    · exact hp.2.2 k hkl e (List.mem_singleton_self _)
    · exact absurd (List.mem_singleton.mp hkl) hke

end lru_eviction

/-- C9, at capacity 2 after `insert(1), insert(2), insert(1)`: the cache holds
the keys 1 and 2, the most recent call that names key 1 (the third) is later
than the most recent call that names key 2 (the second), and `insert(3)` evicts
key 1 and keeps key 2. -/
theorem lru_evicts_reinserted_key :
    access_log ([.insert 1 10, .insert 2 20, .insert 1 11] : List (lru_op Int Nat)) = [1, 2, 1] ∧
    ((lru_cache.new 2 : lru_cache Int Nat).run
      [.insert 1 10, .insert 2 20, .insert 1 11]).contains 1 = true ∧
    ((lru_cache.new 2 : lru_cache Int Nat).run
      [.insert 1 10, .insert 2 20, .insert 1 11]).contains 2 = true ∧
    (((lru_cache.new 2 : lru_cache Int Nat).run
      [.insert 1 10, .insert 2 20, .insert 1 11]).insert 3 30).contains 1 = false ∧
    (((lru_cache.new 2 : lru_cache Int Nat).run
      [.insert 1 10, .insert 2 20, .insert 1 11]).insert 3 30).contains 2 = true ∧
    ¬ (List.indexOf (2 : Int)
        (access_log ([.insert 1 10, .insert 2 20, .insert 1 11] : List (lru_op Int Nat))) <
      List.indexOf (1 : Int)
        (access_log ([.insert 1 10, .insert 2 20, .insert 1 11] : List (lru_op Int Nat)))) := by
  decide

/-- C9, amended, at capacity 2 after `insert(1), insert(2), get(1)`:
`insert(3)` evicts key 2, which was promoted before key 1 was last promoted. -/
theorem lru_evicts_least_recently_promoted_witness :
    ((lru_cache.new 2 : lru_cache Int Nat).run sample_lru_ops).contains 2 = true ∧
    (((lru_cache.new 2 : lru_cache Int Nat).run sample_lru_ops).insert 3 30).contains 2 = false ∧
    (lru_cache.new 2 : lru_cache Int Nat).promotion_log [] sample_lru_ops = [1, 2, 1] ∧
    ((2 : Int) ∈ (lru_cache.new 2 : lru_cache Int Nat).promotion_log [] sample_lru_ops ∧
    ∀ k, ((lru_cache.new 2 : lru_cache Int Nat).run sample_lru_ops).contains k = true → k ≠ 2 →
      List.indexOf k ((lru_cache.new 2 : lru_cache Int Nat).promotion_log [] sample_lru_ops) <
        List.indexOf 2
          ((lru_cache.new 2 : lru_cache Int Nat).promotion_log [] sample_lru_ops)) :=
  ⟨by decide, by decide, by decide,
    lru_evicts_least_recently_promoted 2 sample_lru_ops 3 2 30 (by decide) (by decide)⟩

/-- C10 at capacity 2 after `insert(1), insert(2), get(1)` and the absent
key 3: the cache is full, the tail key 2 is removed and key 1 keeps its
value. -/
theorem lru_insert_absent_witness :
    1 ≤ 2 ∧ ((lru_cache.new 2 : lru_cache Int Nat).run sample_lru_ops).contains 3 = false ∧
    ((lru_cache.new 2 : lru_cache Int Nat).run sample_lru_ops).size = 2 ∧
    (((lru_cache.new 2 : lru_cache Int Nat).run sample_lru_ops).insert 3 30).list_keys = [3, 1] ∧
    (((lru_cache.new 2 : lru_cache Int Nat).run sample_lru_ops).insert 3 30).stored 1 = some 10 ∧
    ((((lru_cache.new 2 : lru_cache Int Nat).run sample_lru_ops).insert 3 30).get 3).1 =
      some 30 :=
  ⟨by decide, by decide, by decide, by decide, by decide,
    (lru_insert_absent 2 (by decide) sample_lru_ops 3 30 (by decide)).2.2.2.2.1⟩

/-! ## Lemmas: direct children of the root -/

theorem string_find_lt (c : Nat) (n : List Nat) (s : Nat) (h : string_find c n = some s) :
    s < n.length := by
  induction n generalizing s with
  | nil => simp [string_find] at h
  | cons a as ih =>
    simp only [string_find] at h
    by_cases ha : (a == c) = true
    · simp only [ha, if_true, Option.some.injEq] at h
      rw [← h]; simp
    · simp only [ha, Bool.false_eq_true, if_false, Option.map_eq_some'] at h
      obtain ⟨s', hs', rfl⟩ := h
      have := ih s' hs'
      simp only [List.length_cons]
      omega

theorem direct_child_of_none (n : List Nat) (h : string_find 0x2F n = none) :
    direct_child n = n := by
  induction n with
  | nil => rfl
  | cons a as ih =>
    simp only [string_find] at h
    by_cases ha : a = 0x2F
    · simp [ha] at h
    · have hb : (a == 0x2F) = false := by simpa using ha
      simp only [hb, Bool.false_eq_true, if_false, Option.map_eq_none'] at h
      simp [direct_child, ha, ih h]

theorem direct_child_of_some (n : List Nat) (s : Nat) (h : string_find 0x2F n = some s) :
    direct_child n = n.take (s + 1) := by
  induction n generalizing s with
  | nil => simp [string_find] at h
  | cons a as ih =>
    simp only [string_find] at h
    by_cases ha : a = 0x2F
    · simp only [ha, beq_self_eq_true, if_true, Option.some.injEq] at h
      simp [direct_child, ha, ← h]
    · have hb : (a == 0x2F) = false := by simpa using ha
      simp only [hb, Bool.false_eq_true, if_false, Option.map_eq_some'] at h
      obtain ⟨s', hs', rfl⟩ := h
      simp [direct_child, ha, ih s' hs']

theorem direct_child_eq_nil (n : List Nat) : direct_child n = [] ↔ n = [] := by
  cases n with
  | nil => simp [direct_child]
  | cons a as =>
    simp only [direct_child]
    split <;> simp

/-- A direct child has no `/` before its last byte. -/
theorem direct_child_no_inner_slash (n : List Nat) (j : Nat)
    (hj : j + 1 < (direct_child n).length) : (direct_child n).getD j 0 ≠ 0x2F := by
  induction n generalizing j with
  | nil => simp [direct_child] at hj
  | cons a as ih =>
    simp only [direct_child] at hj ⊢
    by_cases ha : a = 0x2F
    · simp [ha] at hj
    · simp only [ha, if_false] at hj ⊢
      cases j with
      | zero => simpa using ha
      | succ j =>
        simp only [List.length_cons, Nat.add_lt_add_iff_right] at hj
        simpa using ih j hj

theorem direct_child_idem (n : List Nat) : direct_child (direct_child n) = direct_child n := by
  induction n with
  | nil => rfl
  | cons a as ih =>
    simp only [direct_child]
    by_cases ha : a = 0x2F
    · simp [ha, direct_child]
    · simp [ha, direct_child, ih]

/-- A direct child is not greater than the name it stands for. -/
theorem direct_child_le (n : List Nat) : name_less n (direct_child n) = false := by
  induction n with
  | nil => rfl
  | cons a as ih =>
    simp only [direct_child]
    by_cases ha : a = 0x2F
    · cases as <;> simp [ha, name_less]
    · simp [ha, name_less, ih]

/-- Direct children are monotone in the entry name. -/
theorem direct_child_mono (n m : List Nat) (h : name_less n m = true) :
    name_less (direct_child m) (direct_child n) = false := by
  induction n generalizing m with
  | nil =>
    simp only [direct_child]
    cases direct_child m <;> rfl
  | cons a as ih =>
    cases m with
    | nil => simp [name_less] at h
    | cons b bs =>
      simp only [name_less] at h
      by_cases hab : a < b
      · have hba : ¬ b < a := by omega
        simp only [direct_child]
        split <;> split <;> simp [name_less, hab, hba]
      · by_cases hba : b < a
        · simp [hab, hba] at h
        · simp only [hab, hba, if_false] at h
          have heq : a = b := by omega
          subst heq
          simp only [direct_child]
          by_cases ha : a = 0x2F
          · simp [ha, name_less]
          · simp only [ha, if_false, name_less, Nat.lt_irrefl]
            exact ih bs h

/-- A name that is its own direct child and sorts before `m` is strictly
less than the direct child of `m`, unless `m` lies below it. -/
theorem name_less_direct_child (n m : List Nat) (hn : direct_child n = n)
    (h : name_less n m = true) (hne : direct_child m ≠ n) :
    name_less n (direct_child m) = true := by
  have hm := direct_child_mono n m h
  rw [hn] at hm
  cases hc : name_less n (direct_child m) with
  | true => rfl
  | false => exact absurd (name_less_total _ _ hc hm).symm hne

theorem root_walk_mem (l : List (List Nat)) (dn c : List Nat) (h : c ∈ root_walk l dn) :
    ∃ n ∈ l, n ≠ [] ∧ direct_child n = c := by
  induction l generalizing dn with
  | nil => simp [root_walk] at h
  | cons n rest ih =>
    simp only [root_walk] at h
    by_cases hn : n = []
    · simp only [hn, if_true] at h
      obtain ⟨m, hm, h1, h2⟩ := ih dn h
      exact ⟨m, List.mem_cons_of_mem _ hm, h1, h2⟩
    · simp only [hn, if_false] at h
      have lift : ∀ dn', c ∈ root_walk rest dn' → ∃ m ∈ n :: rest, m ≠ [] ∧ direct_child m = c := by
        intro dn' hc
        obtain ⟨m, hm, h1, h2⟩ := ih dn' hc
        exact ⟨m, List.mem_cons_of_mem _ hm, h1, h2⟩
      cases hs : string_find 0x2F n with
      | none =>
        simp only [hs] at h
        rcases List.mem_cons.mp h with h | h
        · exact ⟨n, List.mem_cons_self _ _, hn, by rw [direct_child_of_none n hs, h]⟩
        · exact lift _ h
      | some s =>
        simp only [hs] at h
        have hd := direct_child_of_some n s hs
        by_cases h1 : s = n.length - 1
        · simp only [h1, if_true] at h
          rcases List.mem_cons.mp h with h | h
          · refine ⟨n, List.mem_cons_self _ _, hn, ?_⟩
            rw [hd, h, h1]
            have := string_find_lt _ _ _ hs
            rw [List.take_of_length_le (by omega)]
          · exact lift _ h
        · simp only [h1, if_false] at h
          by_cases h2 : n.take (s + 1) = dn
          · simp only [h2, if_true] at h
            exact lift _ h
          · simp only [h2, if_false] at h
            rcases List.mem_cons.mp h with h | h
            · exact ⟨n, List.mem_cons_self _ _, hn, by rw [hd, h]⟩
            · exact lift _ h

theorem root_walk_covers (l : List (List Nat)) (dn : List Nat) (n : List Nat) (hn : n ∈ l)
    (hne : n ≠ []) : direct_child n ∈ root_walk l dn ∨ direct_child n = dn := by
  induction l generalizing dn with
  | nil => simp at hn
  | cons m rest ih =>
    simp only [root_walk]
    rcases List.mem_cons.mp hn with hnm | hnr
    · subst hnm
      simp only [hne, if_false]
      cases hs : string_find 0x2F n with
      | none =>
        simp only
        rw [direct_child_of_none n hs]
        exact Or.inl (List.mem_cons_self _ _)
      | some s =>
        simp only
        have hd := direct_child_of_some n s hs
        by_cases h1 : s = n.length - 1
        · simp only [h1, if_true]
          left
          rw [hd, h1]
          have := string_find_lt _ _ _ hs
          rw [List.take_of_length_le (by omega)]
          exact List.mem_cons_self _ _
        · simp only [h1, if_false]
          by_cases h2 : n.take (s + 1) = dn
          · simp only [h2, if_true]
            right
            rw [hd, h2]
          · simp only [h2, if_false]
            left
            rw [hd]
            exact List.mem_cons_self _ _
    · by_cases hm : m = []
      · simp only [hm, if_true]
        exact ih dn hnr
      · simp only [hm, if_false]
        cases hs : string_find 0x2F m with
        | none =>
          simp only
          rcases ih dn hnr with h | h
          · exact Or.inl (List.mem_cons_of_mem _ h)
          · exact Or.inr h
        | some s =>
          simp only
          by_cases h1 : s = m.length - 1
          · simp only [h1, if_true]
            rcases ih (m.take (m.length - 1 + 1)) hnr with h | h
            · exact Or.inl (List.mem_cons_of_mem _ h)
            · left
              rw [h]
              have := string_find_lt _ _ _ hs
              rw [List.take_of_length_le (by omega)]
              exact List.mem_cons_self _ _
          · simp only [h1, if_false]
            by_cases h2 : m.take (s + 1) = dn
            · simp only [h2, if_true]
              exact ih dn hnr
            · simp only [h2, if_false]
              rcases ih (m.take (s + 1)) hnr with h | h
              · exact Or.inl (List.mem_cons_of_mem _ h)
              · left
                rw [h]
                exact List.mem_cons_self _ _

theorem string_find_direct_child (m : List Nat) :
    string_find 0x2F (direct_child m) = string_find 0x2F m := by
  induction m with
  | nil => rfl
  | cons a as ih =>
    simp only [direct_child]
    by_cases ha : a = 0x2F
    · simp [ha, string_find]
    · have hb : (a == 0x2F) = false := by simpa using ha
      simp [ha, string_find, hb, ih]

theorem name_less_take (n : List Nat) (k : Nat) (hk : k < n.length) :
    name_less (n.take k) n = true := by
  induction n generalizing k with
  | nil => simp at hk
  | cons a as ih =>
    cases k with
    | zero => simp [name_less]
    | succ k =>
      simp only [List.length_cons, Nat.add_lt_add_iff_right] at hk
      simp [name_less, ih k hk]

/-- On a strictly sorted table the names handed to the visitor at the root
are strictly increasing. -/
theorem root_walk_sorted (l : List (List Nat)) (dn : List Nat)
    (hs : l.Pairwise (fun x y => y ≠ [] → name_less x y = true))
    (hq : ∀ m ∈ l, m ≠ [] →
      name_less dn (direct_child m) = true ∨ (direct_child m = dn ∧ m ≠ dn)) :
    (root_walk l dn).Pairwise (fun a b => name_less a b = true) ∧
      ∀ c ∈ root_walk l dn, name_less dn c = true := by
  induction l generalizing dn with
  | nil => simp [root_walk]
  | cons n rest ih =>
    rw [List.pairwise_cons] at hs
    have hq' : ∀ m ∈ rest, m ≠ [] →
        name_less dn (direct_child m) = true ∨ (direct_child m = dn ∧ m ≠ dn) :=
      fun m hm => hq m (List.mem_cons_of_mem _ hm)
    -- the state after a directory `d` that sorts before the rest was handed out
    have hnext : ∀ d, direct_child d = d → (∀ m ∈ rest, m ≠ [] → name_less d m = true) →
        ∀ m ∈ rest, m ≠ [] →
          name_less d (direct_child m) = true ∨ (direct_child m = d ∧ m ≠ d) := by
      intro d hd hlt m hm hme
      have hdm := hlt m hm hme
      by_cases hc : direct_child m = d
      · right
        refine ⟨hc, ?_⟩
        intro hmd
        rw [hmd, name_less_irrefl] at hdm
        exact absurd hdm (by simp)
      · left
        exact name_less_direct_child d m hd hdm hc
    simp only [root_walk]
    by_cases hn : n = []
    · simp only [hn, if_true]
      exact ih dn hs.2 hq'
    · simp only [hn, if_false]
      have hqn := hq n (List.mem_cons_self _ _) hn
      cases hf : string_find 0x2F n with
      | none =>
        simp only
        have hd := direct_child_of_none n hf
        rw [hd] at hqn
        have hdn : name_less dn n = true := by
          rcases hqn with h | h
          · exact h
          · exact absurd h.1 h.2
        have ihr := ih dn hs.2 hq'
        refine ⟨List.Pairwise.cons ?_ ihr.1, ?_⟩
        · intro c hc
          obtain ⟨m, hm, hme, hmc⟩ := root_walk_mem rest dn c hc
          rw [← hmc]
          apply name_less_direct_child n m hd (hs.1 m hm hme)
          intro hcm
          have h1 : string_find 0x2F m = none := by
            rw [← string_find_direct_child, hcm]; exact hf
          rw [direct_child_of_none m h1] at hcm
          have := hs.1 m hm hme
          rw [hcm, name_less_irrefl] at this
          exact absurd this (by simp)
        · intro c hc
          rcases List.mem_cons.mp hc with hc | hc
          · rw [hc]; exact hdn
          · exact ihr.2 c hc
      | some s =>
        simp only
        have hd := direct_child_of_some n s hf
        have hslt := string_find_lt _ _ _ hf
        by_cases h1 : s = n.length - 1
        · simp only [h1, if_true]
          have htake : n.take (n.length - 1 + 1) = n := List.take_of_length_le (by omega)
          have hdn' : direct_child n = n := by
            rw [hd, h1, htake]
          rw [htake]
          rw [hdn'] at hqn
          have hdn : name_less dn n = true := by
            rcases hqn with h | h
            · exact h
            · exact absurd h.1 h.2
          have ihr := ih n hs.2 (hnext n hdn' hs.1)
          refine ⟨List.Pairwise.cons ihr.2 ihr.1, ?_⟩
          intro c hc
          rcases List.mem_cons.mp hc with hc | hc
          · rw [hc]; exact hdn
          · exact name_less_trans _ _ _ hdn (ihr.2 c hc)
        · simp only [h1, if_false]
          by_cases h2 : n.take (s + 1) = dn
          · simp only [h2, if_true]
            exact ih dn hs.2 hq'
          · simp only [h2, if_false]
            rw [hd] at hqn
            have hdn : name_less dn (n.take (s + 1)) = true := by
              rcases hqn with h | h
              · exact h
              · exact absurd h.1 h2
            have hdd : direct_child (n.take (s + 1)) = n.take (s + 1) := by
              rw [← hd, direct_child_idem]
            have hlt : ∀ m ∈ rest, m ≠ [] → name_less (n.take (s + 1)) m = true := by
              intro m hm hme
              exact name_less_trans _ _ _ (name_less_take n (s + 1) (by omega)) (hs.1 m hm hme)
            have ihr := ih (n.take (s + 1)) hs.2 (hnext _ hdd hlt)
            refine ⟨List.Pairwise.cons ihr.2 ihr.1, ?_⟩
            intro c hc
            rcases List.mem_cons.mp hc with hc | hc
            · rw [hc]; exact hdn
            · exact name_less_trans _ _ _ hdn (ihr.2 c hc)

theorem root_walk_nodup (l : List (List Nat))
    (hs : l.Pairwise (fun x y => y ≠ [] → name_less x y = true)) :
    (root_walk l []).Nodup := by
  have h := (root_walk_sorted l [] hs (by
    intro m _ hme
    left
    have : direct_child m ≠ [] := fun hc => hme ((direct_child_eq_nil m).mp hc)
    cases hd : direct_child m with
    | nil => exact absurd hd this
    | cons a as => rfl)).1
  refine h.imp ?_
  intro a b hab heq
  rw [heq, name_less_irrefl] at hab
  exact absurd hab (by simp)

/-! ## Lemmas: enumeration of the root -/

theorem byte_at_lt (data : List Nat) (i : Nat) : byte_at data i < 256 :=
  Nat.mod_lt _ (by decide)

theorem bytes_at_lt (data : List Nat) (p n : Nat) : ∀ x ∈ bytes_at data p n, x < 256 := by
  intro x hx
  simp only [bytes_at, List.mem_map] at hx
  obtain ⟨k, _, rfl⟩ := hx
  exact byte_at_lt _ _

theorem bytes_at_append_left (d rest : List Nat) (hb : ∀ x ∈ d, x < 256) :
    bytes_at (d ++ rest) 0 d.length = d := by
  apply List.ext_getElem
  · simp [bytes_at]
  · intro k h1 h2
    simp only [bytes_at, List.getElem_map, List.getElem_range, Nat.zero_add, byte_at]
    rw [List.getD_eq_getElem?_getD, List.getElem?_append_left h2, List.getElem?_eq_getElem h2]
    simp only [Option.getD_some]
    exact Nat.mod_eq_of_lt (hb _ (List.getElem_mem h2))

/-- The name read back from a synthesized record is the path it was built
for, when the path fits the 1024-byte buffer. -/
theorem virtual_name_eq (data d : List Nat) (hlen : d.length < 1024) (hb : ∀ x ∈ d, x < 256) :
    visited_name data (.synthesized (make_virtual_entry d)) = d := by
  have h1 : d.length % 2 ^ 16 = d.length := Nat.mod_eq_of_lt (by omega)
  simp only [visited_name, make_virtual_entry, hlen, if_true, h1]
  exact bytes_at_append_left d _ hb

theorem bytes_at_replicate_zero (m n : Nat) :
    bytes_at (List.replicate m 0) 0 n = List.replicate n 0 := by
  apply List.ext_getElem
  · simp [bytes_at]
  · intro k hk1 hk2
    simp only [bytes_at, List.getElem_map, List.getElem_range, Nat.zero_add, byte_at,
      List.getElem_replicate]
    by_cases hk : k < m
    · simp [List.getD_eq_getElem?_getD, List.getElem?_replicate, hk]
    · simp [List.getD_eq_getElem?_getD, List.getElem?_replicate, hk]

/-- For a path of 1024 bytes or more the guard of `for_each_entry` skips the
copy into the name buffer: the synthesized record carries the length of the
path and an all-zero name. -/
theorem virtual_name_long (data d : List Nat) (h1 : 1024 ≤ d.length) (h2 : d.length < 2 ^ 16) :
    visited_filename_length data (.synthesized (make_virtual_entry d)) = d.length ∧
    visited_name data (.synthesized (make_virtual_entry d)) = List.replicate d.length 0 := by
  have hlt : ¬ d.length < 1024 := by omega
  have hm : d.length % 2 ^ 16 = d.length := Nat.mod_eq_of_lt h2
  constructor
  · show d.length % 2 ^ 16 = d.length
    exact hm
  · show bytes_at (if d.length < 1024 then d ++ List.replicate (1024 - d.length) 0
      else List.replicate 1024 0) 0 (d.length % 2 ^ 16) = _
    rw [if_neg hlt, hm]
    exact bytes_at_replicate_zero 1024 d.length

theorem entry_names_length (ar : zip_archive) :
    ar.entry_names.length = ar.m_entry_offsets.length := by
  simp [entry_names]

theorem entry_names_getElem (ar : zip_archive) (hop : ar.opened) (i : Nat)
    (hi : i < ar.entry_names.length) : ar.entry_names[i] = ar.get_filename i := by
  rw [get_filename_eq_getD ar i hop, List.getD_eq_getElem?_getD, List.getElem?_eq_getElem hi]
  rfl

theorem take_succ_lt_of_ne (n : List Nat) (s : Nat) (hs : s < n.length) (h : s ≠ n.length - 1) :
    n.take (s + 1) ≠ n := by
  intro hc
  have := congrArg List.length hc
  simp at this
  omega

/-- At the root the main loop of `for_each_entry` hands out the names computed
by `root_walk` from the names of the table. -/
theorem for_each_walk_root (ar : zip_archive) (hop : ar.opened)
    (hshort : ∀ n ∈ ar.entry_names, direct_child n ≠ n → (direct_child n).length < 1024)
    (k i : Nat) (dn : List Nat) (hk : i + k = ar.m_num_entries) :
    (ar.for_each_walk [] (fun _ => false) 0 k i dn).map (visited_name ar.m_data) =
      root_walk (ar.entry_names.drop i) dn := by
  induction k generalizing i dn with
  | zero =>
    have : ar.entry_names.length ≤ i := by
      rw [entry_names_length]; have := hop.length_le; omega
    rw [List.drop_of_length_le this]
    rfl
  | succ k ih =>
    cases he : ar.find_entry_by_index i with
    | none =>
      have hlen : ar.entry_names.length ≤ i := by
        rw [entry_names_length]
        cases hc : ar.m_central_dir with
        | none => have := hop.null_dir hc; omega
        | some c =>
          rw [find_entry_by_index_eq ar c i hc hop] at he
          by_contra hlt
          simp [Nat.lt_of_not_le hlt] at he
      have hrec := ih (i + 1) dn (by omega)
      rw [List.drop_of_length_le (by omega)] at hrec
      rw [List.drop_of_length_le hlen]
      simp only [for_each_walk, he]
      rw [hrec]
    | some entry =>
      have hi : i < ar.entry_names.length := by
        rw [entry_names_length]; exact find_entry_by_index_lt ar i entry hop he
      have hname : dir_entry_name ar.m_data entry = ar.entry_names[i] := by
        rw [entry_names_getElem ar hop i hi, get_filename_of_some ar i entry he]
      have hdrop : ar.entry_names.drop i = ar.entry_names[i] :: ar.entry_names.drop (i + 1) :=
        List.drop_eq_getElem_cons hi
      have hmem : ar.entry_names[i] ∈ ar.entry_names := List.getElem_mem hi
      rw [hdrop]
      generalize ar.entry_names[i] = n at hname hmem
      simp only [for_each_walk, he, hname, List.isEmpty_nil, Bool.not_true, Bool.false_and,
        Bool.false_eq_true, if_false, root_walk]
      by_cases hn : n = []
      · simp only [hn, beq_self_eq_true, if_true]
        exact ih (i + 1) dn (by omega)
      · have hn' : (n == []) = false := by simpa using hn
        simp only [hn', Bool.false_eq_true, if_false, hn]
        cases hf : string_find 0x2F n with
        | none =>
          simp only [List.map_cons, visited_name, hname]
          rw [ih (i + 1) dn (by omega)]
        | some s =>
          simp only
          have hslt := string_find_lt _ _ _ hf
          by_cases h1 : s = n.length - 1
          · have h1' : (s == n.length - 1) = true := by simpa using h1
            rw [if_pos h1', if_pos h1]
            simp only [List.map_cons, visited_name, hname]
            rw [ih (i + 1) _ (by omega)]
          · have h1' : ¬ (s == n.length - 1) = true := by simpa using h1
            rw [if_neg h1', if_neg h1]
            by_cases h2 : n.take (s + 1) = dn
            · have h2' : (n.take (s + 1) == dn) = true := by simpa using h2
              rw [if_pos h2', if_pos h2]
              exact ih (i + 1) dn (by omega)
            · have h2' : ¬ (n.take (s + 1) == dn) = true := by simpa using h2
              rw [if_neg h2', if_neg h2]
              simp only [List.map_cons, path_join, List.nil_append]
              have hd := direct_child_of_some n s hf
              have hshort' := hshort n hmem (by rw [hd]; exact take_succ_lt_of_ne n s hslt h1)
              rw [hd] at hshort'
              have hb : ∀ x ∈ n.take (s + 1), x < 256 := by
                intro x hx
                have hx' : x ∈ n := List.mem_of_mem_take hx
                rw [← hname] at hx'
                exact bytes_at_lt _ _ _ x hx'
              rw [virtual_name_eq _ _ hshort' hb, ih (i + 1) _ (by omega)]

theorem for_each_entry_root (ar : zip_archive) (hop : ar.opened)
    (hshort : ∀ n ∈ ar.entry_names, direct_child n ≠ n → (direct_child n).length < 1024) :
    (ar.for_each_entry [] (fun _ => false)).map (visited_name ar.m_data) =
      root_walk ar.entry_names [] := by
  have := for_each_walk_root ar hop hshort ar.m_num_entries 0 [] (by omega)
  simpa [for_each_entry] using this

theorem entry_names_mem (ar : zip_archive) (hop : ar.opened) (n : List Nat) :
    n ∈ ar.entry_names ↔ ∃ i, i < ar.m_entry_offsets.length ∧ ar.get_filename i = n := by
  rw [List.mem_iff_getElem]
  constructor
  · rintro ⟨i, hi, h⟩
    rw [entry_names_getElem ar hop i hi] at h
    exact ⟨i, by rw [← entry_names_length]; exact hi, h⟩
  · rintro ⟨i, hi, h⟩
    have hi' : i < ar.entry_names.length := by rw [entry_names_length]; exact hi
    exact ⟨i, hi', by rw [entry_names_getElem ar hop i hi']; exact h⟩

theorem get_filename_nil_of_ge (ar : zip_archive) (hop : ar.opened) (i : Nat)
    (hi : ar.m_entry_offsets.length ≤ i) : ar.get_filename i = [] := by
  rw [get_filename_eq_getD ar i hop, List.getD_eq_getElem?_getD,
    List.getElem?_eq_none (by rw [entry_names_length]; exact hi)]
  rfl

/-- Distinct non-empty names make the sorted table strictly sorted. -/
theorem entry_names_strict (ar : zip_archive) (hop : ar.opened)
    (hdist : ∀ i j, i < j → j < ar.size → ar.get_filename j ≠ [] →
      ar.get_filename i ≠ ar.get_filename j) :
    ar.entry_names.Pairwise (fun x y => y ≠ [] → name_less x y = true) := by
  rw [List.pairwise_iff_getElem]
  intro i j hi hj hij hne
  rw [entry_names_getElem ar hop i hi, entry_names_getElem ar hop j hj] at *
  have hj' : j < ar.m_entry_offsets.length := by rw [← entry_names_length]; exact hj
  have hs := get_filename_sorted ar hop i j hij hj'
  have hd := hdist i j hij (by have := hop.length_le; unfold zip_archive.size; omega) hne
  cases hc : name_less (ar.get_filename i) (ar.get_filename j) with
  | true => rfl
  | false => exact absurd (name_less_total _ _ hc hs) hd

theorem string_find_take (n : List Nat) (s : Nat) (h : string_find 0x2F n = some s) :
    string_find 0x2F (n.take s) = none ∧ n.take (s + 1) = n.take s ++ [0x2F] := by
  induction n generalizing s with
  | nil => simp [string_find] at h
  | cons a as ih =>
    simp only [string_find] at h
    by_cases ha : a = 0x2F
    · simp only [ha, beq_self_eq_true, if_true, Option.some.injEq] at h
      subst h
      simp [string_find, ha]
    · have hb : (a == 0x2F) = false := by simpa using ha
      simp only [hb, Bool.false_eq_true, if_false, Option.map_eq_some'] at h
      obtain ⟨s', hs', rfl⟩ := h
      have := ih s' hs'
      simp [string_find, hb, this.1, this.2]

theorem child_listing_injective (x y : List Nat) (hx : direct_child x = x)
    (hy : direct_child y = y) (h : child_listing x = child_listing y) : x = y := by
  unfold child_listing at h
  cases hfx : string_find 0x2F x with
  | none =>
    cases hfy : string_find 0x2F y with
    | none =>
      rw [hfx, hfy] at h
      exact (Prod.mk.inj h).1
    | some t =>
      rw [hfx, hfy] at h
      exact absurd (Prod.mk.inj h).2 (by decide)
  | some s =>
    cases hfy : string_find 0x2F y with
    | none =>
      rw [hfx, hfy] at h
      exact absurd (Prod.mk.inj h).2 (by decide)
    | some t =>
      rw [hfx, hfy] at h
      have h1 := (Prod.mk.inj h).1
      have hx' := direct_child_of_some x s hfx
      have hy' := direct_child_of_some y t hfy
      rw [hx, (string_find_take x s hfx).2] at hx'
      rw [hy, (string_find_take y t hfy).2] at hy'
      rw [hx', hy', h1]

/-- What the visitor of `each("")` makes of a direct child of the root. -/
theorem each_visit_root (z : zipfs_archive) (v : visited_entry)
    (hne : visited_name z.archive.m_data v ≠ [])
    (hc : direct_child (visited_name z.archive.m_data v) = visited_name z.archive.m_data v) :
    ∃ st, z.each_visit [] v = some st ∧
      (st.fpath, st.type) = child_listing (visited_name z.archive.m_data v) := by
  have hne' : (visited_name z.archive.m_data v == []) = false := by simpa using hne
  simp only [zipfs_archive.each_visit, hne', Bool.false_eq_true, if_false, List.isEmpty_nil,
    Bool.not_true, child_listing]
  cases hf : string_find 0x2F (visited_name z.archive.m_data v) with
  | none => exact ⟨_, rfl, rfl⟩
  | some s =>
    have hd := direct_child_of_some _ s hf
    rw [hc] at hd
    have hs : s = (visited_name z.archive.m_data v).length - 1 := by
      have h1 := string_find_lt _ _ _ hf
      have h2 := congrArg List.length hd
      simp at h2
      omega
    have hs' : (s == (visited_name z.archive.m_data v).length - 1) = true := by simpa using hs
    simp only [hs', if_true]
    exact ⟨_, rfl, rfl⟩

theorem filterMap_listing (z : zipfs_archive) (l : List visited_entry)
    (h : ∀ v ∈ l, visited_name z.archive.m_data v ≠ [] ∧
      direct_child (visited_name z.archive.m_data v) = visited_name z.archive.m_data v) :
    (l.filterMap (z.each_visit [])).map (fun st => (st.fpath, st.type)) =
      (l.map (visited_name z.archive.m_data)).map child_listing := by
  induction l with
  | nil => rfl
  | cons v rest ih =>
    have hv := h v (List.mem_cons_self _ _)
    obtain ⟨st, h1, h2⟩ := each_visit_root z v hv.1 hv.2
    simp only [List.filterMap_cons, h1, List.map_cons, h2]
    rw [ih (fun w hw => h w (List.mem_cons_of_mem _ hw))]

theorem each_root_eq (z : zipfs_archive) :
    z.each [] = (z.archive.for_each_entry [] (fun _ => false)).filterMap (z.each_visit []) := by
  simp [zipfs_archive.each, zipfs_archive.locate, entry_t.is_dir]

/-- C4, at the archive `sample_dup` (members with the names `""`, `/`, `x`, `x`):
enumerating the root hands the name `x` to the visitor twice, and `each("")`
lists the file `x` twice. -/
theorem root_enumeration_repeats :
    zipfs_archive.open_ {} (some sample_dup) 334 = (0, sample_dup_fs) ∧
    (sample_dup_fs.archive.for_each_entry [] (fun _ => false)).map
      (visited_name sample_dup_fs.archive.m_data) = [[0x2F], [0x78], [0x78]] ∧
    ¬ ((sample_dup_fs.archive.for_each_entry [] (fun _ => false)).map
      (visited_name sample_dup_fs.archive.m_data)).Nodup ∧
    (sample_dup_fs.each []).map (fun st => (st.fpath, st.type)) =
      [([], DIR), ([0x78], FILE), ([0x78], FILE)] := by
  refine ⟨sample_dup_fs_open, by decide, by decide, by decide⟩

/-- C4, amended: on every successfully opened archive whose non-empty entry
names are pairwise distinct and in which every first path component that has
to be synthesized is, with its `/`, shorter than the 1024-byte name buffer,
enumerating the root hands every direct child to the visitor exactly once: the
names handed out by `for_each_entry("", f)` are free of repetitions, they are
exactly the direct children of the non-empty entry names, and none of them has
a `/` before its last byte; `each("")` lists every direct child once (name
without the trailing `/`, with its kind) and no listed name contains `/`. -/
theorem root_enumeration_once (data : List Nat) (size : Nat) (z : zipfs_archive)
    (hopen : zipfs_archive.open_ {} (some data) size = (0, z))
    (hdist : ∀ i j, i < j → j < z.archive.size → z.archive.get_filename j ≠ [] →
      z.archive.get_filename i ≠ z.archive.get_filename j)
    (hshort : ∀ i, i < z.archive.size →
      direct_child (z.archive.get_filename i) ≠ z.archive.get_filename i →
      (direct_child (z.archive.get_filename i)).length < 1024) :
    ((z.archive.for_each_entry [] (fun _ => false)).map
      (visited_name z.archive.m_data)).Nodup ∧
    (∀ i, i < z.archive.size → z.archive.get_filename i ≠ [] →
      direct_child (z.archive.get_filename i) ∈
        (z.archive.for_each_entry [] (fun _ => false)).map (visited_name z.archive.m_data)) ∧
    (∀ c ∈ (z.archive.for_each_entry [] (fun _ => false)).map (visited_name z.archive.m_data),
      ∃ i, i < z.archive.size ∧ z.archive.get_filename i ≠ [] ∧
        direct_child (z.archive.get_filename i) = c) ∧
    (∀ c ∈ (z.archive.for_each_entry [] (fun _ => false)).map (visited_name z.archive.m_data),
      ∀ j, j + 1 < c.length → c.getD j 0 ≠ 0x2F) ∧
    ((z.each []).map (fun st => (st.fpath, st.type))).Nodup ∧
    (∀ i, i < z.archive.size → z.archive.get_filename i ≠ [] →
      child_listing (direct_child (z.archive.get_filename i)) ∈
        (z.each []).map (fun st => (st.fpath, st.type))) ∧
    (∀ st ∈ z.each [], string_find 0x2F st.fpath = none) := by
  have hop := (zipfs_open_ok data size z hopen).1
  have hle : z.archive.m_entry_offsets.length ≤ z.archive.size := hop.length_le
  have hshort' : ∀ n ∈ z.archive.entry_names, direct_child n ≠ n →
      (direct_child n).length < 1024 := by
    intro n hn
    obtain ⟨i, hi, rfl⟩ := (entry_names_mem z.archive hop n).mp hn
    exact hshort i (by omega)
  have hE := for_each_entry_root z.archive hop hshort'
  have hstrict := entry_names_strict z.archive hop hdist
  have hmemE : ∀ c ∈ root_walk z.archive.entry_names [],
      ∃ i, i < z.archive.size ∧ z.archive.get_filename i ≠ [] ∧
        direct_child (z.archive.get_filename i) = c := by
    intro c hc
    obtain ⟨n, hn, hne, hd⟩ := root_walk_mem _ _ c hc
    obtain ⟨i, hi, rfl⟩ := (entry_names_mem z.archive hop n).mp hn
    exact ⟨i, by omega, hne, hd⟩
  have hcover : ∀ i, i < z.archive.size → z.archive.get_filename i ≠ [] →
      direct_child (z.archive.get_filename i) ∈ root_walk z.archive.entry_names [] := by
    intro i _ hne
    have hi' : i < z.archive.m_entry_offsets.length := by
      by_contra hc
      exact hne (get_filename_nil_of_ge z.archive hop i (by omega))
    rcases root_walk_covers z.archive.entry_names [] _
      ((entry_names_mem z.archive hop _).mpr ⟨i, hi', rfl⟩) hne with h | h
    · exact h
    · exact absurd ((direct_child_eq_nil _).mp h) hne
  have hform : ∀ v ∈ z.archive.for_each_entry [] (fun _ => false),
      visited_name z.archive.m_data v ≠ [] ∧
        direct_child (visited_name z.archive.m_data v) = visited_name z.archive.m_data v := by
    intro v hv
    have hc : visited_name z.archive.m_data v ∈ root_walk z.archive.entry_names [] := by
      rw [← hE]; exact List.mem_map_of_mem _ hv
    obtain ⟨i, _, hne, hd⟩ := hmemE _ hc
    rw [← hd]
    exact ⟨fun h => hne ((direct_child_eq_nil _).mp h), direct_child_idem _⟩
  have hS := filterMap_listing z _ hform
  rw [← each_root_eq, hE] at hS
  rw [hE, hS]
  have hnodup := root_walk_nodup z.archive.entry_names hstrict
  refine ⟨hnodup, hcover, hmemE, ?_, ?_, ?_, ?_⟩
  · intro c hc j hj
    obtain ⟨i, _, _, hd⟩ := hmemE c hc
    rw [← hd] at hj ⊢
    exact direct_child_no_inner_slash _ j hj
  · refine List.Nodup.map_on ?_ hnodup
    intro x hx y hy hxy
    obtain ⟨i, _, _, hdx⟩ := hmemE x hx
    obtain ⟨j, _, _, hdy⟩ := hmemE y hy
    exact child_listing_injective x y (by rw [← hdx, direct_child_idem])
      (by rw [← hdy, direct_child_idem]) hxy
  · intro i hi hne
    exact List.mem_map_of_mem _ (hcover i hi hne)
  · intro st hst
    have hmem : (st.fpath, st.type) ∈ (z.each []).map (fun st => (st.fpath, st.type)) :=
      List.mem_map_of_mem (fun st => (st.fpath, st.type)) hst
    rw [hS] at hmem
    obtain ⟨c, hc, hcl⟩ := List.mem_map.mp hmem
    unfold child_listing at hcl
    cases hf : string_find 0x2F c with
    | none =>
      rw [hf] at hcl
      rw [← (Prod.mk.inj hcl).1]; exact hf
    | some s =>
      rw [hf] at hcl
      rw [← (Prod.mk.inj hcl).1]; exact (string_find_take c s hf).1

set_option maxRecDepth 100000 in
/-- C4, amended, at the archive `sample_abc`: the root has the children `a/`
(synthesized), `b` and `c`. -/
theorem root_enumeration_once_witness :
    zipfs_archive.open_ {} (some sample_abc) 264 = (0, sample_abc_fs) ∧
    (sample_abc_fs.archive.for_each_entry [] (fun _ => false)).map
      (visited_name sample_abc_fs.archive.m_data) = [[0x61, 0x2F], [0x62], [0x63]] ∧
    (sample_abc_fs.each []).map (fun st => (st.fpath, st.type)) =
      [([0x61], DIR), ([0x62], FILE), ([0x63], FILE)] ∧
    ((sample_abc_fs.archive.for_each_entry [] (fun _ => false)).map
      (visited_name sample_abc_fs.archive.m_data)).Nodup :=
  ⟨sample_abc_fs_open, by decide, by decide,
    (root_enumeration_once sample_abc 264 sample_abc_fs sample_abc_fs_open
      (by
        intro i j hij hj
        have hj' : j < 3 := hj
        interval_cases j <;> interval_cases i <;> decide)
      (by
        intro i hi
        have hi' : i < 3 := hi
        interval_cases i <;> decide)).1⟩

/-! ## Lemmas: the scan for the end-of-central-directory record -/

theorem eocd_scan_none_iff (data : List Nat) (size k i : Nat) :
    eocd_scan data size k i = none ↔
      ∀ j, i ≤ j → j < i + k → sig_at data (size - 4 - j) 0x05 0x06 = false := by
  induction k generalizing i with
  | zero =>
    simp only [eocd_scan, true_iff]
    intro j h1 h2
    omega
  | succ k ih =>
    simp only [eocd_scan]
    by_cases hs : sig_at data (size - 4 - i) 0x05 0x06 = true
    · simp only [hs, if_true]
      constructor
      · intro h; exact absurd h (by simp)
      · intro h
        have := h i (Nat.le_refl _) (by omega)
        rw [hs] at this
        exact absurd this (by simp)
    · simp only [hs, Bool.false_eq_true, if_false]
      rw [ih (i + 1)]
      constructor
      · intro h j h1 h2
        by_cases hj : j = i
        · rw [hj]; simpa using hs
        · exact h j (by omega) (by omega)
      · intro h j h1 h2
        exact h j (by omega) (by omega)

theorem eocd_scan_some (data : List Nat) (size k i p : Nat)
    (h : eocd_scan data size k i = some p) :
    ∃ j, i ≤ j ∧ j < i + k ∧ p = size - 4 - j ∧ sig_at data p 0x05 0x06 = true ∧
      ∀ j', i ≤ j' → j' < j → sig_at data (size - 4 - j') 0x05 0x06 = false := by
  induction k generalizing i with
  | zero => simp [eocd_scan] at h
  | succ k ih =>
    simp only [eocd_scan] at h
    by_cases hs : sig_at data (size - 4 - i) 0x05 0x06 = true
    · simp only [hs, if_true, Option.some.injEq] at h
      refine ⟨i, Nat.le_refl _, by omega, h.symm, by rw [← h]; exact hs, ?_⟩
      intro j' h1 h2
      omega
    · simp only [hs, Bool.false_eq_true, if_false] at h
      obtain ⟨j, h1, h2, h3, h4, h5⟩ := ih (i + 1) h
      refine ⟨j, by omega, by omega, h3, h4, ?_⟩
      intro j' a1 a2
      by_cases hj : j' = i
      · rw [hj]; simpa using hs
      · exact h5 j' (by omega) a2

/-- The scan looks at the positions `size - min size 65557 + 1 .. size - 4`
only: when none of them carries the signature, nothing is found. -/
theorem find_end_of_central_dir_none (data : List Nat) (size : Nat)
    (h : ∀ q, size - min size 65557 < q → q ≤ size - 4 → sig_at data q 0x05 0x06 = false) :
    find_end_of_central_dir data size = none := by
  unfold find_end_of_central_dir
  by_cases hs : size < 22
  · simp [hs]
  · simp only [hs, if_false]
    rw [eocd_scan_none_iff]
    intro j _ hj
    apply h
    · omega
    · omega

/-- C19: for every byte slice of length `N < 22`, `find_end_of_central_dir`
returns not-found and `open` throws, producing no archive and leaving the
fields of the archive object as they were; the adapter's `open` returns -1. -/
theorem open_short_slice (self : zip_archive) (data : List Nat) (size : Nat) (h : size < 22) :
    find_end_of_central_dir data size = none ∧
    self.open_ data size = .error ("Not a valid ZIP file", self) ∧
    ∀ z : zipfs_archive, z.open_ (some data) size = (-1, z) := by
  have h1 : find_end_of_central_dir data size = none := by
    simp [find_end_of_central_dir, h]
  refine ⟨h1, ?_, ?_⟩
  · simp [zip_archive.open_, h1]
  · intro z
    simp [zipfs_archive.open_, zip_archive.open_, h1]

/-- C19 at the 21-byte slice that is an end-of-central-directory record
without its last byte. -/
theorem open_short_slice_witness :
    21 < 22 ∧ find_end_of_central_dir (sample_empty.take 21) 21 = none ∧
    (({} : zip_archive).open_ (sample_empty.take 21) 21 =
      .error ("Not a valid ZIP file", {})) ∧
    ∀ z : zipfs_archive, z.open_ (some (sample_empty.take 21)) 21 = (-1, z) :=
  ⟨by decide, open_short_slice {} (sample_empty.take 21) 21 (by decide)⟩

theorem sample_commented_length (n : Nat) : (sample_commented n).length = 22 + n := by
  simp [sample_commented, le16, le32]
  omega

theorem sample_commented_sig (n q : Nat) (hq : 1 ≤ q) :
    sig_at (sample_commented n) q 0x05 0x06 = false := by
  have hget : ∀ k, 22 ≤ k → byte_at (sample_commented n) k = 0 := by
    intro k hk
    unfold byte_at sample_commented
    rw [List.getD_eq_getElem?_getD, List.getElem?_append_right (by simp [le16, le32]; omega),
      List.getElem?_append_right (by simp [le16, le32]; omega), List.getElem?_replicate]
    split <;> simp
  have hfix : ∀ k, k < 20 → byte_at (sample_commented n) k =
      byte_at ([0x50, 0x4B, 0x05, 0x06] ++ le16 0 ++ le16 0 ++ le16 0 ++ le16 0 ++ le32 0 ++
        le32 0) k := by
    intro k hk
    unfold byte_at sample_commented
    rw [List.getD_eq_getElem?_getD, List.getD_eq_getElem?_getD,
      List.getElem?_append_left (by simpa [le16, le32] using hk)]
  by_cases h20 : q < 20
  · have h1 : byte_at (sample_commented n) q ≠ 0x50 := by
      rw [hfix q h20]
      interval_cases q <;> decide
    simp [sig_at, h1]
  · have h2 : byte_at (sample_commented n) (q + 2) = 0 := hget (q + 2) (by omega)
    simp [sig_at, h2]

/-- C20, at two archives without entries. The 22-byte archive `sample_empty`
carries the signature at position `0 = N - min(N, 65557) = N - 22`, and
`sample_long_comment` (a 65535-byte comment, `N = 65557`) carries it at
position `0 = N - 65557`; in both the scan stops one position short and
returns not-found, and `open` throws. -/
theorem eocd_scan_misses_boundary :
    sample_empty.length = 22 ∧ sig_at sample_empty 0 0x05 0x06 = true ∧
    find_end_of_central_dir sample_empty 22 = none ∧
    (({} : zip_archive).open_ sample_empty 22 = .error ("Not a valid ZIP file", {})) ∧
    sample_long_comment.length = 65557 ∧ sig_at sample_long_comment 0 0x05 0x06 = true ∧
    find_end_of_central_dir sample_long_comment 65557 = none := by
  refine ⟨by decide, by decide, by decide, by decide, sample_commented_length 65535, ?_, ?_⟩
  · have hfix : ∀ k, k < 20 → byte_at (sample_commented 65535) k =
        byte_at ([0x50, 0x4B, 0x05, 0x06] ++ le16 0 ++ le16 0 ++ le16 0 ++ le16 0 ++ le32 0 ++
          le32 0) k := by
      intro k hk
      unfold byte_at sample_commented
      rw [List.getD_eq_getElem?_getD, List.getD_eq_getElem?_getD,
        List.getElem?_append_left (by simpa [le16, le32] using hk)]
    unfold sample_long_comment sig_at
    rw [hfix 0 (by omega), hfix (0 + 1) (by omega), hfix (0 + 2) (by omega),
      hfix (0 + 3) (by omega)]
    decide
  · apply find_end_of_central_dir_none
    intro q h1 _
    exact sample_commented_sig 65535 q (by omega)

section lru_get

variable {Key Value : Type} [DecidableEq Key]

omit [DecidableEq Key] in
theorem node_eq_iff_key_eq (l : List (Nat × Key)) (node : Nat) (key : Key)
    (h1 : (l.map Prod.fst).Nodup) (h2 : (l.map Prod.snd).Nodup) (hm : (node, key) ∈ l)
    (n : Nat × Key) (hn : n ∈ l) : n.1 = node ↔ n.2 = key := by
  constructor
  · intro h
    have := List.inj_on_of_nodup_map h1 hn hm (by rw [h])
    rw [this]
  · intro h
    have := List.inj_on_of_nodup_map h2 hn hm (by rw [h])
    rw [this]

theorem list_erase_keys_eq (l : List (Nat × Key)) (node : Nat) (key : Key)
    (h1 : (l.map Prod.fst).Nodup) (h2 : (l.map Prod.snd).Nodup) (hm : (node, key) ∈ l) :
    (list_erase l (some node)).map Prod.snd =
      (l.map Prod.snd).filter (fun x => decide (x ≠ key)) := by
  rw [List.filter_map]
  congr 1
  unfold list_erase
  apply List.filter_congr
  intro n hn
  have := node_eq_iff_key_eq l node key h1 h2 hm n hn
  by_cases hc : n.1 = node
  · simp [hc, this.mp hc]
  · have hk : n.2 ≠ key := fun h => hc (this.mpr h)
    simp [hc, hk]

/-- `get` on a cache that satisfies the representation invariant. -/
theorem get_frame (c : lru_cache Key Value) (h : c.inv) (key : Key) :
    (c.contains key = true →
      (c.get key).1 = c.stored key ∧ (c.get key).1 ≠ none ∧
      (c.get key).2.list_keys = key :: c.list_keys.filter (fun x => decide (x ≠ key)) ∧
      (c.get key).2.map_keys = c.map_keys ∧
      ∀ k, (c.get key).2.stored k = c.stored k) ∧
    (c.contains key = false → (c.get key).1 = none ∧ (c.get key).2 = c) := by
  cases hf : map_find c.m_map key with
  | none =>
    have hc : c.contains key = false := by simp [lru_cache.contains, hf]
    refine ⟨fun h' => by rw [hc] at h'; exact absurd h' (by simp), fun _ => ?_⟩
    simp [lru_cache.get, hf]
  | some i =>
    obtain ⟨v, j⟩ := i
    have hc : c.contains key = true := by simp [lru_cache.contains, hf]
    refine ⟨fun _ => ?_, fun h' => by rw [hc] at h'; exact absurd h' (by simp)⟩
    have hmem := map_find_some_mem _ _ _ hf
    obtain ⟨node, hj, hnode⟩ := h.iter _ hmem
    simp only at hj hnode
    subst hj
    have hkm : key ∈ c.m_map.map Prod.fst := List.mem_map_of_mem Prod.fst hmem
    have hst : c.stored key = some v := by simp [lru_cache.stored, hf]
    by_cases hb : some node ≠ list_begin c.m_list
    · have hg1 : (c.get key).1 = some v := by
        simp [lru_cache.get, hf, hb, map_find_assign_self]
      have hg2 : (c.get key).2.m_list = (c.next_node, key) :: list_erase c.m_list (some node) := by
        simp [lru_cache.get, hf, hb, lru_cache.push_front]
      have hg3 : (c.get key).2.m_map =
          map_assign c.m_map key (v, some c.next_node) := by
        simp only [lru_cache.get, hf]
        rw [if_pos hb]
        rfl
      refine ⟨by rw [hg1, hst], by rw [hg1]; simp, ?_, ?_, ?_⟩
      · simp only [lru_cache.list_keys, hg2, List.map_cons]
        rw [list_erase_keys_eq _ _ _ h.nodes_nodup h.list_nodup hnode]
      · simp only [lru_cache.map_keys, hg3]
        exact map_assign_keys _ _ _ hkm
      · intro k
        simp only [lru_cache.stored, hg3]
        by_cases hk : k = key
        · rw [hk, map_find_assign_self, hf]
          rfl
        · rw [map_find_assign_ne _ _ _ _ hk]
    · have hg : c.get key = (some v, c) := by
        simp only [lru_cache.get, hf]
        rw [if_neg hb]
      have hbeg : list_begin c.m_list = some node := by
        by_contra hc'
        exact hb (fun h' => hc' h'.symm)
      refine ⟨by rw [hg, hst], by rw [hg]; simp, ?_, by rw [hg], fun k => by rw [hg]⟩
      rw [hg]
      cases hl : c.m_list with
      | nil => rw [hl] at hnode; simp at hnode
      | cons n rest =>
        have hn1 : n.1 = node := by
          rw [hl] at hbeg
          simpa [list_begin] using hbeg
        have hn : n = (node, key) :=
          List.inj_on_of_nodup_map h.nodes_nodup (by rw [hl]; exact List.mem_cons_self _ _)
            hnode (by rw [hn1])
        have hnd := h.list_nodup
        rw [hl, hn] at hnd
        simp only [List.map_cons, List.nodup_cons] at hnd
        simp only [lru_cache.list_keys, hl, hn, List.map_cons, List.filter_cons, ne_eq,
          not_true_eq_false, decide_False, Bool.false_eq_true, if_false, List.cons.injEq,
          true_and]
        symm
        rw [List.filter_eq_self]
        intro a ha
        have : a ≠ key := fun hc' => hnd.1 (hc' ▸ ha)
        simpa using this

/-- C11: `get(k)` on a cache reached from the empty one. On a hit it returns
the value stored for `k` and moves `k` to the front of the recency list: the
keys of the map, every stored value and the order of the other keys in the
list stay as they were. On a miss it returns none and the cache is unchanged. -/
theorem lru_get_frame (C : Nat) (ops : List (lru_op Key Value)) (k : Key) :
    (((lru_cache.new C : lru_cache Key Value).run ops).contains k = true →
      (((lru_cache.new C : lru_cache Key Value).run ops).get k).1 =
        ((lru_cache.new C : lru_cache Key Value).run ops).stored k ∧
      (((lru_cache.new C : lru_cache Key Value).run ops).get k).1 ≠ none ∧
      (((lru_cache.new C : lru_cache Key Value).run ops).get k).2.list_keys =
        k :: ((lru_cache.new C : lru_cache Key Value).run ops).list_keys.filter
          (fun x => decide (x ≠ k)) ∧
      (((lru_cache.new C : lru_cache Key Value).run ops).get k).2.map_keys =
        ((lru_cache.new C : lru_cache Key Value).run ops).map_keys ∧
      ∀ k', (((lru_cache.new C : lru_cache Key Value).run ops).get k).2.stored k' =
        ((lru_cache.new C : lru_cache Key Value).run ops).stored k') ∧
    (((lru_cache.new C : lru_cache Key Value).run ops).contains k = false →
      (((lru_cache.new C : lru_cache Key Value).run ops).get k).1 = none ∧
      (((lru_cache.new C : lru_cache Key Value).run ops).get k).2 =
        (lru_cache.new C : lru_cache Key Value).run ops) :=
  get_frame _ (inv_run _ (inv_new C) ops) k

end lru_get

/-- C11 at capacity 3 after `insert(1), insert(2), insert(3)`: `get(2)` is a
hit that moves key 2 from the middle of the list `3, 2, 1` to its front, and
`get(7)` is a miss. -/
theorem lru_get_frame_witness :
    ((lru_cache.new 3 : lru_cache Int Nat).run
      [.insert 1 10, .insert 2 20, .insert 3 30]).list_keys = [3, 2, 1] ∧
    (((lru_cache.new 3 : lru_cache Int Nat).run
      [.insert 1 10, .insert 2 20, .insert 3 30]).get 2).1 = some 20 ∧
    (((lru_cache.new 3 : lru_cache Int Nat).run
      [.insert 1 10, .insert 2 20, .insert 3 30]).get 2).2.list_keys = [2, 3, 1] ∧
    (((lru_cache.new 3 : lru_cache Int Nat).run
      [.insert 1 10, .insert 2 20, .insert 3 30]).get 7).2 =
      (lru_cache.new 3 : lru_cache Int Nat).run [.insert 1 10, .insert 2 20, .insert 3 30] :=
  ⟨by decide, by decide, by decide,
    ((lru_get_frame 3 [.insert 1 10, .insert 2 20, .insert 3 30] 7).2 (by decide)).2⟩

/-! ## Lemmas: `get_file_data` -/

theorem read_u16_lt (data : List Nat) (i : Nat) : read_u16 data i < 2 ^ 16 := by
  have h0 := byte_at_lt data i
  have h1 := byte_at_lt data (i + 1)
  unfold read_u16; omega

theorem read_u32_lt (data : List Nat) (i : Nat) : read_u32 data i < 2 ^ 32 := by
  have h0 := read_u16_lt data i
  have h1 := read_u16_lt data (i + 2)
  unfold read_u32; omega

theorem read_u64_lt (data : List Nat) (i : Nat) : read_u64 data i < 2 ^ 64 := by
  have h0 := read_u32_lt data i
  have h1 := read_u32_lt data (i + 4)
  unfold read_u64; omega

theorem sig_at_read_u32 (data : List Nat) (q : Nat) (h : sig_at data q 0x03 0x04 = true) :
    read_u32 data q = 0x04034b50 := by
  simp only [sig_at, Bool.and_eq_true, beq_iff_eq] at h
  obtain ⟨⟨⟨h0, h1⟩, h2⟩, h3⟩ := h
  simp only [read_u32, read_u16]
  rw [show q + 2 + 1 = q + 3 from rfl, h0, h1, h2, h3]

theorem zip_base_scan_first (data : List Nat) (k offset q : Nat) (h1 : offset ≤ q)
    (h2 : q < zip_base_scan data k offset) : read_u32 data q ≠ 0x04034b50 := by
  induction k generalizing offset with
  | zero => simp [zip_base_scan] at h2
  | succ k ih =>
    unfold zip_base_scan at h2
    split at h2
    · omega
    · rename_i hne
      rcases Nat.eq_or_lt_of_le h1 with h | h
      · subst h; simpa using hne
      · exact ih (offset + 1) h h2

/-- The base offset that `open` records is the position of the first local
file header signature of the slice. -/
theorem open_base (data : List Nat) (size : Nat) (ar : zip_archive)
    (h : zip_archive.open_ {} data size = .ok ar) :
    ar.m_size = size ∧ ar.m_zip_base_offset = zip_base_scan data (size - 4) 0 := by
  unfold zip_archive.open_ at h
  split at h
  · exact absurd h (by simp)
  · rename_i eocd_pos _
    simp only at h
    split at h
    · exact absurd h (by simp)
    · injection h with h
      subst h
      have hc := check_zip64_support_fields
        ({ m_data := data, m_size := size } : zip_archive) eocd_pos
      have hp : ∀ s : zip_archive, s.parse_central_directory.m_size = s.m_size ∧
          s.parse_central_directory.m_zip_base_offset = s.m_zip_base_offset := by
        intro s; unfold zip_archive.parse_central_directory; split <;> exact ⟨rfl, rfl⟩
      have hs : ∀ s : zip_archive, s.find_zip_base_offset.1.m_size = s.m_size := by
        intro s; unfold zip_archive.find_zip_base_offset; simp only; split <;> rfl
      rw [(hp _).1, (hp _).2]
      refine ⟨?_, ?_⟩
      · show (zip_archive.find_zip_base_offset _).1.m_size = size
        rw [hs, hc.2.1]
      · show (zip_archive.find_zip_base_offset _).2 = _
        unfold zip_archive.find_zip_base_offset
        simp only
        rw [hc.1, hc.2.1]

theorem zip64_extended_walk_lt (data : List Nat) (ef efl u c l : Nat) (hl : l < 2 ^ 64)
    (k pos : Nat) : (zip64_extended_walk data ef efl u c l k pos).2.2.2 < 2 ^ 64 := by
  induction k generalizing pos with
  | zero => exact hl
  | succ k ih =>
    unfold zip64_extended_walk
    simp only
    split_ifs <;> first | exact read_u64_lt _ _ | exact hl | exact ih _

theorem zip64_fields_lt (ar : zip_archive) (entry : Nat) : (ar.zip64_fields entry).2.2 < 2 ^ 64 := by
  have hl : dir_local_header_offset ar.m_data entry < 2 ^ 64 :=
    lt_trans (read_u32_lt _ _) (by norm_num)
  unfold zip_archive.zip64_fields
  split
  · unfold zip_archive.parse_zip64_extended_info
    simp only
    split
    · exact hl
    · exact zip64_extended_walk_lt _ _ _ _ _ _ hl _ _
  · exact hl

theorem get_file_data_unfold (ar : zip_archive) (index : Nat) :
    ar.get_file_data index =
      match ar.find_entry_by_index index with
      | none => (none, 0)
      | some entry =>
        if ((ar.m_zip_base_offset + (ar.zip64_fields entry).2.2) % 2 ^ 64 + 30) % 2 ^ 64 >
            ar.m_size then (none, 0)
        else
          match (if !sig_at ar.m_data
                ((ar.m_zip_base_offset + (ar.zip64_fields entry).2.2) % 2 ^ 64) 0x03 0x04 then
              if ((ar.m_zip_base_offset + ((ar.zip64_fields entry).2.2 ||| 0x0100000000)) % 2 ^ 64
                  + 30) % 2 ^ 64 > ar.m_size then none
              else if !sig_at ar.m_data
                  ((ar.m_zip_base_offset + ((ar.zip64_fields entry).2.2 ||| 0x0100000000)) % 2 ^ 64)
                  0x03 0x04 then none
              else some ((ar.m_zip_base_offset +
                ((ar.zip64_fields entry).2.2 ||| 0x0100000000)) % 2 ^ 64)
            else some ((ar.m_zip_base_offset + (ar.zip64_fields entry).2.2) % 2 ^ 64) :
              Option Nat) with
          | none => (none, 0)
          | some local_header_ptr =>
            if (local_header_ptr + 4 + 26 + read_u16 ar.m_data (local_header_ptr + 4 + 22) +
                read_u16 ar.m_data (local_header_ptr + 4 + 24) + (ar.zip64_fields entry).2.1)
                % 2 ^ 64 > ar.m_size then (none, 0)
            else (some (local_header_ptr + 4 + 26 + read_u16 ar.m_data (local_header_ptr + 4 + 22) +
                read_u16 ar.m_data (local_header_ptr + 4 + 24)), (ar.zip64_fields entry).2.1) := by
  rfl

/-- The shape of a non-null result of `get_file_data`, in 64-bit arithmetic. -/
theorem get_file_data_some (ar : zip_archive) (index p n : Nat)
    (h : ar.get_file_data index = (some p, n)) :
    ∃ entry a, ar.find_entry_by_index index = some entry ∧
      (a = (ar.m_zip_base_offset + (ar.zip64_fields entry).2.2) % 2 ^ 64 ∨
        (sig_at ar.m_data ((ar.m_zip_base_offset + (ar.zip64_fields entry).2.2) % 2 ^ 64)
            0x03 0x04 = false ∧
          a = (ar.m_zip_base_offset + ((ar.zip64_fields entry).2.2 ||| 0x0100000000)) % 2 ^ 64)) ∧
      sig_at ar.m_data a 0x03 0x04 = true ∧
      p = a + 30 + read_u16 ar.m_data (a + 26) + read_u16 ar.m_data (a + 28) ∧
      n = (ar.zip64_fields entry).2.1 ∧ (p + n) % 2 ^ 64 ≤ ar.m_size := by
  rw [get_file_data_unfold] at h
  split at h
  · exact absurd h (by simp)
  · rename_i entry he
    refine ⟨entry, ?_⟩
    generalize ar.zip64_fields entry = f at h ⊢
    split at h
    · exact absurd h (by simp)
    · split at h
      · exact absurd h (by simp)
      · rename_i a ha
        split at h
        · exact absurd h (by simp)
        · rename_i hle
          simp only [Prod.mk.injEq, Option.some.injEq] at h
          refine ⟨a, he, ?_, ?_, h.1.symm, h.2.symm, ?_⟩
          · split at ha
            · rename_i hs
              split at ha
              · exact absurd ha (by simp)
              · split at ha
                · exact absurd ha (by simp)
                · right
                  refine ⟨by simpa using hs, ?_⟩
                  simp only [Option.some.injEq] at ha
                  exact ha.symm
            · left
              simp only [Option.some.injEq] at ha
              exact ha.symm
          · split at ha
            · split at ha
              · exact absurd ha (by simp)
              · split at ha
                · exact absurd ha (by simp)
                · rename_i hs2
                  simp only [Option.some.injEq] at ha
                  rw [← ha]; simpa using hs2
            · rename_i hs
              simp only [Option.some.injEq] at ha
              rw [← ha]; simpa using hs
          · rw [← h.1, ← h.2]
            exact Nat.le_of_not_lt hle

/-- On an opened archive the local header found by `get_file_data` lies at the
unwrapped sum of the base offset and the local header offset. -/
theorem open_no_wrap (data : List Nat) (size : Nat) (ar : zip_archive)
    (hopen : zip_archive.open_ {} data size = .ok ar) (x : Nat) (hx : x < 2 ^ 64)
    (hs : sig_at ar.m_data ((ar.m_zip_base_offset + x) % 2 ^ 64) 0x03 0x04 = true) :
    (ar.m_zip_base_offset + x) % 2 ^ 64 = ar.m_zip_base_offset + x := by
  by_cases hw : ar.m_zip_base_offset + x < 2 ^ 64
  · exact Nat.mod_eq_of_lt hw
  · exfalso
    have hd := (open_opened data size ar hopen).2
    have hb := (open_base data size ar hopen).2
    rw [hd] at hs
    have hlt : (ar.m_zip_base_offset + x) % 2 ^ 64 < zip_base_scan data (size - 4) 0 := by
      rw [← hb]; omega
    exact zip_base_scan_first data (size - 4) 0 _ (Nat.zero_le _) hlt (sig_at_read_u32 _ _ hs)

/-- C16: when `get_file_data` on an opened archive returns a non-null payload
for an index, the index has a central-directory record, the payload starts at
`base_offset + off + 30 + local.filename_length + local.extra_field_length`
as a natural number, where `off` is the resolved local header offset of the
record (the ZIP64-corrected offset, or that offset with bit 32 set when no
local header signature stands at the first position), a local header signature
stands at `base_offset + off`, the two lengths are read from that local header,
and the returned length is the ZIP64-corrected compressed size of the record. -/
theorem get_file_data_payload_start (data : List Nat) (size : Nat) (ar : zip_archive)
    (hopen : zip_archive.open_ {} data size = .ok ar) (index p n : Nat)
    (h : ar.get_file_data index = (some p, n)) :
    ∃ entry off, ar.find_entry_by_index index = some entry ∧
      (off = (ar.zip64_fields entry).2.2 ∨
        (sig_at data ((ar.m_zip_base_offset + (ar.zip64_fields entry).2.2) % 2 ^ 64)
            0x03 0x04 = false ∧
          off = (ar.zip64_fields entry).2.2 ||| 0x0100000000)) ∧
      sig_at data (ar.m_zip_base_offset + off) 0x03 0x04 = true ∧
      p = ar.m_zip_base_offset + off + 30 +
        read_u16 data (ar.m_zip_base_offset + off + 4 + 22) +
        read_u16 data (ar.m_zip_base_offset + off + 4 + 24) ∧
      n = (ar.zip64_fields entry).2.1 := by
  obtain ⟨entry, a, he, ha, hs, hp, hn, _⟩ := get_file_data_some ar index p n h
  have hd := (open_opened data size ar hopen).2
  have hlt := zip64_fields_lt ar entry
  rcases ha with ha | ⟨hf, ha⟩
  · refine ⟨entry, (ar.zip64_fields entry).2.2, he, Or.inl rfl, ?_, ?_, hn⟩
    · rw [ha] at hs
      rw [← open_no_wrap data size ar hopen _ hlt hs, ← hd]; exact hs
    · rw [ha] at hs
      rw [← open_no_wrap data size ar hopen _ hlt hs, ← hd, ← ha]; exact hp
  · have hlt2 : (ar.zip64_fields entry).2.2 ||| 0x0100000000 < 2 ^ 64 :=
      Nat.or_lt_two_pow hlt (by norm_num)
    refine ⟨entry, (ar.zip64_fields entry).2.2 ||| 0x0100000000, he,
      Or.inr ⟨by rw [← hd]; exact hf, rfl⟩, ?_, ?_, hn⟩
    · rw [ha] at hs
      rw [← open_no_wrap data size ar hopen _ hlt2 hs, ← hd]; exact hs
    · rw [ha] at hs
      rw [← open_no_wrap data size ar hopen _ hlt2 hs, ← hd, ← ha]; exact hp

set_option maxRecDepth 100000 in
/-- C16 at the member `b` of `sample_abc`: its local header is at byte 36 and
its one payload byte at byte `36 + 30 + 1 + 0 = 67`. -/
theorem get_file_data_payload_start_witness :
    zip_archive.open_ {} sample_abc 264 = .ok sample_abc_archive ∧
    sample_abc_archive.get_file_data 1 = (some 67, 1) ∧
    ∃ entry off, sample_abc_archive.find_entry_by_index 1 = some entry ∧
      (off = (sample_abc_archive.zip64_fields entry).2.2 ∨
        (sig_at sample_abc ((sample_abc_archive.m_zip_base_offset +
            (sample_abc_archive.zip64_fields entry).2.2) % 2 ^ 64) 0x03 0x04 = false ∧
          off = (sample_abc_archive.zip64_fields entry).2.2 ||| 0x0100000000)) ∧
      sig_at sample_abc (sample_abc_archive.m_zip_base_offset + off) 0x03 0x04 = true ∧
      67 = sample_abc_archive.m_zip_base_offset + off + 30 +
        read_u16 sample_abc (sample_abc_archive.m_zip_base_offset + off + 4 + 22) +
        read_u16 sample_abc (sample_abc_archive.m_zip_base_offset + off + 4 + 24) ∧
      1 = (sample_abc_archive.zip64_fields entry).2.1 :=
  ⟨sample_abc_open, by decide,
    get_file_data_payload_start sample_abc 264 sample_abc_archive sample_abc_open 1 67 1
      (by decide)⟩

set_option maxRecDepth 100000 in
theorem sample_overflow_open :
    zip_archive.open_ {} sample_overflow 199 = .ok sample_overflow_archive := by decide

set_option maxRecDepth 100000 in
/-- C17: `get_file_data` returns a payload that extends past the slice. The
199-byte ZIP64 archive `sample_overflow` opens, and for its only entry, whose
ZIP64 extended information declares a compressed size of `2 ^ 64 - 1`,
`get_file_data` returns the payload start 31 with the length `2 ^ 64 - 1`:
the sum `31 + (2 ^ 64 - 1)` is not at most 199, it is 30 modulo `2 ^ 64`. -/
theorem get_file_data_past_slice :
    sample_overflow.length = 199 ∧
    zip_archive.open_ {} sample_overflow 199 = .ok sample_overflow_archive ∧
    sample_overflow_archive.get_file_data 0 = (some 31, 2 ^ 64 - 1) ∧
    ¬ (31 + (2 ^ 64 - 1) ≤ 199) ∧ (31 + (2 ^ 64 - 1)) % 2 ^ 64 = 30 ∧
    (sample_overflow_archive.get_file_info 0).raw_ptr = some 31 ∧
    (sample_overflow_archive.get_file_info 0).compressed_size = 2 ^ 64 - 1 := by
  refine ⟨by decide, sample_overflow_open, by decide, by decide, by decide, by decide, by decide⟩

/-! ## Lemmas: ZIP64 extended information -/

theorem zip64_extended_walk_record (data : List Nat) (ef efl u c l : Nat)
    (k pos d ds : Nat) (h : zip64_record data ef efl k pos = some (d, ds)) (h16 : 16 ≤ ds) :
    (zip64_extended_walk data ef efl u c l k pos).2.1 = read_u64 data d ∧
    (zip64_extended_walk data ef efl u c l k pos).2.2.1 = read_u64 data (d + 8) := by
  induction k generalizing pos with
  | zero => simp [zip64_record] at h
  | succ k ih =>
    unfold zip64_record at h
    unfold zip64_extended_walk
    split at h
    · rename_i hp
      rw [if_pos hp]
      simp only
      split at h
      · rename_i hid
        simp only [Option.some.injEq, Prod.mk.injEq] at h
        obtain ⟨hd, hds⟩ := h
        rw [hds, hd]
        have h8 : 0 + 8 ≤ ds := by omega
        have h16b : 0 + 8 + 8 ≤ ds := by omega
        simp [hid, h8, h16b]
      · rename_i hid
        have : (read_u16 data (ef + pos) == 1) = false := by simpa using hid
        rw [this]
        exact ih _ h
    · exact absurd h (by simp)

theorem dir_zip64_record_pos (data : List Nat) (entry d ds : Nat)
    (h : dir_zip64_record data entry = some (d, ds)) : dir_extra_field_length data entry > 0 := by
  unfold dir_zip64_record at h
  rcases Nat.eq_zero_or_pos (dir_extra_field_length data entry) with h0 | h0
  · rw [h0] at h; simp [zip64_record] at h
  · exact h0

/-- What `parse_zip64_extended_info` leaves in the two sizes for a record with
ZIP64 extended information of at least 16 data bytes. -/
theorem zip64_fields_record (ar : zip_archive) (entry d ds : Nat)
    (hr : dir_zip64_record ar.m_data entry = some (d, ds)) (h16 : 16 ≤ ds) (l : Nat) :
    (ar.parse_zip64_extended_info
        (some (dir_file_name entry + dir_filename_length ar.m_data entry))
        (dir_extra_field_length ar.m_data entry)
        (dir_uncompressed_size ar.m_data entry) (dir_compressed_size ar.m_data entry) l).2.1
      = read_u64 ar.m_data d ∧
    (ar.parse_zip64_extended_info
        (some (dir_file_name entry + dir_filename_length ar.m_data entry))
        (dir_extra_field_length ar.m_data entry)
        (dir_uncompressed_size ar.m_data entry) (dir_compressed_size ar.m_data entry) l).2.2.1
      = read_u64 ar.m_data (d + 8) := by
  have hpos := dir_zip64_record_pos _ _ _ _ hr
  unfold zip_archive.parse_zip64_extended_info
  simp only
  rw [if_neg (by simpa using Nat.pos_iff_ne_zero.mp hpos)]
  exact zip64_extended_walk_record _ _ _ _ _ _ _ _ _ _ hr h16

theorem get_file_info_zip64 (ar : zip_archive) (hz : ar.m_is_zip64 = true) (i entry d ds : Nat)
    (he : ar.find_entry_by_index i = some entry)
    (hr : dir_zip64_record ar.m_data entry = some (d, ds)) (h16 : 16 ≤ ds) :
    (ar.get_file_info i).uncompressed_size = read_u64 ar.m_data d ∧
    (ar.get_file_info i).compressed_size = read_u64 ar.m_data (d + 8) := by
  have hpos := dir_zip64_record_pos _ _ _ _ hr
  have hg : (ar.m_is_zip64 && decide (dir_extra_field_length ar.m_data entry > 0)) = true := by
    simp [hz, hpos]
  unfold zip_archive.get_file_info
  rw [he]
  simp only
  rw [if_pos hg]
  exact zip64_fields_record ar entry d ds hr h16 0

theorem zip64_fields_zip64 (ar : zip_archive) (hz : ar.m_is_zip64 = true) (entry d ds : Nat)
    (hr : dir_zip64_record ar.m_data entry = some (d, ds)) (h16 : 16 ≤ ds) :
    (ar.zip64_fields entry).1 = read_u64 ar.m_data d ∧
    (ar.zip64_fields entry).2.1 = read_u64 ar.m_data (d + 8) := by
  have hpos := dir_zip64_record_pos _ _ _ _ hr
  have hg : (ar.m_is_zip64 && decide (dir_extra_field_length ar.m_data entry > 0)) = true := by
    simp [hz, hpos]
  unfold zip_archive.zip64_fields
  rw [if_pos hg]
  exact zip64_fields_record ar entry d ds hr h16 _

set_option maxRecDepth 100000 in
theorem sample_big_open :
    ({} : zipfs_archive).open_ (some sample_big) 208 = (0, sample_big_fs) := by decide

set_option maxRecDepth 100000 in
/-- C18 fails on an archive without the ZIP64 end-of-central-directory record
and locator: the only entry of `sample_big_plain` has the 32-bit sizes
`0xFFFFFFFF` and a `0x0001` extra record of 16 data bytes giving 5 GiB, and
`get_file_info` and `stat` report `0xFFFFFFFF`. -/
theorem zip64_record_ignored :
    ({} : zipfs_archive).open_ (some sample_big_plain) 132 = (0, sample_big_plain_fs) ∧
    sample_big_plain_fs.archive.find_entry_by_index 0 = some 41 ∧
    dir_zip64_record sample_big_plain 41 = some (94, 16) ∧
    read_u64 sample_big_plain 94 = 5368709120 ∧
    read_u64 sample_big_plain (94 + 8) = 5368709120 ∧
    (sample_big_plain_fs.archive.get_file_info 0).uncompressed_size = 0xFFFFFFFF ∧
    (sample_big_plain_fs.archive.get_file_info 0).compressed_size = 0xFFFFFFFF ∧
    (sample_big_plain_fs.stat 0).size = 0xFFFFFFFF := by
  refine ⟨by decide, by decide, by decide, by decide, by decide, by decide, by decide, by decide⟩

/-- C18, amended: on an opened archive on which ZIP64 was detected
(`is_zip64()`), for every entry whose central-directory extra field carries a
`0x0001` record, the first such record declaring at least 16 data bytes, the
descriptor from `get_file_info` has the 64-bit uncompressed and compressed
sizes of that record, `stat(i).size` is its uncompressed size, and a non-null
result of `get_file_data` has its compressed size as length. -/
theorem zip64_sizes_precedence (data : List Nat) (size : Nat) (z : zipfs_archive)
    (hopen : ({} : zipfs_archive).open_ (some data) size = (0, z))
    (hz : z.archive.is_zip64 = true) (i entry d ds : Nat) (h31 : i < 2 ^ 31)
    (he : z.archive.find_entry_by_index i = some entry)
    (hr : dir_zip64_record data entry = some (d, ds)) (h16 : 16 ≤ ds) :
    (z.archive.get_file_info i).uncompressed_size = read_u64 data d ∧
    (z.archive.get_file_info i).compressed_size = read_u64 data (d + 8) ∧
    (z.stat (i : Int)).size = read_u64 data d ∧
    ((z.archive.get_file_data i).1 ≠ none →
      (z.archive.get_file_data i).2 = read_u64 data (d + 8)) := by
  obtain ⟨hop, hd, hsz⟩ := zipfs_open_ok data size z hopen
  rw [← hd] at hr ⊢
  have hi := get_file_info_zip64 z.archive hz i entry d ds he hr h16
  have hlt : i < z.size := by
    rw [hsz]
    exact lt_of_lt_of_le (find_entry_by_index_lt z.archive i entry hop he) hop.length_le
  refine ⟨hi.1, hi.2, ?_, ?_⟩
  · have h64 : i < 2 ^ 64 := lt_trans h31 (by norm_num)
    have hnot : ¬ (((i : Int) < 0 || decide (int_to_size_t (i : Int) ≥ z.size)) = true) := by
      rw [int_to_size_t_natCast i h64]
      simp; omega
    unfold zipfs_archive.stat
    rw [if_neg hnot, int_to_size_t_natCast i h64]
    exact hi.1
  · intro hne
    obtain ⟨p, hp⟩ := Option.ne_none_iff_exists'.mp hne
    have hpair : z.archive.get_file_data i = (some p, (z.archive.get_file_data i).2) := by
      rw [← hp]
    obtain ⟨entry', a, he', _, _, _, hn, _⟩ := get_file_data_some z.archive i p _ hpair
    rw [he] at he'
    injection he' with he'
    subst he'
    rw [hn]
    exact (zip64_fields_zip64 z.archive hz entry d ds hr h16).2

set_option maxRecDepth 100000 in
/-- C18, amended, at `sample_big`: the sizes `0xFFFFFFFF` with ZIP64 extended
information of 5 GiB give `stat(0).size = 5 GiB`. -/
theorem zip64_sizes_precedence_witness :
    ({} : zipfs_archive).open_ (some sample_big) 208 = (0, sample_big_fs) ∧
    dir_uncompressed_size sample_big 41 = 0xFFFFFFFF ∧
    dir_zip64_record sample_big 41 = some (94, 16) ∧
    (sample_big_fs.stat 0).size = 5368709120 ∧
    (sample_big_fs.archive.get_file_info 0).compressed_size = 5368709120 :=
  have h := zip64_sizes_precedence sample_big 208 sample_big_fs sample_big_open (by decide)
    0 41 94 16 (by decide) (by decide) (by decide) (by decide)
  ⟨sample_big_open, by decide, by decide,
    h.2.2.1.trans (by decide), h.2.1.trans (by decide)⟩



/-! ## Lemmas: writes through the pointer of `get` -/

section lru_store

variable {Key Value : Type} [DecidableEq Key]

theorem inv_store (c : lru_cache Key Value) (h : c.inv) (key : Key) (value : Value) :
    (c.store key value).inv := by
  unfold lru_cache.store
  cases hf : map_find c.m_map key with
  | none => exact h
  | some i =>
    obtain ⟨v, j⟩ := i
    have hmem := map_find_some_mem _ _ _ hf
    have hkm : key ∈ c.m_map.map Prod.fst := List.mem_map_of_mem Prod.fst hmem
    refine ⟨h.nodes_nodup, h.nodes_lt, ?_, h.list_nodup, ?_, ?_⟩
    · show ((map_assign c.m_map key _).map Prod.fst).Nodup
      rw [map_assign_keys _ _ _ hkm]; exact h.map_nodup
    · intro k
      show k ∈ (map_assign c.m_map key _).map Prod.fst ↔ _
      rw [map_assign_keys _ _ _ hkm]; exact h.keys_iff k
    · intro e he
      rcases map_assign_mem _ _ _ h.map_nodup e he with he | ⟨he, _⟩
      · subst he; exact h.iter (key, v, j) hmem
      · exact h.iter e he

theorem stored_store (c : lru_cache Key Value) (key : Key) (value : Value) (k : Key) :
    (c.store key value).stored k =
      if k = key then (c.stored key).map (fun _ => value) else c.stored k := by
  unfold lru_cache.store lru_cache.stored
  cases hf : map_find c.m_map key with
  | none =>
    by_cases hk : k = key
    · subst hk; simp [hf]
    · simp [hk]
  | some i =>
    by_cases hk : k = key
    · subst hk; simp [map_find_assign_self]
    · simp only [hk, if_false]
      rw [map_find_assign_ne _ _ _ _ hk]

theorem stored_of_contains (c : lru_cache Key Value) (key : Key) (h : c.contains key = true) :
    ∃ v, c.stored key = some v := by
  unfold lru_cache.contains at h
  unfold lru_cache.stored
  cases hf : map_find c.m_map key with
  | none => rw [hf] at h; simp at h
  | some i => exact ⟨i.1, rfl⟩

theorem contains_of_stored (c : lru_cache Key Value) (key : Key) (v : Value)
    (h : c.stored key = some v) : c.contains key = true := by
  unfold lru_cache.stored at h
  unfold lru_cache.contains
  cases hf : map_find c.m_map key with
  | none => rw [hf] at h; simp at h
  | some i => rfl

theorem stored_evict_sub (c : lru_cache Key Value) (k : Key) (v : Value)
    (h : c.evict.stored k = some v) : c.stored k = some v := by
  cases hl : c.list_keys.getLast? with
  | none =>
    have : c.evict = c := by
      unfold lru_cache.evict
      have : c.m_list.getLast? = none := by
        simp only [lru_cache.list_keys, List.getLast?_map] at hl
        cases hm : c.m_list.getLast? with
        | none => rfl
        | some i => rw [hm] at hl; simp at hl
      rw [this]
    rw [this] at h; exact h
  | some t =>
    rw [stored_evict c t hl k] at h
    by_cases hk : k = t
    · simp [hk] at h
    · simpa [hk] using h

theorem stored_insert_sub (c : lru_cache Key Value) (h : c.inv) (key : Key) (value : Value)
    (hf : map_find c.m_map key = none) (k : Key) (v : Value)
    (hs : (c.insert key value).stored k = some v) :
    (k = key ∧ v = value) ∨ c.stored k = some v := by
  by_cases hk : k = key
  · subst hk
    rw [(stored_insert_self c h k value hf).2.2.1] at hs
    exact Or.inl ⟨rfl, (Option.some.inj hs).symm⟩
  · rw [stored_insert_other c h key value hf k hk] at hs
    right
    split at hs
    · exact stored_evict_sub c k v hs
    · exact hs

end lru_store

/-! ## Lemmas: `data()` -/

theorem get_file_info_data_ptr (ar : zip_archive) (i : Nat) :
    (ar.get_file_info i).data_ptr = none := by
  unfold zip_archive.get_file_info
  split <;> rfl

theorem data_of_set (inflate : List Nat → Nat → inflate_result) (slice : List Nat)
    (fresh : Nat → Nat) (v : zip_file_info) (d : data_buffer) (h : v.data_ptr = some d) :
    v.data inflate slice fresh = (some d, v) := by
  unfold zip_file_info.data
  rw [h]

theorem data_some (inflate : List Nat → Nat → inflate_result) (slice : List Nat)
    (fresh : Nat → Nat) (info v : zip_file_info) (d : data_buffer) (hn : info.data_ptr = none)
    (h : info.data inflate slice fresh = (some d, v)) :
    v.data_ptr = some d ∧ v.uncompressed_size = info.uncompressed_size := by
  unfold zip_file_info.data at h
  rw [hn] at h
  simp only at h
  split at h
  · exact absurd h (by simp)
  · split at h
    · exact absurd h (by simp)
    · split at h
      · simp only [Prod.mk.injEq, Option.some.injEq] at h
        obtain ⟨h1, h2⟩ := h
        subst h2; subst h1; exact ⟨rfl, rfl⟩
      · split at h
        · split at h
          · exact absurd h (by simp)
          · simp only [Prod.mk.injEq, Option.some.injEq] at h
            obtain ⟨h1, h2⟩ := h
            subst h2; subst h1; exact ⟨rfl, rfl⟩
        · exact absurd h (by simp)

theorem data_none (inflate : List Nat → Nat → inflate_result) (slice : List Nat)
    (fresh : Nat → Nat) (info : zip_file_info)
    (h : (info.data inflate slice fresh).1 = none) :
    (info.data inflate slice fresh).2 = info := by
  unfold zip_file_info.data at h ⊢
  cases hd : info.data_ptr with
  | some d => rfl
  | none =>
    rw [hd] at h
    simp only at h ⊢
    cases hraw : info.raw_ptr with
    | none => rfl
    | some raw =>
      rw [hraw] at h
      simp only at h ⊢
      by_cases hdir : info.is_directory = true
      · rw [if_pos hdir]
      · rw [if_neg hdir] at h ⊢
        by_cases h0 : (info.compression == 0) = true
        · rw [if_pos h0] at h; exact absurd h (by simp)
        · rw [if_neg h0] at h ⊢
          by_cases h8 : (info.compression == 8) = true
          · rw [if_pos h8] at h ⊢
            by_cases hr : (inflate (bytes_at slice raw (info.compressed_size % 2 ^ 32))
                (info.uncompressed_size % 2 ^ 32)).ret ≠ Z_STREAM_END
            · rw [if_pos hr]
            · rw [if_neg hr] at h; exact absurd h (by simp)
          · rw [if_neg h8]

/-! ## Lemmas: `read` -/

/-- One call of `data()` on a cached descriptor: what `read` hands out and what
the cache holds afterwards. -/
theorem cached_data_step (inflate : List Nat → Nat → inflate_result) (slice : List Nat)
    (info v : zip_file_info) (hn : info.data_ptr = none) (hraw : info.raw_ptr ≠ none)
    (hcase : v = info ∨ ∃ fresh0 d0, info.data inflate slice fresh0 = (some d0, v))
    (fresh : Nat → Nat) :
    ∃ fresh1,
      (match (v.data inflate slice fresh).1 with
        | none => []
        | some p => p.view slice (v.data inflate slice fresh).2.uncompressed_size)
        = read_result inflate slice fresh1 info ∧
      ((v.data inflate slice fresh).2 = info ∨
        ∃ fresh0 d0, info.data inflate slice fresh0 = (some d0, (v.data inflate slice fresh).2)) := by
  obtain ⟨raw, hraw⟩ := Option.ne_none_iff_exists'.mp hraw
  rcases hcase with hv | ⟨fresh0, d0, h0⟩
  · subst hv
    refine ⟨fresh, ?_, ?_⟩
    · unfold read_result
      rw [hraw]
      simp only
      cases hd : (v.data inflate slice fresh).1 with
      | none => rfl
      | some p =>
        have hpair : v.data inflate slice fresh = (some p, (v.data inflate slice fresh).2) := by
          rw [← hd]
        rw [(data_some inflate slice fresh v _ p hn hpair).2]
    · cases hd : (v.data inflate slice fresh).1 with
      | none => exact Or.inl (data_none inflate slice fresh v hd)
      | some p =>
        right
        refine ⟨fresh, p, ?_⟩
        rw [← hd]
  · have hs := data_some inflate slice fresh0 info v d0 hn h0
    rw [data_of_set inflate slice fresh v d0 hs.1]
    refine ⟨fresh0, ?_, Or.inr ⟨fresh0, d0, h0⟩⟩
    unfold read_result
    rw [hraw, h0, hs.2]

/-- A `read` that finds its key in the cache. -/
theorem read_hit (inflate : List Nat → Nat → inflate_result) (fresh : Nat → Nat)
    (z : zipfs_archive) (k : Int) (hinv : z.cache.inv) (hok : z.cache_ok inflate)
    (hc : z.cache.contains k = true) (fuel : Nat) :
    ∃ fresh1 z1, zipfs_archive.read inflate fresh (fuel + 1) z k =
        some (read_result inflate z.archive.m_data fresh1
          (z.archive.get_file_info (int_to_size_t k)), z1) ∧
      z1.archive = z.archive ∧ z1.size = z.size ∧ z1.cache.inv ∧ z1.cache_ok inflate := by
  obtain ⟨v, hv⟩ := stored_of_contains z.cache k hc
  obtain ⟨hg1, _, _, _, hg5⟩ := (get_frame z.cache hinv k).1 hc
  obtain ⟨hraw, hcase⟩ := hok k v hv
  obtain ⟨fresh1, hres, hnew⟩ := cached_data_step inflate z.archive.m_data
    (z.archive.get_file_info (int_to_size_t k)) v (get_file_info_data_ptr _ _) hraw hcase fresh
  refine ⟨fresh1,
    { z with
      cache := lru_cache.store (z.cache.get k).2 k (v.data inflate z.archive.m_data fresh).2 },
    ?_, rfl, rfl, ?_, ?_⟩
  · unfold zipfs_archive.read
    simp only
    rw [hg1, hv]
    simp only
    rw [← hres]
    cases (v.data inflate z.archive.m_data fresh).1 <;> rfl
  · exact inv_store _ (inv_get z.cache hinv k) _ _
  · intro k' v' hs
    simp only at hs
    rw [stored_store] at hs
    by_cases hk : k' = k
    · rw [if_pos hk, hg5, hv] at hs
      simp only [Option.map_some', Option.some.injEq] at hs
      subst hs; subst hk
      exact ⟨hraw, hnew⟩
    · rw [if_neg hk, hg5] at hs
      exact hok k' v' hs

/-- What a returning `read` returns and leaves behind. -/
theorem read_spec (inflate : List Nat → Nat → inflate_result) (fresh : Nat → Nat)
    (z : zipfs_archive) (k : Int) (hinv : z.cache.inv) (hok : z.cache_ok inflate) (fuel : Nat) :
    (2 ≤ fuel → (zipfs_archive.read inflate fresh fuel z k).isSome = true) ∧
    ∀ r z1, zipfs_archive.read inflate fresh fuel z k = some (r, z1) →
      (∃ fresh1, r = read_result inflate z.archive.m_data fresh1
        (z.archive.get_file_info (int_to_size_t k))) ∧
      z1.archive = z.archive ∧ z1.size = z.size ∧ z1.cache.inv ∧ z1.cache_ok inflate := by
  cases fuel with
  | zero =>
    refine ⟨fun h => absurd h (by omega), fun r z1 h => ?_⟩
    simp [zipfs_archive.read] at h
  | succ fuel =>
    cases hc : z.cache.contains k with
    | true =>
      obtain ⟨fresh1, z2, hr, h1, h2, h3, h4⟩ := read_hit inflate fresh z k hinv hok hc fuel
      refine ⟨fun _ => by rw [hr]; rfl, fun r z1 h => ?_⟩
      rw [hr] at h
      simp only [Option.some.injEq, Prod.mk.injEq] at h
      obtain ⟨hr1, hz1⟩ := h
      subst hr1; subst hz1
      exact ⟨⟨fresh1, rfl⟩, h1, h2, h3, h4⟩
    | false =>
      obtain ⟨hg1, hg2⟩ := (get_frame z.cache hinv k).2 hc
      have hf : map_find z.cache.m_map k = none := by
        unfold lru_cache.contains at hc
        cases hm : map_find z.cache.m_map k with
        | none => rfl
        | some i => rw [hm] at hc; simp at hc
      cases hraw : (z.archive.get_file_info (int_to_size_t k)).raw_ptr with
      | none =>
        have hr : zipfs_archive.read inflate fresh (fuel + 1) z k = some ([], z) := by
          unfold zipfs_archive.read
          simp only
          rw [hg1]
          simp only
          rw [hraw, hg2]
        refine ⟨fun _ => by rw [hr]; rfl, fun r z1 h => ?_⟩
        rw [hr] at h
        simp only [Option.some.injEq, Prod.mk.injEq] at h
        obtain ⟨hr1, hz1⟩ := h
        subst hr1; subst hz1
        refine ⟨⟨fresh, ?_⟩, rfl, rfl, hinv, hok⟩
        unfold read_result
        rw [hraw]
      | some raw =>
        have hr : zipfs_archive.read inflate fresh (fuel + 1) z k =
            zipfs_archive.read inflate fresh fuel
              { z with cache := z.cache.insert k (z.archive.get_file_info (int_to_size_t k)) }
              k := by
          conv_lhs => unfold zipfs_archive.read
          simp only
          rw [hg1]
          simp only
          rw [hraw, hg2]
        have hinv2 := inv_insert z.cache hinv k (z.archive.get_file_info (int_to_size_t k))
        have hok2 : zipfs_archive.cache_ok inflate
            { z with cache := z.cache.insert k (z.archive.get_file_info (int_to_size_t k)) } := by
          intro k' v' hs
          rcases stored_insert_sub z.cache hinv k _ hf k' v' hs with ⟨hk, hv⟩ | hs'
          · subst hk; subst hv
            exact ⟨by rw [hraw]; simp, Or.inl rfl⟩
          · exact hok k' v' hs'
        have hc2 := (stored_insert_self z.cache hinv k
          (z.archive.get_file_info (int_to_size_t k)) hf).2.1
        cases fuel with
        | zero =>
          refine ⟨fun h => absurd h (by omega), fun r z1 h => ?_⟩
          rw [hr] at h
          simp [zipfs_archive.read] at h
        | succ fuel =>
          obtain ⟨fresh1, z2, hr2, h1, h2, h3, h4⟩ := read_hit inflate fresh
            { z with cache := z.cache.insert k (z.archive.get_file_info (int_to_size_t k)) }
            k hinv2 hok2 hc2 fuel
          rw [hr2] at hr
          refine ⟨fun _ => by rw [hr]; rfl, fun r z1 h => ?_⟩
          rw [hr] at h
          simp only [Option.some.injEq, Prod.mk.injEq] at h
          obtain ⟨hr1, hz1⟩ := h
          subst hr1; subst hz1
          exact ⟨⟨fresh1, rfl⟩, h1, h2, h3, h4⟩

/-- What holds of every adapter that `open`, `read` and `clear` can produce. -/
theorem reachable_spec (inflate : List Nat → Nat → inflate_result) (data : List Nat) (size : Nat)
    (z : zipfs_archive) (h : zipfs_archive.reachable inflate data size z) :
    zip_archive.open_ {} data size = .ok z.archive ∧ z.size = z.archive.size ∧
      z.cache.inv ∧ z.cache_ok inflate := by
  induction h with
  | opened z h =>
    unfold zipfs_archive.open_ at h
    simp only at h
    split at h
    · rename_i ar har
      have hz : z = { ({} : zipfs_archive) with archive := ar, size := ar.size } :=
        (congrArg Prod.snd h).symm
      subst hz
      refine ⟨har, rfl, inv_new _, ?_⟩
      intro k v hs
      simp [lru_cache.stored, lru_cache.new, map_find] at hs
    · have := congrArg Prod.fst h
      simp at this
  | read z z1 fresh fuel findex r _ h ih =>
    obtain ⟨h1, h2, h3, h4⟩ := ih
    obtain ⟨_, ha, hs, hi, ho⟩ := (read_spec inflate fresh z findex h3 h4 fuel).2 r z1 h
    exact ⟨by rw [ha]; exact h1, by rw [hs, ha]; exact h2, hi, ho⟩
  | clear z _ ih =>
    obtain ⟨h1, h2, _, _⟩ := ih
    refine ⟨h1, h2, inv_clear _, ?_⟩
    intro k v hs
    simp [zipfs_archive.clear_cache, lru_cache.stored, lru_cache.clear, map_find] at hs

/-! ## Theorems: `read` -/

theorem read_result_unsupported (inflate : List Nat → Nat → inflate_result) (slice : List Nat)
    (fresh : Nat → Nat) (info : zip_file_info) (hn : info.data_ptr = none)
    (h0 : info.compression ≠ 0) (h8 : info.compression ≠ 8) :
    info.data inflate slice fresh = (none, info) ∧ read_result inflate slice fresh info = [] := by
  have hd : info.data inflate slice fresh = (none, info) := by
    unfold zip_file_info.data
    rw [hn]
    simp only
    cases hraw : info.raw_ptr with
    | none => rfl
    | some raw =>
      simp only
      by_cases hdir : info.is_directory = true
      · rw [if_pos hdir]
      · rw [if_neg hdir, if_neg (by simpa using h0), if_neg (by simpa using h8)]
  refine ⟨hd, ?_⟩
  unfold read_result
  rw [hd]
  cases info.raw_ptr <;> rfl

/-- A `read` on an adapter that `open`, `read` and `clear` produced returns,
and what it returns is what the descriptor of the entry yields. -/
theorem read_reachable (inflate : List Nat → Nat → inflate_result) (data : List Nat) (size : Nat)
    (z : zipfs_archive) (hz : zipfs_archive.reachable inflate data size z) (fresh : Nat → Nat)
    (fuel : Nat) (hf : 2 ≤ fuel) (k : Int) :
    ∃ fresh1 z1, zipfs_archive.read inflate fresh fuel z k =
        some (read_result inflate data fresh1 (z.archive.get_file_info (int_to_size_t k)), z1) ∧
      z1.archive = z.archive ∧ zipfs_archive.reachable inflate data size z1 := by
  obtain ⟨h1, _, h3, h4⟩ := reachable_spec inflate data size z hz
  have hd := (open_opened data size _ h1).2
  obtain ⟨hsome, hspec⟩ := read_spec inflate fresh z k h3 h4 fuel
  obtain ⟨p, hp⟩ := Option.isSome_iff_exists.mp (hsome hf)
  obtain ⟨r, z1⟩ := p
  obtain ⟨⟨fresh1, hr⟩, ha, _, _, _⟩ := hspec r z1 hp
  refine ⟨fresh1, z1, ?_, ha, zipfs_archive.reachable.read z z1 fresh fuel k r hz hp⟩
  rw [hp, hr, hd]

set_option maxRecDepth 100000 in
theorem sample_short_open :
    ({} : zipfs_archive).open_ (some sample_short) 106 = (0, sample_short_fs) := by decide

set_option maxRecDepth 100000 in
theorem sample_surplus_open :
    ({} : zipfs_archive).open_ (some sample_surplus) 107 = (0, sample_surplus_fs) := by decide

set_option maxRecDepth 100000 in
theorem sample_method_open :
    ({} : zipfs_archive).open_ (some sample_method) 103 = (0, sample_method_fs) := by decide

set_option maxRecDepth 100000 in
/-- C13: `data()` yields a buffer on short output and on surplus input. The
DEFLATE entry of `sample_short` declares 3 uncompressed bytes and its stream
ends after 1 byte: the decoder reports `Z_STREAM_END` with 1 byte produced,
`data()` returns a buffer and `read(0)` returns 3 bytes, the decoded byte
followed by the 2 bytes that the allocation held. The DEFLATE entry of
`sample_surplus` declares 7 compressed bytes of which the decoder consumes 6:
`data()` returns a buffer and `read(0)` returns the decoded byte. -/
theorem data_accepts_short_output :
    ({} : zipfs_archive).open_ (some sample_short) 106 = (0, sample_short_fs) ∧
    (sample_short_fs.archive.get_file_info 0).compression = 8 ∧
    (sample_short_fs.archive.get_file_info 0).raw_ptr = some 31 ∧
    (sample_short_fs.archive.get_file_info 0).compressed_size = 6 ∧
    (sample_short_fs.archive.get_file_info 0).uncompressed_size = 3 ∧
    sample_inflate (bytes_at sample_short 31 6) 3
      = { ret := Z_STREAM_END, consumed := 6, output := [0x41] } ∧
    ((sample_short_fs.archive.get_file_info 0).data sample_inflate sample_short
      (fun _ => 0xAA)).1 = some (.owned [0x41, 0xAA, 0xAA]) ∧
    (zipfs_archive.read sample_inflate (fun _ => 0xAA) 2 sample_short_fs 0).map Prod.fst
      = some [0x41, 0xAA, 0xAA] ∧
    ({} : zipfs_archive).open_ (some sample_surplus) 107 = (0, sample_surplus_fs) ∧
    (sample_surplus_fs.archive.get_file_info 0).compression = 8 ∧
    (sample_surplus_fs.archive.get_file_info 0).raw_ptr = some 31 ∧
    (sample_surplus_fs.archive.get_file_info 0).compressed_size = 7 ∧
    (sample_surplus_fs.archive.get_file_info 0).uncompressed_size = 1 ∧
    sample_inflate (bytes_at sample_surplus 31 7) 1
      = { ret := Z_STREAM_END, consumed := 6, output := [0x41] } ∧
    ((sample_surplus_fs.archive.get_file_info 0).data sample_inflate sample_surplus
      (fun _ => 0xAA)).1 = some (.owned [0x41]) ∧
    (zipfs_archive.read sample_inflate (fun _ => 0xAA) 2 sample_surplus_fs 0).map Prod.fst
      = some [0x41] := by
  refine ⟨sample_short_open, by decide, by decide, by decide, by decide, by decide, by decide,
    by decide, sample_surplus_open, by decide, by decide, by decide, by decide, by decide,
    by decide, by decide⟩

theorem get_file_info_compression (ar : zip_archive) (i entry : Nat)
    (he : ar.find_entry_by_index i = some entry) :
    (ar.get_file_info i).compression = dir_compression ar.m_data entry := by
  unfold zip_archive.get_file_info
  rw [he]

/-- C14: for every entry of an opened archive whose compression method is
neither 0 nor 8, `get_file_info` puts the method value of the record into the
descriptor, `data()` on the descriptor returns null and leaves it as it is, and
on every adapter that `open`, `read` and `clear` produced `read(i)` returns the
empty byte sequence and leaves the archive index as it is; every later `read`
of any index returns, and returns what the descriptor of that index yields. -/
theorem read_unsupported_method (inflate : List Nat → Nat → inflate_result) (data : List Nat)
    (size : Nat) (z : zipfs_archive) (hz : zipfs_archive.reachable inflate data size z)
    (i : Nat) (h31 : i < 2 ^ 31) (entry : Nat)
    (he : z.archive.find_entry_by_index i = some entry)
    (h0 : dir_compression data entry ≠ 0) (h8 : dir_compression data entry ≠ 8)
    (fresh : Nat → Nat) (fuel : Nat) (hf : 2 ≤ fuel) :
    (z.archive.get_file_info i).compression = dir_compression data entry ∧
    (∀ fresh0, (z.archive.get_file_info i).data inflate data fresh0
      = (none, z.archive.get_file_info i)) ∧
    ∃ z1, zipfs_archive.read inflate fresh fuel z (i : Int) = some ([], z1) ∧
      z1.archive = z.archive ∧
      ∀ (j : Int) (fresh2 : Nat → Nat) (fuel2 : Nat), 2 ≤ fuel2 →
        ∃ fresh3 z2, zipfs_archive.read inflate fresh2 fuel2 z1 j =
          some (read_result inflate data fresh3 (z.archive.get_file_info (int_to_size_t j)), z2) := by
  obtain ⟨h1, _, _, _⟩ := reachable_spec inflate data size z hz
  have hd := (open_opened data size _ h1).2
  have hc := get_file_info_compression z.archive i entry he
  rw [hd] at hc
  have hn := get_file_info_data_ptr z.archive i
  have hu := fun fresh0 => read_result_unsupported inflate data fresh0 (z.archive.get_file_info i)
    hn (by rw [hc]; exact h0) (by rw [hc]; exact h8)
  obtain ⟨fresh1, z1, hr, ha, hz1⟩ := read_reachable inflate data size z hz fresh fuel hf (i : Int)
  rw [int_to_size_t_natCast i (lt_trans h31 (by norm_num)), (hu fresh1).2] at hr
  refine ⟨hc, fun fresh0 => (hu fresh0).1, z1, hr, ha, ?_⟩
  intro j fresh2 fuel2 hf2
  obtain ⟨fresh3, z2, hr2, _, _⟩ := read_reachable inflate data size z1 hz1 fresh2 fuel2 hf2 j
  rw [ha] at hr2
  exact ⟨fresh3, z2, hr2⟩

set_option maxRecDepth 100000 in
/-- C14 at the member `u` of `sample_method`, whose compression method is 12. -/
theorem read_unsupported_method_witness :
    sample_method_fs.archive.find_entry_by_index 0 = some 38 ∧
    dir_compression sample_method 38 = 12 ∧
    (sample_method_fs.archive.get_file_info 0).compression = 12 ∧
    ∃ z1, zipfs_archive.read sample_inflate (fun _ => 0) 2 sample_method_fs ((0 : Nat) : Int)
        = some ([], z1) ∧
      z1.archive = sample_method_fs.archive ∧
      ∀ (j : Int) (fresh2 : Nat → Nat) (fuel2 : Nat), 2 ≤ fuel2 →
        ∃ fresh3 z2, zipfs_archive.read sample_inflate fresh2 fuel2 z1 j =
          some (read_result sample_inflate sample_method fresh3
            (sample_method_fs.archive.get_file_info (int_to_size_t j)), z2) :=
  have h := read_unsupported_method sample_inflate sample_method 103 sample_method_fs
    (zipfs_archive.reachable.opened _ sample_method_open) 0 (by decide) 38 (by decide)
    (by decide) (by decide) (fun _ => 0) 2 (by decide)
  ⟨by decide, by decide, h.1.trans (by decide), h.2.2⟩

theorem malloc_written_full (fresh fresh1 : Nat → Nat) (size : Nat) (written : List Nat)
    (h : size ≤ written.length) :
    malloc_written fresh size written = malloc_written fresh1 size written := by
  unfold malloc_written
  apply List.map_congr_left
  intro k hk
  have : k < written.length := lt_of_lt_of_le (List.mem_range.mp hk) h
  simp [this]

/-- What `read` hands out does not depend on the content of the allocation
when the decoder fills it. -/
theorem read_result_full (inflate : List Nat → Nat → inflate_result) (slice : List Nat)
    (fresh fresh1 : Nat → Nat) (info : zip_file_info) (hn : info.data_ptr = none)
    (h : ∀ raw, info.raw_ptr = some raw → info.compression = 8 →
      info.uncompressed_size ≤ ((inflate (bytes_at slice raw (info.compressed_size % 2 ^ 32))
        (info.uncompressed_size % 2 ^ 32)).output.take (info.uncompressed_size % 2 ^ 32)).length) :
    read_result inflate slice fresh info = read_result inflate slice fresh1 info := by
  unfold read_result zip_file_info.data
  rw [hn]
  cases hraw : info.raw_ptr with
  | none => rfl
  | some raw =>
    simp only
    by_cases hdir : info.is_directory = true
    · rw [if_pos hdir, if_pos hdir]
    · rw [if_neg hdir, if_neg hdir]
      by_cases h0 : (info.compression == 0) = true
      · rw [if_pos h0, if_pos h0]
      · rw [if_neg h0, if_neg h0]
        by_cases h8 : (info.compression == 8) = true
        · rw [if_pos h8, if_pos h8]
          rw [malloc_written_full fresh fresh1 _ _ (h raw hraw (by simpa using h8))]
        · rw [if_neg h8, if_neg h8]

/-- The result of `read` is the same on all adapters that `open`, `read` and
`clear` produced, for every index whose decoder output fills the allocation
(and for every index that is not a DEFLATE entry with a payload pointer). -/
theorem read_stable (inflate : List Nat → Nat → inflate_result) (data : List Nat) (size : Nat)
    (z z0 : zipfs_archive) (hz : zipfs_archive.reachable inflate data size z)
    (hz0 : zipfs_archive.reachable inflate data size z0) (k : Int)
    (h : ∀ raw, (z.archive.get_file_info (int_to_size_t k)).raw_ptr = some raw →
      (z.archive.get_file_info (int_to_size_t k)).compression = 8 →
      (z.archive.get_file_info (int_to_size_t k)).uncompressed_size ≤
        ((inflate (bytes_at data raw
            ((z.archive.get_file_info (int_to_size_t k)).compressed_size % 2 ^ 32))
          ((z.archive.get_file_info (int_to_size_t k)).uncompressed_size % 2 ^ 32)).output.take
            ((z.archive.get_file_info (int_to_size_t k)).uncompressed_size % 2 ^ 32)).length)
    (fresh fresh0 : Nat → Nat) (fuel fuel0 : Nat) (hf : 2 ≤ fuel) (hf0 : 2 ≤ fuel0) :
    ∃ r, (zipfs_archive.read inflate fresh fuel z k).map Prod.fst = some r ∧
      (zipfs_archive.read inflate fresh0 fuel0 z0 k).map Prod.fst = some r := by
  obtain ⟨h1, _, _, _⟩ := reachable_spec inflate data size z hz
  obtain ⟨h2, _, _, _⟩ := reachable_spec inflate data size z0 hz0
  have ha : z0.archive = z.archive := by
    rw [h1] at h2
    injection h2 with h2
    exact h2.symm
  obtain ⟨f1, z1, hr1, _, _⟩ := read_reachable inflate data size z hz fresh fuel hf k
  obtain ⟨f2, z2, hr2, _, _⟩ := read_reachable inflate data size z0 hz0 fresh0 fuel0 hf0 k
  refine ⟨_, by rw [hr1]; rfl, ?_⟩
  rw [hr2, ha]
  simp only [Option.map_some', Option.some.injEq]
  exact read_result_full inflate data f2 f1 _ (get_file_info_data_ptr _ _) h

set_option maxRecDepth 100000 in
/-- C15: the bytes of `read(i)` depend on the state of the cache. The DEFLATE
entry of `sample_short` declares 3 uncompressed bytes and its stream produces
1 byte, so that 2 bytes of each `read(0)` come from the allocation as `malloc`
returned it. A `read(0)`, a second `read(0)` and, after `clear`, a third
`read(0)` return the same bytes for the first two calls and other bytes for the
third when the two allocations differ in content (here `0xAA` and `0x55`). -/
theorem read_depends_on_allocation :
    ({} : zipfs_archive).open_ (some sample_short) 106 = (0, sample_short_fs) ∧
    (zipfs_archive.read sample_inflate (fun _ => 0xAA) 2 sample_short_fs 0).map Prod.fst
      = some [0x41, 0xAA, 0xAA] ∧
    ((zipfs_archive.read sample_inflate (fun _ => 0xAA) 2 sample_short_fs 0).bind
      (fun p => zipfs_archive.read sample_inflate (fun _ => 0x55) 2 p.2 0)).map Prod.fst
      = some [0x41, 0xAA, 0xAA] ∧
    ((zipfs_archive.read sample_inflate (fun _ => 0xAA) 2 sample_short_fs 0).bind
      (fun p => zipfs_archive.read sample_inflate (fun _ => 0x55) 2 p.2.clear_cache 0)).map
        Prod.fst
      = some [0x41, 0x55, 0x55] := by
  refine ⟨sample_short_open, by decide, by decide, by decide⟩

/-! ## Theorems: the end-of-central-directory scan and `open` -/

/-- What a position returned by `find_end_of_central_dir` satisfies. -/
theorem find_end_of_central_dir_some (data : List Nat) (size p : Nat)
    (h : find_end_of_central_dir data size = some p) :
    22 ≤ size ∧
    byte_at data p = 0x50 ∧ byte_at data (p + 1) = 0x4B ∧ byte_at data (p + 2) = 0x05 ∧
    byte_at data (p + 3) = 0x06 ∧
    p ≤ size - 4 ∧ size - min size 65557 < p ∧
    ∀ q, p < q → q ≤ size - 4 → sig_at data q 0x05 0x06 = false := by
  unfold find_end_of_central_dir at h
  by_cases hs : size < 22
  · simp [hs] at h
  · simp only [hs, if_false] at h
    obtain ⟨j, _, hj, hp, hsig, hno⟩ := eocd_scan_some data size _ 0 p h
    have hb := hsig
    simp only [sig_at, Bool.and_eq_true, beq_iff_eq] at hb
    obtain ⟨⟨⟨h0, h1⟩, h2⟩, h3⟩ := hb
    refine ⟨by omega, h0, h1, h2, h3, by omega, by omega, ?_⟩
    intro q hq1 hq2
    have := hno (size - 4 - q) (Nat.zero_le _) (by omega)
    rw [show size - 4 - (size - 4 - q) = q by omega] at this
    exact this

/-- C22: for every slice, when `find_end_of_central_dir` returns a position
`p`, the slice has at least 22 bytes, the bytes at `p .. p + 3` are
`50 4B 05 06`, `p ≤ N - 4`, `p` is one of the positions the loop visits, and no
position `q` with `p < q ≤ N - 4` carries that signature. -/
theorem find_end_of_central_dir_sound (data : List Nat) (size p : Nat)
    (h : find_end_of_central_dir data size = some p) :
    22 ≤ size ∧
    byte_at data p = 0x50 ∧ byte_at data (p + 1) = 0x4B ∧ byte_at data (p + 2) = 0x05 ∧
    byte_at data (p + 3) = 0x06 ∧
    p ≤ size - 4 ∧ size - min size 65557 < p ∧
    ∀ q, p < q → q ≤ size - 4 → sig_at data q 0x05 0x06 = false :=
  find_end_of_central_dir_some data size p h

set_option maxRecDepth 100000 in
/-- C22 at `sample_abc`, whose end-of-central-directory record is at byte 242. -/
theorem find_end_of_central_dir_sound_witness :
    find_end_of_central_dir sample_abc 264 = some 242 ∧
    22 ≤ 264 ∧
    byte_at sample_abc 242 = 0x50 ∧ byte_at sample_abc (242 + 1) = 0x4B ∧
    byte_at sample_abc (242 + 2) = 0x05 ∧ byte_at sample_abc (242 + 3) = 0x06 ∧
    242 ≤ 264 - 4 ∧ 264 - min 264 65557 < 242 ∧
    ∀ q, 242 < q → q ≤ 264 - 4 → sig_at sample_abc q 0x05 0x06 = false :=
  ⟨by decide, find_end_of_central_dir_sound sample_abc 264 242 (by decide)⟩

/-- C21: `open` rejects every archive without entries. For every `n`, the
slice that consists of an end-of-central-directory record declaring 0 entries
followed by a comment of `n` zero bytes (well-formed for `n ≤ 65535`) carries
its signature at position 0, which the scan never visits:
`find_end_of_central_dir` returns not-found, `open` throws and the adapter's
`open` returns -1. -/
theorem open_rejects_empty_archive (n : Nat) :
    (sample_commented n).length = 22 + n ∧
    sig_at (sample_commented n) 0 0x05 0x06 = true ∧
    read_u16 (sample_commented n) 10 = 0 ∧
    find_end_of_central_dir (sample_commented n) (22 + n) = none ∧
    ({} : zip_archive).open_ (sample_commented n) (22 + n) =
      .error ("Not a valid ZIP file", {}) ∧
    ({} : zipfs_archive).open_ (some (sample_commented n)) (22 + n) = (-1, {}) := by
  have h1 : find_end_of_central_dir (sample_commented n) (22 + n) = none :=
    find_end_of_central_dir_none _ _ (fun q hq _ => sample_commented_sig n q (by omega))
  have hfix : ∀ k, k < 20 → byte_at (sample_commented n) k =
      byte_at ([0x50, 0x4B, 0x05, 0x06] ++ le16 0 ++ le16 0 ++ le16 0 ++ le16 0 ++ le32 0 ++
        le32 0) k := by
    intro k hk
    unfold byte_at sample_commented
    rw [List.getD_eq_getElem?_getD, List.getD_eq_getElem?_getD,
      List.getElem?_append_left (by simp [le16, le32]; omega)]
  refine ⟨sample_commented_length n, ?_, ?_, h1, ?_, ?_⟩
  · simp only [sig_at]
    rw [hfix 0 (by omega), hfix (0 + 1) (by omega), hfix (0 + 2) (by omega),
      hfix (0 + 3) (by omega)]
    decide
  · simp only [read_u16]
    rw [hfix 10 (by omega), hfix (10 + 1) (by omega)]
    decide
  · simp [zip_archive.open_, h1]
  · simp [zipfs_archive.open_, zip_archive.open_, h1]

/-! ## Lemmas: the fields after `open` -/

theorem check_zip64_support_eq (s : zip_archive) (eocd_pos : Nat) :
    s.check_zip64_support eocd_pos =
      { s with m_is_zip64 := (s.check_zip64_support eocd_pos).m_is_zip64 } := by
  unfold zip_archive.check_zip64_support
  split
  · rfl
  · dsimp only
    split
    · rfl
    · split <;> rfl

/-- The archive object that a successful `open` on a fresh object leaves. -/
theorem open_fields (data : List Nat) (size : Nat) (ar : zip_archive)
    (h : zip_archive.open_ {} data size = .ok ar) :
    ∃ eocd_pos, find_end_of_central_dir data size = some eocd_pos ∧
      ar.m_data = data ∧ ar.m_size = size ∧
      ar.m_zip_base_offset = zip_base_scan data (size - 4) 0 ∧
      ar.m_is_zip64 = (({ m_data := data, m_size := size } : zip_archive).check_zip64_support
        eocd_pos).m_is_zip64 ∧
      ar.m_num_entries = (central_dir_scan data (size - 4 + 1) 0 (size - 4)).1 ∧
      ar.m_central_dir = (if (central_dir_scan data (size - 4 + 1) 0 (size - 4)).1 > 0
        then some (central_dir_scan data (size - 4 + 1) 0 (size - 4)).2 else none) ∧
      ar.m_entry_offsets = (if (central_dir_scan data (size - 4 + 1) 0 (size - 4)).1 = 0 then []
        else std_sort (entry_offset_less data (central_dir_scan data (size - 4 + 1) 0 (size - 4)).2)
          (central_dir_walk data (central_dir_scan data (size - 4 + 1) 0 (size - 4)).2
            (central_dir_scan data (size - 4 + 1) 0 (size - 4)).1 0)) := by
  unfold zip_archive.open_ at h
  split at h
  · exact absurd h (by simp)
  · rename_i eocd_pos he
    refine ⟨eocd_pos, he, ?_⟩
    simp only at h
    split at h
    · exact absurd h (by simp)
    · injection h with h
      subst h
      rw [check_zip64_support_eq]
      generalize (({ m_data := data, m_size := size } : zip_archive).check_zip64_support
        eocd_pos).m_is_zip64 = b
      unfold zip_archive.find_zip_base_offset zip_archive.parse_central_directory
      simp only
      generalize central_dir_scan data (size - 4 + 1) 0 (size - 4) = r
      by_cases hr : r.1 > 0
      · have hr0 : ¬ r.1 = 0 := by omega
        simp [hr, hr0]
      · have hr0 : r.1 = 0 := by omega
        simp [hr0]

theorem zip_base_scan_le (data : List Nat) (k offset : Nat) :
    zip_base_scan data k offset = 0 ∨
      (offset ≤ zip_base_scan data k offset ∧ zip_base_scan data k offset < offset + k) := by
  induction k generalizing offset with
  | zero => exact Or.inl rfl
  | succ k ih =>
    unfold zip_base_scan
    split
    · right; omega
    · rcases ih (offset + 1) with h | h
      · exact Or.inl h
      · right; omega

/-- Once the end-of-central-directory signature is found, `open` on a slice
shorter than `SIZE_MAX` does not throw. -/
theorem open_ok_of_eocd (data : List Nat) (size p : Nat) (hs : size < 2 ^ 64)
    (h : find_end_of_central_dir data size = some p) :
    ∃ ar, zip_archive.open_ {} data size = .ok ar := by
  unfold zip_archive.open_
  rw [h]
  simp only
  have hne : ¬ ((zip_archive.find_zip_base_offset
      (({ m_data := data, m_size := size } : zip_archive).check_zip64_support p)).2
        == SIZE_MAX) = true := by
    rw [check_zip64_support_eq]
    unfold zip_archive.find_zip_base_offset
    simp only [beq_iff_eq]
    have := zip_base_scan_le data (size - 4) 0
    unfold SIZE_MAX
    omega
  rw [if_neg hne]
  exact ⟨_, rfl⟩

theorem read_u32_sig_at (data : List Nat) (q : Nat) (h : read_u32 data q = 0x04034b50) :
    sig_at data q 0x03 0x04 = true := by
  have h0 := byte_at_lt data q
  have h1 := byte_at_lt data (q + 1)
  have h2 := byte_at_lt data (q + 2)
  have h3 := byte_at_lt data (q + 3)
  simp only [read_u32, read_u16] at h
  rw [show q + 2 + 1 = q + 3 from rfl] at h
  have e0 : byte_at data q = 0x50 := by omega
  have e1 : byte_at data (q + 1) = 0x4B := by omega
  have e2 : byte_at data (q + 2) = 0x03 := by omega
  have e3 : byte_at data (q + 3) = 0x04 := by omega
  simp [sig_at, e0, e1, e2, e3]

theorem zip_base_scan_found (data : List Nat) (k offset q : Nat) (h1 : offset ≤ q)
    (h2 : q < offset + k) (hs : read_u32 data q = 0x04034b50)
    (hfirst : ∀ q', offset ≤ q' → q' < q → read_u32 data q' ≠ 0x04034b50) :
    zip_base_scan data k offset = q := by
  induction k generalizing offset with
  | zero => omega
  | succ k ih =>
    unfold zip_base_scan
    by_cases hq : q = offset
    · subst hq
      simp [hs]
    · have hne : ¬ (read_u32 data offset == 0x04034b50) = true := by
        simpa using hfirst offset (Nat.le_refl _) (by omega)
      rw [if_neg hne]
      exact ih (offset + 1) (by omega) (by omega) (fun q' a b => hfirst q' (by omega) b)

/-! ## Theorems: base offset, central directory and index lookup -/

/-- C23: for every slice on which `open` succeeds and that carries the
local-file-header signature `50 4B 03 04` at a position below `N - 4`, the
base offset of the archive is the smallest such position: the signature stands
at the base offset and at no position below it. So when the signature stands
at `k < N - 4` and at no position below `k` (a valid archive after `k` bytes
that do not contain the signature), the base offset is `k`. -/
theorem base_offset_first_signature (data : List Nat) (size : Nat) (ar : zip_archive)
    (hopen : zip_archive.open_ {} data size = .ok ar) (q : Nat) (hq : q < size - 4)
    (hs : sig_at data q 0x03 0x04 = true) :
    sig_at data ar.m_zip_base_offset 0x03 0x04 = true ∧ ar.m_zip_base_offset ≤ q ∧
    (∀ q', q' < ar.m_zip_base_offset → sig_at data q' 0x03 0x04 = false) ∧
    ((∀ q', q' < q → sig_at data q' 0x03 0x04 = false) → ar.m_zip_base_offset = q) := by
  have hb := (open_base data size ar hopen).2
  have hfirst : ∀ q', q' < ar.m_zip_base_offset → sig_at data q' 0x03 0x04 = false := by
    intro q' hq'
    rw [hb] at hq'
    have := zip_base_scan_first data (size - 4) 0 q' (Nat.zero_le _) hq'
    cases hsig : sig_at data q' 0x03 0x04 with
    | false => rfl
    | true => exact absurd (sig_at_read_u32 data q' hsig) this
  -- the least position with the signature
  have hex : ∃ m, m ≤ q ∧ sig_at data m 0x03 0x04 = true ∧
      ∀ q', q' < m → sig_at data q' 0x03 0x04 = false := by
    have hP : ∃ m, sig_at data m 0x03 0x04 = true := ⟨q, hs⟩
    classical
    refine ⟨Nat.find hP, Nat.find_min' hP hs, Nat.find_spec hP, ?_⟩
    intro q' hq'
    have := Nat.find_min hP hq'
    simpa using this
  obtain ⟨m, hm1, hm2, hm3⟩ := hex
  have hbm : ar.m_zip_base_offset = m := by
    rw [hb]
    exact zip_base_scan_found data (size - 4) 0 m (Nat.zero_le _) (by omega)
      (sig_at_read_u32 data m hm2)
      (fun q' _ hlt hc => by
        have := hm3 q' hlt
        rw [read_u32_sig_at data q' hc] at this
        exact absurd this (by simp))
  refine ⟨by rw [hbm]; exact hm2, by rw [hbm]; exact hm1, hfirst, ?_⟩
  intro hno
  rw [hbm]
  rcases Nat.lt_or_ge m q with hlt | hge
  · have := hno m hlt
    rw [hm2] at this
    exact absurd this (by simp)
  · omega

set_option maxRecDepth 100000 in
theorem sample_prefixed_open :
    zip_archive.open_ {} sample_prefixed 108 = .ok sample_prefixed_archive := by decide

set_option maxRecDepth 100000 in
/-- C23 at `sample_prefixed`, an archive after 5 zero bytes: the base offset
is 5. -/
theorem base_offset_first_signature_witness :
    zip_archive.open_ {} sample_prefixed 108 = .ok sample_prefixed_archive ∧
    sig_at sample_prefixed 5 0x03 0x04 = true ∧
    (∀ q', q' < 5 → sig_at sample_prefixed q' 0x03 0x04 = false) ∧
    sample_prefixed_archive.m_zip_base_offset = 5 :=
  ⟨sample_prefixed_open, by decide, by decide,
    (base_offset_first_signature sample_prefixed 108 sample_prefixed_archive sample_prefixed_open
      5 (by decide) (by decide)).2.2.2 (by decide)⟩

set_option maxRecDepth 100000 in
theorem sample_nested_open :
    zip_archive.open_ {} sample_nested 104 = .ok sample_nested_archive := by decide

set_option maxRecDepth 100000 in
/-- C25: the central directory and the entry count do not come from the
end-of-central-directory record. In `sample_nested`, a stored archive with one
member whose content is `50 4B 01 02`, the record at byte 82 declares 1 entry
and the central directory at offset 35, where the only central-directory
record stands; `open` counts 2 signatures in its backward scan and takes the
one at byte 31, inside the content of the member, as the start of the central
directory, so `size()` is 2. -/
theorem central_dir_not_from_eocd :
    find_end_of_central_dir sample_nested 104 = some 82 ∧
    read_u16 sample_nested (82 + 10) = 1 ∧
    read_u32 sample_nested (82 + 16) = 35 ∧
    sig_at sample_nested 35 0x01 0x02 = true ∧
    bytes_at sample_nested 31 4 = [0x50, 0x4B, 0x01, 0x02] ∧
    zip_archive.open_ {} sample_nested 104 = .ok sample_nested_archive ∧
    sample_nested_archive.m_zip_base_offset = 0 ∧
    sample_nested_archive.m_central_dir = some 31 ∧
    sample_nested_archive.size = 2 := by
  refine ⟨by decide, by decide, by decide, by decide, by decide, sample_nested_open, rfl, rfl,
    rfl⟩

set_option maxRecDepth 100000 in
/-- C27: lookup by index is not total below `size()`. After `open` on
`sample_nested`, `size()` is 2 and the entry-offsets vector has 1 element: the
backward scan counted 2 signatures and the forward walk stopped after 1
record. `find_entry_by_index(1)` returns null and `get_filename(1)` is empty;
the record at index 0 is not the record of the member `a`. -/
theorem index_lookup_partial :
    zip_archive.open_ {} sample_nested 104 = .ok sample_nested_archive ∧
    sample_nested_archive.size = 2 ∧
    sample_nested_archive.m_entry_offsets.length = 1 ∧
    sample_nested_archive.find_entry_by_index 1 = none ∧
    sample_nested_archive.get_filename 1 = [] ∧
    sample_nested_archive.find_entry_by_index 0 = some 35 ∧
    sample_nested_archive.get_filename 0 = [0, 0, 0, 0] ∧
    dir_entry_name sample_nested (35 + 4) = [0x61] := by
  refine ⟨sample_nested_open, rfl, rfl, by decide, by decide, by decide, by decide, by decide⟩

/-! ## Theorems: ZIP64 detection, `stat` and enumeration -/

theorem byte_at_lt_length (data : List Nat) (i : Nat) (h : byte_at data i ≠ 0) :
    i < data.length := by
  by_contra hc
  apply h
  unfold byte_at
  rw [List.getD_eq_getElem?_getD, List.getElem?_eq_none (by omega)]
  rfl

theorem check_zip64_support_iff (s : zip_archive) (hz : s.m_is_zip64 = false) (eocd_pos : Nat) :
    (s.check_zip64_support eocd_pos).m_is_zip64 = true ↔
      20 ≤ eocd_pos ∧ sig_at s.m_data (eocd_pos - 20) 0x06 0x07 = true ∧
      (read_u64 s.m_data (eocd_pos - 20 + 4 + 4) + 56) % 2 ^ 64 ≤ s.m_size ∧
      sig_at s.m_data (read_u64 s.m_data (eocd_pos - 20 + 4 + 4)) 0x06 0x06 = true ∧
      44 ≤ read_u64 s.m_data (read_u64 s.m_data (eocd_pos - 20 + 4 + 4) + 4) := by
  have hfalse : ∀ P : Prop, ¬ P → (s.m_is_zip64 = true ↔ P) := by
    intro P hP
    rw [hz]
    exact ⟨fun h => absurd h (by simp), fun h => absurd h hP⟩
  unfold zip_archive.check_zip64_support find_zip64_end_of_central_dir_locator
  by_cases h20 : eocd_pos < 20
  · rw [if_pos h20]
    exact hfalse _ (fun h => by omega)
  · rw [if_neg h20]
    by_cases hl : sig_at s.m_data (eocd_pos - 20) 0x06 0x07 = true
    · simp only
      rw [if_pos hl]
      simp only
      unfold find_zip64_end_of_central_dir
      by_cases hb : (read_u64 s.m_data (eocd_pos - 20 + 4 + 4) + 56) % 2 ^ 64 > s.m_size
      · rw [if_pos hb]
        exact hfalse _ (fun h => by omega)
      · rw [if_neg hb]
        by_cases hr : sig_at s.m_data (read_u64 s.m_data (eocd_pos - 20 + 4 + 4)) 0x06 0x06 = true
        · rw [if_pos hr]
          simp only
          by_cases h44 : read_u64 s.m_data (read_u64 s.m_data (eocd_pos - 20 + 4 + 4) + 4) ≥ 44
          · rw [if_pos h44]
            exact ⟨fun _ => ⟨by omega, hl, by omega, hr, h44⟩, fun _ => rfl⟩
          · rw [if_neg h44]
            exact hfalse _ (fun h => h44 h.2.2.2.2)
        · rw [if_neg hr]
          exact hfalse _ (fun h => hr h.2.2.2.1)
    · simp only
      rw [if_neg hl]
      exact hfalse _ (fun h => hl h.2.1)

/-- C28: for every slice (`N` bytes with `N + 56 ≤ 2 ^ 64`, which holds of
every object) on which `open` succeeds on a fresh archive object, with `eocd`
the position that `find_end_of_central_dir` returns: `is_zip64()` is true if
and only if `eocd ≥ 20`, the four bytes at `eocd - 20` are `50 4B 06 07`, the
locator's `relative_offset_of_zip64_end` `r` satisfies `r + 56 ≤ N`, the four
bytes at `r` are `50 4B 06 06`, and the `size_of_record` of that record is at
least 44. -/
theorem zip64_detection (data : List Nat) (size : Nat) (ar : zip_archive)
    (hopen : zip_archive.open_ {} data size = .ok ar) (hlen : data.length = size)
    (hsize : size + 56 ≤ 2 ^ 64) (eocd : Nat)
    (he : find_end_of_central_dir data size = some eocd) :
    ar.is_zip64 = true ↔
      20 ≤ eocd ∧ sig_at data (eocd - 20) 0x06 0x07 = true ∧
      read_u64 data (eocd - 20 + 8) + 56 ≤ size ∧
      sig_at data (read_u64 data (eocd - 20 + 8)) 0x06 0x06 = true ∧
      44 ≤ read_u64 data (read_u64 data (eocd - 20 + 8) + 4) := by
  obtain ⟨eocd1, he1, _, _, _, hz, _⟩ := open_fields data size ar hopen
  rw [he] at he1
  injection he1 with he1
  subst he1
  unfold zip_archive.is_zip64
  rw [hz, check_zip64_support_iff _ rfl]
  show 20 ≤ eocd ∧ sig_at data (eocd - 20) 0x06 0x07 = true ∧
      (read_u64 data (eocd - 20 + 4 + 4) + 56) % 2 ^ 64 ≤ size ∧
      sig_at data (read_u64 data (eocd - 20 + 4 + 4)) 0x06 0x06 = true ∧
      44 ≤ read_u64 data (read_u64 data (eocd - 20 + 4 + 4) + 4) ↔ _
  rw [show eocd - 20 + 4 + 4 = eocd - 20 + 8 by omega]
  constructor
  · rintro ⟨h1, h2, h3, h4, h5⟩
    refine ⟨h1, h2, ?_, h4, h5⟩
    have hb : byte_at data (read_u64 data (eocd - 20 + 8)) = 0x50 := by
      simp only [sig_at, Bool.and_eq_true, beq_iff_eq] at h4
      exact h4.1.1.1
    have hlt := byte_at_lt_length data _ (by rw [hb]; decide)
    rw [Nat.mod_eq_of_lt (by omega)] at h3
    exact h3
  · rintro ⟨h1, h2, h3, h4, h5⟩
    refine ⟨h1, h2, ?_, h4, h5⟩
    exact le_trans (Nat.mod_le _ _) h3

set_option maxRecDepth 100000 in
/-- C28 at `sample_big`: the record at byte 186 is preceded by a locator that
leads to the ZIP64 record at byte 110. -/
theorem zip64_detection_witness :
    zip_archive.open_ {} sample_big 208 = .ok sample_big_fs.archive ∧
    find_end_of_central_dir sample_big 208 = some 186 ∧
    read_u64 sample_big (186 - 20 + 8) = 110 ∧
    sample_big_fs.archive.is_zip64 = true ∧
    (sample_big_fs.archive.is_zip64 = true ↔
      20 ≤ 186 ∧ sig_at sample_big (186 - 20) 0x06 0x07 = true ∧
      read_u64 sample_big (186 - 20 + 8) + 56 ≤ 208 ∧
      sig_at sample_big (read_u64 sample_big (186 - 20 + 8)) 0x06 0x06 = true ∧
      44 ≤ read_u64 sample_big (read_u64 sample_big (186 - 20 + 8) + 4)) :=
  ⟨by decide, by decide, by decide, by decide,
    zip64_detection sample_big 208 sample_big_fs.archive (by decide) (by decide) (by decide)
      186 (by decide)⟩

/-- C29: on every opened archive, for every index `0 ≤ i < len` (an `int`),
`stat(i)` has the path `get_filename(i)`, the size of the descriptor's
uncompressed size and the `mtime` of the descriptor, which for the record of
the entry are its name bytes and its raw 32-bit DOS date/time field; its kind
is DIR if and only if the name ends in `/`, FILE otherwise. For every `int`
outside `[0, len)` it returns kind NONE with empty path, size 0 and mtime 0. -/
theorem stat_spec (data : List Nat) (size : Nat) (z : zipfs_archive)
    (hopen : ({} : zipfs_archive).open_ (some data) size = (0, z)) :
    (∀ i : Nat, i < z.size → i < 2 ^ 31 →
      (z.stat (i : Int)).fpath = z.archive.get_filename i ∧
      (z.stat (i : Int)).size = (z.archive.get_file_info i).uncompressed_size ∧
      (z.stat (i : Int)).mtime = (z.archive.get_file_info i).mod_time ∧
      (∀ entry, z.archive.find_entry_by_index i = some entry →
        (z.stat (i : Int)).fpath = dir_entry_name data entry ∧
        (z.stat (i : Int)).mtime = dir_dos_time data entry) ∧
      ((z.stat (i : Int)).type = DIR ↔ (z.stat (i : Int)).fpath.getLast? = some 0x2F) ∧
      ((z.stat (i : Int)).type ≠ DIR → (z.stat (i : Int)).type = FILE)) ∧
    (∀ findex : Int, -2 ^ 31 ≤ findex → findex < 2 ^ 31 →
      (findex < 0 ∨ (z.size : Int) ≤ findex) →
      z.stat findex = { fpath := [], size := 0, mtime := 0, type := NONE }) := by
  obtain ⟨_, hd, _⟩ := zipfs_open_ok data size z hopen
  constructor
  · intro i hi h31
    have h64 : int_to_size_t (i : Int) = i := int_to_size_t_natCast i (by omega)
    have hnot : ¬ (((i : Int) < 0 || decide (int_to_size_t (i : Int) ≥ z.size)) = true) := by
      rw [h64]; simp; omega
    have hs : z.stat (i : Int) =
        { fpath := (z.archive.get_file_info i).filename
          size := (z.archive.get_file_info i).uncompressed_size
          mtime := (z.archive.get_file_info i).mod_time
          type := if (z.archive.get_file_info i).is_directory then DIR else FILE } := by
      unfold zipfs_archive.stat
      rw [if_neg hnot, h64]
    rw [hs]
    refine ⟨get_file_info_filename _ _, rfl, rfl, ?_, ?_, ?_⟩
    · intro entry he
      dsimp only
      rw [get_file_info_filename, get_filename_of_some _ _ _ he, hd]
      refine ⟨rfl, ?_⟩
      unfold zip_archive.get_file_info
      rw [he, hd]
    · dsimp only
      rw [get_file_info_filename]
      cases he : z.archive.find_entry_by_index i with
      | none =>
        have h1 : z.archive.get_file_info i = {} := by
          unfold zip_archive.get_file_info; rw [he]
        rw [h1, get_filename_of_none _ _ he]
        simp [DIR, FILE]
      | some entry =>
        rw [get_file_info_is_directory _ _ _ he]
        by_cases hl : (z.archive.get_filename i).getLast? = some 0x2F
        · simp [hl]
        · simp [hl, DIR, FILE]
    · dsimp only
      intro h
      by_cases hdir : (z.archive.get_file_info i).is_directory = true
      · rw [if_pos hdir] at h; exact absurd rfl h
      · rw [if_neg hdir]
  · intro findex hlo hhi hout
    unfold zipfs_archive.stat
    rw [if_pos]
    rcases Int.lt_or_le findex 0 with hneg | hpos
    · simp [hneg]
    · have hcast : int_to_size_t findex = findex.toNat := by
        unfold int_to_size_t
        rw [Int.emod_eq_of_lt hpos (by omega)]
      have hle : z.size ≤ findex.toNat := by
        rcases hout with h | h
        · omega
        · omega
      simp [hcast, hle]

set_option maxRecDepth 100000 in
/-- C29 at `sample_abc`: `stat(0)` is the file `a/x` of 3 bytes, and `stat(3)`
and `stat(-1)` have kind NONE. -/
theorem stat_spec_witness :
    ({} : zipfs_archive).open_ (some sample_abc) 264 = (0, sample_abc_fs) ∧
    (sample_abc_fs.stat ((0 : Nat) : Int)).fpath = [0x61, 0x2F, 0x78] ∧
    (sample_abc_fs.stat ((0 : Nat) : Int)).size = 3 ∧
    (sample_abc_fs.stat ((0 : Nat) : Int)).type = FILE ∧
    sample_abc_fs.stat 3 = { fpath := [], size := 0, mtime := 0, type := NONE } ∧
    sample_abc_fs.stat (-1) = { fpath := [], size := 0, mtime := 0, type := NONE } :=
  have h := stat_spec sample_abc 264 sample_abc_fs sample_abc_fs_open
  ⟨sample_abc_fs_open,
    ((h.1 0 (by decide) (by decide)).1).trans (by decide),
    ((h.1 0 (by decide) (by decide)).2.1).trans (by decide),
    (h.1 0 (by decide) (by decide)).2.2.2.2.2 (by decide),
    h.2 3 (by decide) (by decide) (Or.inr (by decide)),
    h.2 (-1) (by decide) (by decide) (Or.inl (by decide))⟩

theorem string_find_none_not_mem (c : Nat) (l : List Nat) (h : string_find c l = none) :
    c ∉ l := by
  induction l with
  | nil => simp
  | cons a as ih =>
    simp only [string_find] at h
    by_cases ha : (a == c) = true
    · simp [ha] at h
    · simp only [ha, Bool.false_eq_true, if_false, Option.map_eq_none'] at h
      have hne : a ≠ c := by simpa using ha
      simp only [List.mem_cons, not_or]
      exact ⟨fun hc => hne hc.symm, ih h⟩

theorem string_find_some_not_mem (c : Nat) (l : List Nat) (s : Nat)
    (h : string_find c l = some s) : c ∉ l.take s := by
  induction l generalizing s with
  | nil => simp
  | cons a as ih =>
    simp only [string_find] at h
    by_cases ha : (a == c) = true
    · simp only [ha, if_true, Option.some.injEq] at h
      subst h; simp
    · simp only [ha, Bool.false_eq_true, if_false, Option.map_eq_some'] at h
      obtain ⟨t, ht, hs⟩ := h
      subst hs
      have hne : a ≠ c := by simpa using ha
      simp only [List.take_succ_cons, List.mem_cons, not_or]
      exact ⟨fun hc => hne hc.symm, ih t ht⟩

/-- Every record of the central directory that the main loop of
`for_each_entry` hands to the visitor is a direct child of `parent`. -/
theorem for_each_walk_sound (ar : zip_archive) (parent : List Nat) (stop : visited_entry → Bool)
    (start_index k i : Nat) (dir_name : List Nat) (entry : Nat)
    (h : visited_entry.real entry ∈ ar.for_each_walk parent stop start_index k i dir_name) :
    parent <+: dir_entry_name ar.m_data entry ∧ dir_entry_name ar.m_data entry ≠ parent ∧
    (dir_entry_name ar.m_data entry).drop parent.length ≠ [] ∧
    0x2F ∉ ((dir_entry_name ar.m_data entry).drop parent.length).dropLast := by
  induction k generalizing i dir_name with
  | zero => simp [zip_archive.for_each_walk] at h
  | succ k ih =>
    unfold zip_archive.for_each_walk at h
    cases he : ar.find_entry_by_index i with
    | none =>
      rw [he] at h
      exact ih _ _ h
    | some e =>
      rw [he] at h
      simp only at h
      split at h
      · split at h
        · simp at h
        · exact ih _ _ h
      · rename_i hpre
        split at h
        · exact ih _ _ h
        · rename_i hne
          have hne' : dir_entry_name ar.m_data e ≠ parent := by simpa using hne
          have htake : (dir_entry_name ar.m_data e).take parent.length = parent := by
            by_cases hp : parent = []
            · simp [hp]
            · have hp' : parent.isEmpty = false := by
                cases parent with
                | nil => exact absurd rfl hp
                | cons _ _ => rfl
              simp only [hp', Bool.not_false, Bool.true_and, Bool.or_eq_true, decide_eq_true_eq,
                bne_iff_ne, ne_eq, not_or, not_not] at hpre
              exact hpre.2
          have hrel : (if (!parent.isEmpty) = true
              then (dir_entry_name ar.m_data e).drop parent.length
              else dir_entry_name ar.m_data e) = (dir_entry_name ar.m_data e).drop parent.length := by
            by_cases hp : parent = []
            · simp [hp]
            · have hp' : parent.isEmpty = false := by
                cases parent with
                | nil => exact absurd rfl hp
                | cons _ _ => rfl
              simp [hp']
          rw [hrel] at h
          have hbegins : parent <+: dir_entry_name ar.m_data e :=
            List.prefix_iff_eq_take.mpr htake.symm
          have hnonempty : (dir_entry_name ar.m_data e).drop parent.length ≠ [] := by
            intro hc
            apply hne'
            have := List.take_append_drop parent.length (dir_entry_name ar.m_data e)
            rw [hc, htake, List.append_nil] at this
            exact this.symm
          have hreal : ∀ (rest : List visited_entry),
              visited_entry.real entry ∈
                (if stop (.real e) = true then [visited_entry.real e]
                  else visited_entry.real e :: rest) →
              entry = e ∨ visited_entry.real entry ∈ rest := by
            intro rest hm
            split at hm
            · simp only [List.mem_singleton, visited_entry.real.injEq] at hm
              exact Or.inl hm
            · simp only [List.mem_cons, visited_entry.real.injEq] at hm
              exact hm
          split at h
          · rename_i hnone
            rcases hreal _ h with hm | hm
            · subst hm
              refine ⟨hbegins, hne', hnonempty, ?_⟩
              intro hc
              exact string_find_none_not_mem _ _ hnone (List.dropLast_subset _ hc)
            · exact ih _ _ hm
          · rename_i slash_pos hsome
            split at h
            · rename_i hlast
              rcases hreal _ h with hm | hm
              · subst hm
                refine ⟨hbegins, hne', hnonempty, ?_⟩
                have hl : slash_pos = ((dir_entry_name ar.m_data entry).drop parent.length).length - 1 := by
                  simpa using hlast
                rw [List.dropLast_eq_take, ← hl]
                exact string_find_some_not_mem _ _ _ hsome
              · exact ih _ _ hm
            · split at h
              · exact ih _ _ h
              · split at h
                · simp at h
                · simp only [List.mem_cons] at h
                  rcases h with hm | hm
                  · exact absurd hm (by simp)
                  · exact ih _ _ hm

/-- C30: on every opened archive and for every `parent` (the loop runs only
for a `parent` that is empty or ends in `/`), every record of the central
directory that `for_each_entry(parent, visit)` hands to `visit` has a name
that begins with `parent` and differs from it, and the remainder after
`parent` is non-empty and contains no `/` except possibly as its last
character; so the entry named exactly `parent` is never handed over. -/
theorem for_each_entry_sound (data : List Nat) (size : Nat) (ar : zip_archive)
    (hopen : zip_archive.open_ {} data size = .ok ar) (parent : List Nat)
    (stop : visited_entry → Bool) (entry : Nat)
    (h : visited_entry.real entry ∈ ar.for_each_entry parent stop) :
    (parent = [] ∨ parent.getLast? = some 0x2F) ∧
    parent <+: dir_entry_name data entry ∧ dir_entry_name data entry ≠ parent ∧
    (dir_entry_name data entry).drop parent.length ≠ [] ∧
    0x2F ∉ ((dir_entry_name data entry).drop parent.length).dropLast := by
  have hd := (open_opened data size ar hopen).2
  unfold zip_archive.for_each_entry at h
  split at h
  · simp at h
  · rename_i hp
    have hp' : parent = [] ∨ parent.getLast? = some 0x2F := by
      simp only [Bool.not_eq_true', Bool.not_eq_false, Bool.or_eq_true, List.isEmpty_iff,
        beq_iff_eq] at hp
      exact hp
    simp only at h
    split at h
    · simp at h
    · rw [← hd]
      exact ⟨hp', for_each_walk_sound ar parent stop _ _ _ _ entry h⟩

set_option maxRecDepth 100000 in
/-- C30 at the root of `sample_abc`: the record of the member `b` is handed
over. -/
theorem for_each_entry_sound_witness :
    zip_archive.open_ {} sample_abc 264 = .ok sample_abc_archive ∧
    visited_entry.real 152 ∈ sample_abc_archive.for_each_entry [] (fun _ => false) ∧
    dir_entry_name sample_abc 152 = [0x62] ∧
    (([] : List Nat) = [] ∨ ([] : List Nat).getLast? = some 0x2F) ∧
    [] <+: dir_entry_name sample_abc 152 ∧ dir_entry_name sample_abc 152 ≠ [] ∧
    (dir_entry_name sample_abc 152).drop ([] : List Nat).length ≠ [] ∧
    0x2F ∉ ((dir_entry_name sample_abc 152).drop ([] : List Nat).length).dropLast :=
  ⟨sample_abc_open, by decide, by decide,
    for_each_entry_sound sample_abc 264 sample_abc_archive sample_abc_open [] (fun _ => false)
      152 (by decide)⟩

/-! ## Lemmas: the forward walk over the central directory -/

theorem central_dir_walk_eq_map (data : List Nat) (central_dir k pos : Nat) :
    central_dir_walk data central_dir k pos =
      (central_dir_offsets data central_dir k pos).map (fun o => o % 2 ^ 32) := by
  induction k generalizing pos with
  | zero => rfl
  | succ k ih =>
    unfold zip_archive.central_dir_walk central_dir_offsets
    by_cases hs : sig_at data (central_dir + pos) 0x01 0x02 = true
    · simp only [hs, Bool.not_true, Bool.false_eq_true, if_false, if_true, List.map_cons]
      rw [ih]
    · simp [hs]

theorem central_dir_offsets_sig (data : List Nat) (central_dir k pos o : Nat)
    (h : o ∈ central_dir_offsets data central_dir k pos) :
    sig_at data (central_dir + o) 0x01 0x02 = true := by
  induction k generalizing pos with
  | zero => simp [central_dir_offsets] at h
  | succ k ih =>
    unfold central_dir_offsets at h
    by_cases hs : sig_at data (central_dir + pos) 0x01 0x02 = true
    · rw [if_pos hs] at h
      rcases List.mem_cons.mp h with h | h
      · rw [h]; exact hs
      · exact ih _ h
    · rw [if_neg hs] at h
      simp at h

/-- The entry-offsets vector after `open` is a permutation of the offsets of
the forward walk, each reduced modulo `2 ^ 32`. -/
theorem entry_offsets_perm (data : List Nat) (size : Nat) (ar : zip_archive)
    (h : zip_archive.open_ {} data size = .ok ar) :
    ar.m_entry_offsets.Perm
      ((central_dir_offsets data (ar.m_central_dir.getD 0) ar.m_num_entries 0).map
        (fun o => o % 2 ^ 32)) := by
  obtain ⟨_, _, _, _, _, _, hn, hc, ho⟩ := open_fields data size ar h
  rw [ho]
  by_cases h0 : (central_dir_scan data (size - 4 + 1) 0 (size - 4)).1 = 0
  · rw [if_pos h0, hn, h0]
    simp [central_dir_offsets]
  · rw [if_neg h0, hn, hc, if_pos (by omega)]
    rw [← central_dir_walk_eq_map]
    exact std_sort_perm _ _

/-! ## Lemmas: the backward scan for central-directory signatures -/

theorem central_dir_scan_skip (data : List Nat) (lo n c last : Nat)
    (hno : ∀ q, lo ≤ q → q < lo + n → sig_at data q 0x01 0x02 = false)
    (hl : last - lo ≤ 4096) :
    central_dir_scan data (lo + n) c last = central_dir_scan data lo c last := by
  induction n with
  | zero => rfl
  | succ n ih =>
    rw [show lo + (n + 1) = (lo + n) + 1 from rfl]
    conv_lhs => unfold zip_archive.central_dir_scan
    rw [if_neg (by omega), hno (lo + n) (by omega) (by omega)]
    simp only [Bool.false_eq_true, if_false]
    exact ih (fun q h1 h2 => hno q h1 (by omega))

theorem central_dir_scan_hit (data : List Nat) (o c last : Nat)
    (hs : sig_at data o 0x01 0x02 = true) (hl : last - o ≤ 4096) :
    central_dir_scan data (o + 1) c last = central_dir_scan data o (c + 1) o := by
  conv_lhs => unfold zip_archive.central_dir_scan
  rw [if_neg (by omega), hs]
  simp only [if_true]

/-! ## Lemmas: the slice `sample_records` -/

theorem sample_records_length (m : Nat) : (sample_records m).length = m * 2048 + 22 := by
  simp [sample_records]

theorem sample_records_byte_lt (m i : Nat) : sample_records_byte m i < 256 := by
  unfold sample_records_byte sample_record_byte sample_eocd_byte
  split_ifs <;> omega

theorem sample_records_byte_at (m i : Nat) :
    byte_at (sample_records m) i = sample_records_byte m i := by
  unfold byte_at sample_records
  rw [List.getD_eq_getElem?_getD]
  by_cases hi : i < m * 2048 + 22
  · rw [List.getElem?_map, List.getElem?_range hi]
    simp only [Option.map_some', Option.getD_some]
    exact Nat.mod_eq_of_lt (sample_records_byte_lt m i)
  · rw [List.getElem?_eq_none (by simp; omega)]
    simp only [Option.getD_none, Nat.zero_mod]
    unfold sample_records_byte sample_eocd_byte
    rw [if_neg (by omega), if_neg (by omega), if_neg (by omega), if_neg (by omega),
      if_neg (by omega)]

theorem sample_records_record (m q t : Nat) (hq : q < m * 2048) (hm : q % 2048 = 0)
    (ht : t < 2048) : byte_at (sample_records m) (q + t) = sample_record_byte t := by
  rw [sample_records_byte_at]
  unfold sample_records_byte
  rw [if_pos (by omega), show (q + t) % 2048 = t by omega]

theorem sample_records_eocd (m t : Nat) :
    byte_at (sample_records m) (m * 2048 + t) = sample_eocd_byte t := by
  rw [sample_records_byte_at]
  unfold sample_records_byte
  rw [if_neg (by omega), show m * 2048 + t - m * 2048 = t by omega]

theorem sample_records_first (m q : Nat) (h : byte_at (sample_records m) q = 0x50) :
    (q < m * 2048 ∧ q % 2048 = 0) ∨ q = m * 2048 := by
  rw [sample_records_byte_at] at h
  unfold sample_records_byte at h
  by_cases hq : q < m * 2048
  · rw [if_pos hq] at h
    left
    refine ⟨hq, ?_⟩
    unfold sample_record_byte at h
    split_ifs at h <;> first | assumption | omega
  · rw [if_neg hq] at h
    right
    unfold sample_eocd_byte at h
    split_ifs at h <;> omega

theorem sample_records_sig_dir (m q : Nat) :
    sig_at (sample_records m) q 0x01 0x02 = true ↔ q < m * 2048 ∧ q % 2048 = 0 := by
  constructor
  · intro h
    simp only [sig_at, Bool.and_eq_true, beq_iff_eq] at h
    obtain ⟨⟨⟨h0, _⟩, h2⟩, _⟩ := h
    rcases sample_records_first m q h0 with hq | hq
    · exact hq
    · rw [hq, sample_records_eocd] at h2
      exact absurd h2 (by decide)
  · rintro ⟨hq, hm⟩
    have b0 := sample_records_record m q 0 hq hm (by omega)
    have b1 := sample_records_record m q 1 hq hm (by omega)
    have b2 := sample_records_record m q 2 hq hm (by omega)
    have b3 := sample_records_record m q 3 hq hm (by omega)
    rw [Nat.add_zero] at b0
    simp only [sig_at, b0, b1, b2, b3]
    decide

theorem sample_records_sig_eocd (m q : Nat) :
    sig_at (sample_records m) q 0x05 0x06 = true ↔ q = m * 2048 := by
  constructor
  · intro h
    simp only [sig_at, Bool.and_eq_true, beq_iff_eq] at h
    obtain ⟨⟨⟨h0, _⟩, h2⟩, _⟩ := h
    rcases sample_records_first m q h0 with hq | hq
    · rw [sample_records_record m q 2 hq.1 hq.2 (by omega)] at h2
      exact absurd h2 (by decide)
    · exact hq
  · intro hq
    subst hq
    have b0 := sample_records_eocd m 0
    rw [Nat.add_zero] at b0
    simp only [sig_at, b0, sample_records_eocd]
    decide

theorem sample_records_eocd_pos (m : Nat) (hm : 1 ≤ m) :
    find_end_of_central_dir (sample_records m) (m * 2048 + 22) = some (m * 2048) := by
  cases h : find_end_of_central_dir (sample_records m) (m * 2048 + 22) with
  | none =>
    exfalso
    unfold find_end_of_central_dir at h
    rw [if_neg (by omega)] at h
    simp only at h
    rw [eocd_scan_none_iff] at h
    have := h 18 (Nat.zero_le _) (by omega)
    rw [show m * 2048 + 22 - 4 - 18 = m * 2048 by omega,
      (sample_records_sig_eocd m (m * 2048)).mpr rfl] at this
    exact absurd this (by simp)
  | some p =>
    obtain ⟨_, h0, h1, h2, h3, _⟩ := find_end_of_central_dir_some _ _ p h
    have : sig_at (sample_records m) p 0x05 0x06 = true := by
      simp [sig_at, h0, h1, h2, h3]
    rw [(sample_records_sig_eocd m p).mp this]

theorem sample_records_scan (m j c last : Nat) (hj : j < m) (hl : last - j * 2048 ≤ 4096) :
    central_dir_scan (sample_records m) (j * 2048 + 1) c last = (c + j + 1, 0) := by
  induction j generalizing c last with
  | zero =>
    rw [central_dir_scan_hit _ _ _ _ ((sample_records_sig_dir m _).mpr ⟨by omega, by omega⟩)
      (by omega)]
    simp [zip_archive.central_dir_scan]
  | succ j ih =>
    rw [central_dir_scan_hit _ _ _ _ ((sample_records_sig_dir m _).mpr ⟨by omega, by omega⟩)
      (by omega)]
    rw [show (j + 1) * 2048 = (j * 2048 + 1) + 2047 by omega]
    rw [central_dir_scan_skip _ _ _ _ _ (fun q h1 h2 => by
      cases hs : sig_at (sample_records m) q 0x01 0x02 with
      | false => rfl
      | true =>
        have := (sample_records_sig_dir m q).mp hs
        omega) (by omega)]
    rw [ih (c + 1) _ (by omega) (by omega)]
    simp only [Prod.mk.injEq, and_true]
    omega

theorem sample_records_scan_top (m : Nat) (hm : 1 ≤ m) :
    central_dir_scan (sample_records m) (m * 2048 + 22 - 4 + 1) 0 (m * 2048 + 22 - 4) = (m, 0) := by
  obtain ⟨j, rfl⟩ : ∃ j, m = j + 1 := ⟨m - 1, by omega⟩
  rw [show (j + 1) * 2048 + 22 - 4 + 1 = (j * 2048 + 1) + 2066 by omega]
  rw [central_dir_scan_skip _ _ _ _ _ (fun q h1 h2 => by
    cases hs : sig_at (sample_records (j + 1)) q 0x01 0x02 with
    | false => rfl
    | true =>
      have := (sample_records_sig_dir (j + 1) q).mp hs
      omega) (by omega)]
  rw [sample_records_scan (j + 1) j 0 _ (by omega) (by omega)]
  simp

theorem sample_records_offsets (m k j : Nat) (h : j + k ≤ m) :
    central_dir_offsets (sample_records m) 0 k (j * 2048) =
      (List.range' j k).map (fun t => t * 2048) := by
  induction k generalizing j with
  | zero => rfl
  | succ k ih =>
    unfold central_dir_offsets
    have hq : j * 2048 < m * 2048 := by omega
    have hmod : j * 2048 % 2048 = 0 := by omega
    rw [Nat.zero_add, if_pos ((sample_records_sig_dir m _).mpr ⟨hq, hmod⟩)]
    have b28 := sample_records_record m (j * 2048) 28 hq hmod (by omega)
    have b29 := sample_records_record m (j * 2048) 29 hq hmod (by omega)
    have b30 := sample_records_record m (j * 2048) 30 hq hmod (by omega)
    have b31 := sample_records_record m (j * 2048) 31 hq hmod (by omega)
    have b32 := sample_records_record m (j * 2048) 32 hq hmod (by omega)
    have b33 := sample_records_record m (j * 2048) 33 hq hmod (by omega)
    have hfl : dir_filename_length (sample_records m) (j * 2048 + 4) = 2002 := by
      unfold dir_filename_length read_u16
      rw [show j * 2048 + 4 + 24 = j * 2048 + 28 by omega,
        show j * 2048 + 28 + 1 = j * 2048 + 29 by omega, b28, b29]
      decide
    have hel : dir_extra_field_length (sample_records m) (j * 2048 + 4) = 0 := by
      unfold dir_extra_field_length read_u16
      rw [show j * 2048 + 4 + 26 = j * 2048 + 30 by omega,
        show j * 2048 + 30 + 1 = j * 2048 + 31 by omega, b30, b31]
      decide
    have hcl : dir_comment_length (sample_records m) (j * 2048 + 4) = 0 := by
      unfold dir_comment_length read_u16
      rw [show j * 2048 + 4 + 28 = j * 2048 + 32 by omega,
        show j * 2048 + 32 + 1 = j * 2048 + 33 by omega, b32, b33]
      decide
    rw [hfl, hel, hcl, show j * 2048 + (46 + 2002 + 0 + 0) = (j + 1) * 2048 by omega,
      ih (j + 1) (by omega)]
    rfl

/-- What `open` leaves on `sample_records m`. -/
theorem sample_records_open (m : Nat) (hm : 1 ≤ m) (hs : m * 2048 + 22 < 2 ^ 64) :
    ∃ ar, zip_archive.open_ {} (sample_records m) (m * 2048 + 22) = .ok ar ∧
      ar.m_central_dir = some 0 ∧ ar.m_num_entries = m ∧
      central_dir_offsets (sample_records m) 0 m 0 = (List.range' 0 m).map (fun t => t * 2048) ∧
      ∀ o ∈ ar.m_entry_offsets, o < 2 ^ 32 := by
  obtain ⟨ar, har⟩ := open_ok_of_eocd (sample_records m) (m * 2048 + 22) (m * 2048) hs
    (sample_records_eocd_pos m hm)
  obtain ⟨_, _, _, _, _, _, hn, hc, _⟩ := open_fields _ _ ar har
  rw [sample_records_scan_top m hm] at hn hc
  refine ⟨ar, har, ?_, hn, ?_, ?_⟩
  · rw [hc, if_pos (by simpa using hm)]
  · have := sample_records_offsets m m 0 (by omega)
    rw [Nat.zero_mul] at this
    exact this
  · intro o ho
    have hp := (entry_offsets_perm _ _ ar har).mem_iff.mp ho
    obtain ⟨x, _, hx⟩ := List.mem_map.mp hp
    rw [← hx]
    exact Nat.mod_lt _ (by norm_num)

/-- C26: the entry-offsets vector is not the forward walk when the central
directory is larger than `2 ^ 32` bytes. `sample_huge` holds `2 ^ 21 + 1`
central-directory records of 2048 bytes and an end-of-central-directory
record; `open` succeeds on it with the central directory at byte 0 and
`2 ^ 21 + 1` entries. The forward walk reaches the record at offset `2 ^ 32`,
and every element of the entry-offsets vector is below `2 ^ 32`, so the vector
is not a permutation of the walk. -/
theorem entry_offsets_truncated :
    sample_huge.length = 4294969366 ∧
    ∃ ar, zip_archive.open_ {} sample_huge 4294969366 = .ok ar ∧
      ar.m_central_dir = some 0 ∧ ar.m_num_entries = 2097153 ∧
      4294967296 ∈ central_dir_offsets sample_huge 0 2097153 0 ∧
      sig_at sample_huge 4294967296 0x01 0x02 = true ∧
      (∀ o ∈ ar.m_entry_offsets, o < 4294967296) ∧
      ¬ ar.m_entry_offsets.Perm (central_dir_offsets sample_huge 0 2097153 0) := by
  obtain ⟨ar, har, hc, hn, hoff, hlt⟩ := sample_records_open 2097153 (by norm_num) (by norm_num)
  have hmem : 4294967296 ∈ central_dir_offsets sample_huge 0 2097153 0 := by
    show 4294967296 ∈ central_dir_offsets (sample_records 2097153) 0 2097153 0
    rw [hoff]
    exact List.mem_map.mpr ⟨2097152, List.mem_range'_1.mpr ⟨Nat.zero_le _, by norm_num⟩,
      by norm_num⟩
  refine ⟨sample_records_length 2097153, ar, har, hc, hn, hmem, ?_, hlt, ?_⟩
  · exact (sample_records_sig_dir 2097153 4294967296).mpr ⟨by norm_num, by norm_num⟩
  · intro hperm
    have := hlt _ (hperm.mem_iff.mpr hmem)
    omega

/-! ## Theorems: `insert` of a present key, ZIP64 extended information, local headers -/

section lru_present

variable {Key Value : Type} [DecidableEq Key]

/-- C35: `insert(k, v)` for a key `k` that is present leaves the cache as it
is: the whole object is unchanged, so the value stored for `k` is not replaced,
the recency list keeps its order, and no key is evicted, whatever the size. -/
theorem lru_insert_present (c : lru_cache Key Value) (k : Key) (v : Value)
    (h : c.contains k = true) :
    c.insert k v = c ∧ (c.insert k v).stored k = c.stored k ∧
    (c.insert k v).list_keys = c.list_keys ∧ (c.insert k v).map_keys = c.map_keys ∧
    (c.insert k v).size = c.size := by
  have he : c.insert k v = c := by
    unfold lru_cache.contains at h
    unfold lru_cache.insert
    cases hf : map_find c.m_map k with
    | none => rw [hf] at h; simp at h
    | some x => rfl
  rw [he]
  exact ⟨rfl, rfl, rfl, rfl, rfl⟩

end lru_present

/-- C35 on a full cache of capacity 2 that holds the keys 1 and 2: `insert(1, 99)`
changes nothing, the value of key 1 stays 10 and key 1 stays at the tail. -/
theorem lru_insert_present_witness :
    ((lru_cache.new 2 : lru_cache Int Nat).run [.insert 1 10, .insert 2 20]).contains 1 = true ∧
    ((lru_cache.new 2 : lru_cache Int Nat).run [.insert 1 10, .insert 2 20]).size = 2 ∧
    (((lru_cache.new 2 : lru_cache Int Nat).run [.insert 1 10, .insert 2 20]).insert 1 99).stored 1
      = some 10 ∧
    (((lru_cache.new 2 : lru_cache Int Nat).run [.insert 1 10, .insert 2 20]).insert 1 99).list_keys
      = [2, 1] ∧
    ((lru_cache.new 2 : lru_cache Int Nat).run [.insert 1 10, .insert 2 20]).insert 1 99 =
      (lru_cache.new 2 : lru_cache Int Nat).run [.insert 1 10, .insert 2 20] :=
  have h := lru_insert_present
    ((lru_cache.new 2 : lru_cache Int Nat).run [.insert 1 10, .insert 2 20]) 1 99 (by decide)
  ⟨by decide, by decide, h.2.1.trans (by decide), h.2.2.1.trans (by decide), h.1⟩

theorem zip64_extended_walk_eq (data : List Nat) (ef efl u c l : Nat) (k pos : Nat) :
    zip64_extended_walk data ef efl u c l k pos =
      match zip64_record data ef efl k pos with
      | none => (false, u, c, l)
      | some (d, ds) =>
        (true, if 0 < min 3 (ds / 8) then read_u64 data d else u,
          if 1 < min 3 (ds / 8) then read_u64 data (d + 8) else c,
          if 2 < min 3 (ds / 8) then read_u64 data (d + 16) else l) := by
  induction k generalizing pos with
  | zero => rfl
  | succ k ih =>
    unfold zip64_extended_walk zip64_record
    by_cases hp : pos + 4 ≤ efl
    · rw [if_pos hp, if_pos hp]
      by_cases hid : read_u16 data (ef + pos) = 0x0001
      · have hb : (read_u16 data (ef + pos) == 0x0001) = true := by simpa using hid
        rw [if_pos hid]
        simp only [hb, if_true]
        generalize read_u16 data (ef + pos + 2) = ds
        by_cases h8 : 0 + 8 ≤ ds
        · by_cases h16 : 0 + 8 + 8 ≤ ds
          · by_cases h24 : 0 + 8 + 8 + 8 ≤ ds
            · have a0 : 0 < min 3 (ds / 8) := by omega
              have a1 : 1 < min 3 (ds / 8) := by omega
              have a2 : 2 < min 3 (ds / 8) := by omega
              simp [h8, h16, h24, a0, a1, a2]
            · have a0 : 0 < min 3 (ds / 8) := by omega
              have a1 : 1 < min 3 (ds / 8) := by omega
              have a2 : ¬ 2 < min 3 (ds / 8) := by omega
              simp [h8, h16, h24, a0, a1, a2]
          · have a0 : 0 < min 3 (ds / 8) := by omega
            have a1 : ¬ 1 < min 3 (ds / 8) := by omega
            have a2 : ¬ 2 < min 3 (ds / 8) := by omega
            simp [h8, h16, a0, a1, a2]
        · have a0 : ¬ 0 < min 3 (ds / 8) := by omega
          have a1 : ¬ 1 < min 3 (ds / 8) := by omega
          have a2 : ¬ 2 < min 3 (ds / 8) := by omega
          have h8' : ¬ 8 ≤ ds := by omega
          simp [h8', a0, a1, a2]
      · have hb : (read_u16 data (ef + pos) == 0x0001) = false := by simpa using hid
        rw [if_neg hid]
        simp only [hb, Bool.false_eq_true, if_false]
        exact ih _
    · rw [if_neg hp, if_neg hp]

theorem zip64_record_fuel (data : List Nat) (ef efl : Nat) (k k1 pos : Nat) (hk : k ≤ k1)
    (h : efl < pos + 4 * k + 4) :
    zip64_record data ef efl k1 pos = zip64_record data ef efl k pos := by
  induction k generalizing k1 pos with
  | zero =>
    cases k1 with
    | zero => rfl
    | succ k1 =>
      unfold zip64_record
      rw [if_neg (by omega)]
  | succ k ih =>
    cases k1 with
    | zero => omega
    | succ k1 =>
      unfold zip64_record
      by_cases hp : pos + 4 ≤ efl
      · rw [if_pos hp, if_pos hp]
        by_cases hid : read_u16 data (ef + pos) = 0x0001
        · rw [if_pos hid, if_pos hid]
        · rw [if_neg hid, if_neg hid]
          exact ih k1 _ (by omega) (by omega)
      · rw [if_neg hp, if_neg hp]

/-- C34: `parse_zip64_extended_info` on a non-null extra field returns true if
and only if the walk over the records `(header_id, data_size, data)` of the
field, which skips every record with another id by `4 + data_size` bytes,
reaches a record with `header_id` `0x0001`. On true exactly the first
`min(3, data_size / 8)` of the outputs uncompressed size, compressed size,
local-header offset hold the little-endian 64-bit values of that record, in
this order, and the others are unchanged; on false, and for a null extra
field, all three are unchanged. The record found does not depend on the bound
on the number of records. -/
theorem parse_zip64_extended_info_spec (self : zip_archive) (extra_field efl u c l : Nat) :
    (self.parse_zip64_extended_info (some extra_field) efl u c l =
      match zip64_record self.m_data extra_field efl efl 0 with
      | none => (false, u, c, l)
      | some (d, ds) =>
        (true, if 0 < min 3 (ds / 8) then read_u64 self.m_data d else u,
          if 1 < min 3 (ds / 8) then read_u64 self.m_data (d + 8) else c,
          if 2 < min 3 (ds / 8) then read_u64 self.m_data (d + 16) else l)) ∧
    (∀ k, efl ≤ k →
      zip64_record self.m_data extra_field efl k 0 =
        zip64_record self.m_data extra_field efl efl 0) ∧
    self.parse_zip64_extended_info none efl u c l = (false, u, c, l) := by
  refine ⟨?_, fun k hk => zip64_record_fuel _ _ _ efl k 0 hk (by omega), rfl⟩
  unfold zip_archive.parse_zip64_extended_info
  simp only
  by_cases h0 : efl = 0
  · subst h0
    rfl
  · rw [if_neg (by simpa using h0)]
    exact zip64_extended_walk_eq _ _ _ _ _ _ _ _

set_option maxRecDepth 100000 in
/-- C34 at the extra field of the entry of `sample_big` (20 bytes at byte 90, one
record with id `0x0001` and 16 data bytes): the two sizes are overwritten and
the offset is left as it was. -/
theorem parse_zip64_extended_info_spec_witness :
    zip64_record sample_big 90 20 20 0 = some (94, 16) ∧
    sample_big_fs.archive.parse_zip64_extended_info (some 90) 20 1 2 3 =
      (true, 5368709120, 5368709120, 3) :=
  ⟨by decide,
    ((parse_zip64_extended_info_spec sample_big_fs.archive 90 20 1 2 3).1).trans (by decide)⟩

/-- C33: `get_file_data` on an opened archive (a slice of `N` bytes with
`N + 30 ≤ 2 ^ 64`), for an index with a record whose resolved local header
offset is `off` (the central-directory value, overridden by ZIP64 extended
information under the guard of `get_file_data`). If `base + off + 30 ≤ N` and
the bytes at `base + off` are `50 4B 03 04`, the header at `base + off` is
used; if the signature at `base + off` does not match, and
`base + (off | 0x100000000) + 30 ≤ N` and the signature stands there, the
header at `base + (off | 0x100000000)` is used; in every other case the result
is the null payload with length 0. A header at `a` that is used gives the
payload at `a + 30 + filename_length + extra_field_length` with the compressed
size as length, or the null payload when the 64-bit sum of the two exceeds
`N`. -/
theorem get_file_data_resolution (data : List Nat) (size : Nat) (ar : zip_archive)
    (hopen : zip_archive.open_ {} data size = .ok ar) (hlen : data.length = size)
    (hsize : size + 30 ≤ 2 ^ 64) (index entry : Nat)
    (he : ar.find_entry_by_index index = some entry) :
    ((ar.m_zip_base_offset + (ar.zip64_fields entry).2.2 + 30 ≤ size ∧
        sig_at data (ar.m_zip_base_offset + (ar.zip64_fields entry).2.2) 0x03 0x04 = true) →
      ar.get_file_data index =
        if (ar.m_zip_base_offset + (ar.zip64_fields entry).2.2 + 30 +
            read_u16 data (ar.m_zip_base_offset + (ar.zip64_fields entry).2.2 + 4 + 22) +
            read_u16 data (ar.m_zip_base_offset + (ar.zip64_fields entry).2.2 + 4 + 24) +
            (ar.zip64_fields entry).2.1) % 2 ^ 64 > size then (none, 0)
        else (some (ar.m_zip_base_offset + (ar.zip64_fields entry).2.2 + 30 +
            read_u16 data (ar.m_zip_base_offset + (ar.zip64_fields entry).2.2 + 4 + 22) +
            read_u16 data (ar.m_zip_base_offset + (ar.zip64_fields entry).2.2 + 4 + 24)),
          (ar.zip64_fields entry).2.1)) ∧
    ((sig_at data (ar.m_zip_base_offset + (ar.zip64_fields entry).2.2) 0x03 0x04 = false ∧
        ar.m_zip_base_offset + ((ar.zip64_fields entry).2.2 ||| 0x0100000000) + 30 ≤ size ∧
        sig_at data (ar.m_zip_base_offset + ((ar.zip64_fields entry).2.2 ||| 0x0100000000))
          0x03 0x04 = true) →
      ar.get_file_data index =
        if (ar.m_zip_base_offset + ((ar.zip64_fields entry).2.2 ||| 0x0100000000) + 30 +
            read_u16 data
              (ar.m_zip_base_offset + ((ar.zip64_fields entry).2.2 ||| 0x0100000000) + 4 + 22) +
            read_u16 data
              (ar.m_zip_base_offset + ((ar.zip64_fields entry).2.2 ||| 0x0100000000) + 4 + 24) +
            (ar.zip64_fields entry).2.1) % 2 ^ 64 > size then (none, 0)
        else (some (ar.m_zip_base_offset + ((ar.zip64_fields entry).2.2 ||| 0x0100000000) + 30 +
            read_u16 data
              (ar.m_zip_base_offset + ((ar.zip64_fields entry).2.2 ||| 0x0100000000) + 4 + 22) +
            read_u16 data
              (ar.m_zip_base_offset + ((ar.zip64_fields entry).2.2 ||| 0x0100000000) + 4 + 24)),
          (ar.zip64_fields entry).2.1)) ∧
    (¬ (ar.m_zip_base_offset + (ar.zip64_fields entry).2.2 + 30 ≤ size ∧
        sig_at data (ar.m_zip_base_offset + (ar.zip64_fields entry).2.2) 0x03 0x04 = true) →
      ¬ (ar.m_zip_base_offset + ((ar.zip64_fields entry).2.2 ||| 0x0100000000) + 30 ≤ size ∧
        sig_at data (ar.m_zip_base_offset + ((ar.zip64_fields entry).2.2 ||| 0x0100000000))
          0x03 0x04 = true) →
      ar.get_file_data index = (none, 0)) := by
  have hd := (open_opened data size ar hopen).2
  have hsz := (open_base data size ar hopen).1
  have hlt := zip64_fields_lt ar entry
  have hlt2 : (ar.zip64_fields entry).2.2 ||| 0x0100000000 < 2 ^ 64 :=
    Nat.or_lt_two_pow hlt (by norm_num)
  have hle : (ar.zip64_fields entry).2.2 ≤ (ar.zip64_fields entry).2.2 ||| 0x0100000000 :=
    Nat.le_of_testBit (fun i hi => by rw [Nat.testBit_or, hi]; rfl)
  -- a signature found by the code stands at the unwrapped sum, inside the slice
  have hin : ∀ x, x < 2 ^ 64 →
      sig_at data ((ar.m_zip_base_offset + x) % 2 ^ 64) 0x03 0x04 = true →
      (ar.m_zip_base_offset + x) % 2 ^ 64 = ar.m_zip_base_offset + x ∧
        ar.m_zip_base_offset + x + 30 < 2 ^ 64 := by
    intro x hx hs
    have hnw := open_no_wrap data size ar hopen x hx (by rw [hd]; exact hs)
    refine ⟨hnw, ?_⟩
    have hb : byte_at data ((ar.m_zip_base_offset + x) % 2 ^ 64) = 0x50 := by
      simp only [sig_at, Bool.and_eq_true, beq_iff_eq] at hs
      exact hs.1.1.1
    have := byte_at_lt_length data _ (by rw [hb]; decide)
    omega
  rw [get_file_data_unfold, he, hd, hsz]
  simp only
  refine ⟨?_, ?_, ?_⟩
  · rintro ⟨hb, hs⟩
    have hm : (ar.m_zip_base_offset + (ar.zip64_fields entry).2.2) % 2 ^ 64 =
        ar.m_zip_base_offset + (ar.zip64_fields entry).2.2 := Nat.mod_eq_of_lt (by omega)
    rw [hm, Nat.mod_eq_of_lt (by omega), if_neg (by omega), hs]
    rfl
  · rintro ⟨hs1, hb, hs⟩
    have hm : (ar.m_zip_base_offset + (ar.zip64_fields entry).2.2) % 2 ^ 64 =
        ar.m_zip_base_offset + (ar.zip64_fields entry).2.2 := Nat.mod_eq_of_lt (by omega)
    have hm2 : (ar.m_zip_base_offset + ((ar.zip64_fields entry).2.2 ||| 0x0100000000)) % 2 ^ 64 =
        ar.m_zip_base_offset + ((ar.zip64_fields entry).2.2 ||| 0x0100000000) :=
      Nat.mod_eq_of_lt (by omega)
    rw [hm, hm2, Nat.mod_eq_of_lt (by omega), Nat.mod_eq_of_lt (by omega), if_neg (by omega),
      hs1, hs]
    simp only [Bool.not_false, if_true, Bool.not_true, Bool.false_eq_true, if_false]
    rw [if_neg (by omega)]
  · intro h1 h2
    by_cases hc1 : ((ar.m_zip_base_offset + (ar.zip64_fields entry).2.2) % 2 ^ 64 + 30) % 2 ^ 64
        > size
    · rw [if_pos hc1]
    · rw [if_neg hc1]
      cases hs1 : sig_at data ((ar.m_zip_base_offset + (ar.zip64_fields entry).2.2) % 2 ^ 64)
          0x03 0x04 with
      | true =>
        exfalso
        obtain ⟨hm, hb⟩ := hin _ hlt hs1
        rw [hm] at hs1 hc1
        rw [Nat.mod_eq_of_lt hb] at hc1
        exact h1 ⟨by omega, hs1⟩
      | false =>
        simp only [Bool.not_false, if_true]
        by_cases hc2 : ((ar.m_zip_base_offset +
            ((ar.zip64_fields entry).2.2 ||| 0x0100000000)) % 2 ^ 64 + 30) % 2 ^ 64 > size
        · rw [if_pos hc2]
        · rw [if_neg hc2]
          cases hs2 : sig_at data ((ar.m_zip_base_offset +
              ((ar.zip64_fields entry).2.2 ||| 0x0100000000)) % 2 ^ 64) 0x03 0x04 with
          | true =>
            exfalso
            obtain ⟨hm, hb⟩ := hin _ hlt2 hs2
            rw [hm] at hs2 hc2
            rw [Nat.mod_eq_of_lt hb] at hc2
            exact h2 ⟨by omega, hs2⟩
          | false => rfl

set_option maxRecDepth 100000 in
/-- C33 at the member `b` of `sample_abc`: the header at `base + off = 36` is
in bounds and carries the signature, and the payload is the byte at 67. -/
theorem get_file_data_resolution_witness :
    zip_archive.open_ {} sample_abc 264 = .ok sample_abc_archive ∧
    sample_abc_archive.find_entry_by_index 1 = some 152 ∧
    sample_abc_archive.m_zip_base_offset + (sample_abc_archive.zip64_fields 152).2.2 = 36 ∧
    sig_at sample_abc 36 0x03 0x04 = true ∧
    sample_abc_archive.get_file_data 1 = (some 67, 1) :=
  ⟨sample_abc_open, by decide, by decide, by decide,
    ((get_file_data_resolution sample_abc 264 sample_abc_archive sample_abc_open (by decide)
      (by decide) 1 152 (by decide)).1 ⟨by decide, by decide⟩).trans (by decide)⟩

/-! ## Theorems: traversal, termination of `read`, sizes and the read callback -/

set_option maxRecDepth 100000 in
theorem sample_nest_open :
    ({} : zipfs_archive).open_ (some sample_nest) 117 = (0, sample_nest_fs) := by decide

set_option maxRecDepth 100000 in
/-- C32: `each("a/")` and `each("a/b/")` emit nothing on the archive
`sample_nest`, whose only entry is `a/b/c.txt`. `each("")` emits the one
directory `a`; `locate("a/")` and `locate("a/b/")` return kind NONE, so `each`
does not enumerate; without the trailing `/`, `each("a")` emits the one
directory `b` and `each("a/b")` the one file `c.txt`. -/
theorem each_implicit_directory :
    ({} : zipfs_archive).open_ (some sample_nest) 117 = (0, sample_nest_fs) ∧
    sample_nest_fs.archive.get_filename 0 = [0x61, 0x2F, 0x62, 0x2F, 0x63, 0x2E, 0x74, 0x78, 0x74] ∧
    sample_nest_fs.each [] = [{ fpath := [0x61], size := 0, mtime := 0, type := DIR }] ∧
    sample_nest_fs.locate [0x61, 0x2F] = { type := NONE, index := 0 } ∧
    sample_nest_fs.each [0x61, 0x2F] = [] ∧
    sample_nest_fs.locate [0x61, 0x2F, 0x62, 0x2F] = { type := NONE, index := 0 } ∧
    sample_nest_fs.each [0x61, 0x2F, 0x62, 0x2F] = [] ∧
    sample_nest_fs.each [0x61] = [{ fpath := [0x62], size := 0, mtime := 0, type := DIR }] ∧
    sample_nest_fs.each [0x61, 0x2F, 0x62] =
      [{ fpath := [0x63, 0x2E, 0x74, 0x78, 0x74], size := 1, mtime := 0, type := FILE }] := by
  refine ⟨sample_nest_open, by decide, by decide, by decide, by decide, by decide, by decide,
    by decide, by decide⟩

theorem read_hit_some (inflate : List Nat → Nat → inflate_result) (fresh : Nat → Nat)
    (z : zipfs_archive) (k : Int) (hinv : z.cache.inv) (hc : z.cache.contains k = true)
    (fuel : Nat) : (zipfs_archive.read inflate fresh (fuel + 1) z k).isSome = true := by
  obtain ⟨_, hg2, _⟩ := (get_frame z.cache hinv k).1 hc
  unfold zipfs_archive.read
  simp only
  cases hg : (z.cache.get k).1 with
  | none => exact absurd hg hg2
  | some v =>
    simp only
    cases (v.data inflate z.archive.m_data fresh).1 <;> rfl

/-- C36: `read` returns after at most one call of itself. For every adapter
whose cache satisfies the representation invariant and has capacity at least
1, and every index: a call that finds the key in the cache returns without
calling `read`; a call that misses returns the empty view at once when the
descriptor has no payload pointer, and otherwise inserts the descriptor (an
eviction inside `insert` finds a non-empty list), after which the key is in
the cache, and calls `read` once, and that call returns without calling
`read`. So a depth of 2 always suffices. -/
theorem read_terminates (inflate : List Nat → Nat → inflate_result) (fresh : Nat → Nat)
    (z : zipfs_archive) (hinv : z.cache.inv) (hcap : 1 ≤ z.cache.capacity) (k : Int) :
    (z.cache.contains k = true →
      (zipfs_archive.read inflate fresh 1 z k).isSome = true) ∧
    (z.cache.contains k = false →
      (z.archive.get_file_info (int_to_size_t k)).raw_ptr = none →
      zipfs_archive.read inflate fresh 1 z k = some ([], z)) ∧
    (z.cache.contains k = false →
      (z.archive.get_file_info (int_to_size_t k)).raw_ptr ≠ none →
      (z.cache.size ≥ z.cache.m_capacity → z.cache.m_list ≠ []) ∧
      (z.cache.insert k (z.archive.get_file_info (int_to_size_t k))).contains k = true ∧
      (∀ fuel, zipfs_archive.read inflate fresh (fuel + 1) z k =
        zipfs_archive.read inflate fresh fuel
          { z with cache := z.cache.insert k (z.archive.get_file_info (int_to_size_t k)) } k) ∧
      (zipfs_archive.read inflate fresh 1
        { z with cache := z.cache.insert k (z.archive.get_file_info (int_to_size_t k)) }
        k).isSome = true) ∧
    (zipfs_archive.read inflate fresh 2 z k).isSome = true := by
  have hmiss : z.cache.contains k = false →
      (z.cache.get k).1 = none ∧ (z.cache.get k).2 = z.cache ∧
        map_find z.cache.m_map k = none := by
    intro hc
    obtain ⟨hg1, hg2⟩ := (get_frame z.cache hinv k).2 hc
    refine ⟨hg1, hg2, ?_⟩
    unfold lru_cache.contains at hc
    cases hm : map_find z.cache.m_map k with
    | none => rfl
    | some i => rw [hm] at hc; simp at hc
  have h1 : z.cache.contains k = false →
      (z.archive.get_file_info (int_to_size_t k)).raw_ptr = none →
      ∀ fuel, zipfs_archive.read inflate fresh (fuel + 1) z k = some ([], z) := by
    intro hc hraw fuel
    obtain ⟨hg1, hg2, _⟩ := hmiss hc
    unfold zipfs_archive.read
    simp only
    rw [hg1]
    simp only
    rw [hraw, hg2]
  have h2 : z.cache.contains k = false →
      (z.archive.get_file_info (int_to_size_t k)).raw_ptr ≠ none →
      ∀ fuel, zipfs_archive.read inflate fresh (fuel + 1) z k =
        zipfs_archive.read inflate fresh fuel
          { z with cache := z.cache.insert k (z.archive.get_file_info (int_to_size_t k)) } k := by
    intro hc hraw fuel
    obtain ⟨hg1, hg2, _⟩ := hmiss hc
    obtain ⟨raw, hraw⟩ := Option.ne_none_iff_exists'.mp hraw
    conv_lhs => unfold zipfs_archive.read
    simp only
    rw [hg1]
    simp only
    rw [hraw, hg2]
  have h3 : z.cache.contains k = false →
      (z.cache.insert k (z.archive.get_file_info (int_to_size_t k))).contains k = true :=
    fun hc => (stored_insert_self z.cache hinv k _ (hmiss hc).2.2).2.1
  refine ⟨fun hc => read_hit_some inflate fresh z k hinv hc 0, fun hc hraw => h1 hc hraw 0,
    fun hc hraw => ⟨?_, h3 hc, h2 hc hraw, ?_⟩, ?_⟩
  · intro hs hnil
    have hl := inv_length z.cache hinv
    unfold lru_cache.size at hs
    unfold lru_cache.capacity at hcap
    rw [hnil] at hl
    simp only [List.length_nil] at hl
    omega
  · exact read_hit_some inflate fresh _ k (inv_insert z.cache hinv k _) (h3 hc) 0
  · cases hc : z.cache.contains k with
    | true => exact read_hit_some inflate fresh z k hinv hc 1
    | false =>
      cases hraw : (z.archive.get_file_info (int_to_size_t k)).raw_ptr with
      | none => rw [h1 hc hraw 1]; rfl
      | some raw =>
        rw [h2 hc (by rw [hraw]; simp) 1]
        exact read_hit_some inflate fresh _ k (inv_insert z.cache hinv k _) (h3 hc) 0

set_option maxRecDepth 100000 in
/-- C36 at the member `b` of `sample_abc` on the freshly opened adapter: the
first call misses, and a depth of 2 suffices. -/
theorem read_terminates_witness :
    sample_abc_fs.cache.contains 1 = false ∧
    (sample_abc_fs.archive.get_file_info (int_to_size_t 1)).raw_ptr ≠ none ∧
    (zipfs_archive.read sample_inflate (fun _ => 0) 2 sample_abc_fs 1).isSome = true ∧
    (zipfs_archive.read sample_inflate (fun _ => 0) 2 sample_abc_fs 1).map Prod.fst =
      some [4] :=
  ⟨by decide, by decide,
    (read_terminates sample_inflate (fun _ => 0) sample_abc_fs (inv_new _) (by decide) 1).2.2.2,
    by decide⟩

set_option maxRecDepth 100000 in
/-- C37: the listing and `stat` disagree on the size of a ZIP64 entry. In
`sample_big` the entry `big.bin` has the 32-bit sizes `0xFFFFFFFF` and ZIP64
extended information of 5 GiB; `locate("big.bin")` is `(FILE, 0)`, `each("")`
emits the file `big.bin` with size `0xFFFFFFFF`, the raw 32-bit field of the
record, and `stat(0).size` is 5 GiB. -/
theorem each_size_differs_from_stat :
    ({} : zipfs_archive).open_ (some sample_big) 208 = (0, sample_big_fs) ∧
    sample_big_fs.archive.is_zip64 = true ∧
    sample_big_fs.locate [0x62, 0x69, 0x67, 0x2E, 0x62, 0x69, 0x6E] = { type := FILE, index := 0 } ∧
    sample_big_fs.each [] =
      [{ fpath := [0x62, 0x69, 0x67, 0x2E, 0x62, 0x69, 0x6E], size := 0xFFFFFFFF, mtime := 0,
         type := FILE }] ∧
    (sample_big_fs.stat 0).fpath = [0x62, 0x69, 0x67, 0x2E, 0x62, 0x69, 0x6E] ∧
    (sample_big_fs.stat 0).size = 5368709120 := by
  refine ⟨sample_big_open, by decide, by decide, by decide, by decide, by decide⟩

/-- For an `Offset` inside the content `zmReadFile` stays inside it. -/
theorem zmReadFile_in_bounds (s : List Nat) (BufferLength : Nat) (Offset : Nat)
    (hs : s.length < 2 ^ 64) (ho : Offset ≤ s.length) (t : Nat) (o : Int)
    (h : (zmReadFile s BufferLength (Offset : Int)).copied = some (o, t)) :
    o = Offset ∧ Offset + t ≤ s.length := by
  unfold zmReadFile at h
  split at h
  · simp at h
  · simp only [Option.some.injEq, Prod.mk.injEq] at h
    obtain ⟨h1, h2⟩ := h
    refine ⟨h1.symm, ?_⟩
    rw [int_to_size_t_natCast Offset (by omega)] at h2
    have : (s.length + 2 ^ 64 - Offset) % 2 ^ 64 = s.length - Offset := by
      rw [show s.length + 2 ^ 64 - Offset = (s.length - Offset) + 2 ^ 64 by omega,
        Nat.add_mod_right]
      exact Nat.mod_eq_of_lt (by omega)
    rw [this] at h2
    omega

/-- C38: `zmReadFile` copies past the end of the content when `Offset` exceeds
its length. For the content `1, 2, 3` (`size = 3`), `Offset = 4` and
`BufferLength = 1`, the difference `size - Offset` is `2 ^ 64 - 1` in `size_t`,
so `toread = 1`: the callback copies 1 byte from offset 4, reports 1 byte read
and returns `STATUS_SUCCESS`, and `Offset + toread = 5` exceeds 3. -/
theorem zmReadFile_past_end :
    int_to_size_t 4 = 4 ∧ (3 + 2 ^ 64 - 4) % 2 ^ 64 = 2 ^ 64 - 1 ∧
    zmReadFile [1, 2, 3] 1 4 =
      { status := STATUS_SUCCESS, ReadLength := 1, copied := some (4, 1) } ∧
    ¬ ((4 : Int) + 1 ≤ 3) := by
  refine ⟨by decide, by decide, by decide, by decide⟩

/-! ## Lemmas: the archive `sample_long` -/

theorem getD_replicate_pair (n a b c k : Nat) :
    (List.replicate n a ++ [b, c]).getD k 0 =
      if k < n then a else if k = n then b else if k = n + 1 then c else 0 := by
  rw [List.getD_eq_getElem?_getD]
  by_cases h1 : k < n
  · rw [List.getElem?_append_left (by simpa using h1), List.getElem?_replicate]
    simp [h1]
  · rw [List.getElem?_append_right (by simpa using h1)]
    simp only [List.length_replicate, h1, if_false]
    by_cases h2 : k = n
    · subst h2; simp
    · by_cases h3 : k = n + 1
      · subst h3; simp
      · have : 2 ≤ k - n := by omega
        rw [if_neg h2, if_neg h3, List.getElem?_eq_none (by simpa using this)]
        rfl

theorem sample_long_name_length : sample_long_name.length = 1025 := by
  unfold sample_long_name
  rw [List.length_append, List.length_replicate]
  rfl

theorem sample_long_name_getD (k : Nat) :
    sample_long_name.getD k 0 = sample_long_name_byte k := by
  unfold sample_long_name sample_long_name_byte
  exact getD_replicate_pair 1023 0x61 0x2F 0x78 k

theorem sample_zip_single (nm : List Nat) (h : nm.length = 1025) :
    sample_zip [(nm, [])] =
      sample_long_local ++ (nm ++ (sample_long_central ++ (nm ++ sample_long_end))) := by
  have h1 : (sample_local nm []).length = 1055 := by
    simp [sample_local, le16, le32, h]
  have h2 : (sample_central nm [] 0).length = 1071 := by
    simp [sample_central, le16, le32, h]
  unfold sample_zip
  simp only [sample_parts, List.append_nil, List.length_cons, List.length_nil, h1, h2]
  simp only [sample_local, sample_central, sample_long_local, sample_long_central,
    sample_long_end, h, List.length_nil, List.append_nil, List.append_assoc, Nat.zero_add,
    Nat.reduceAdd]

theorem sample_long_eq :
    sample_long =
      sample_long_local ++ (sample_long_name ++
        (sample_long_central ++ (sample_long_name ++ sample_long_end))) :=
  sample_zip_single sample_long_name sample_long_name_length

theorem sample_long_length : sample_long.length = 2148 := by
  rw [sample_long_eq]
  simp only [List.length_append, sample_long_name_length]
  rfl

theorem getD_append_if (l1 l2 : List Nat) (i : Nat) :
    (l1 ++ l2).getD i 0 = if i < l1.length then l1.getD i 0 else l2.getD (i - l1.length) 0 := by
  rw [List.getD_eq_getElem?_getD, List.getD_eq_getElem?_getD, List.getD_eq_getElem?_getD]
  by_cases h : i < l1.length
  · rw [if_pos h, List.getElem?_append_left h]
  · rw [if_neg h, List.getElem?_append_right (by omega)]

theorem sample_long_getD (i : Nat) : sample_long.getD i 0 = sample_long_byte i := by
  have hl : sample_long_local.length = 30 := rfl
  have hc : sample_long_central.length = 46 := rfl
  rw [sample_long_eq, getD_append_if, getD_append_if, getD_append_if, getD_append_if, hl, hc,
    sample_long_name_length, sample_long_name_getD, sample_long_name_getD]
  unfold sample_long_byte
  by_cases h1 : i < 30
  · rw [if_pos h1, if_pos h1]
  · rw [if_neg h1, if_neg h1]
    by_cases h2 : i < 1055
    · rw [if_pos (by omega), if_pos h2]
    · rw [if_neg (by omega), if_neg h2]
      by_cases h3 : i < 1101
      · rw [if_pos (by omega), if_pos h3, show i - 30 - 1025 = i - 1055 by omega]
      · rw [if_neg (by omega), if_neg h3]
        by_cases h4 : i < 2126
        · rw [if_pos (by omega), if_pos h4, show i - 30 - 1025 - 46 = i - 1101 by omega]
        · rw [if_neg (by omega), if_neg h4, show i - 30 - 1025 - 46 - 1025 = i - 2126 by omega]

theorem sample_long_name_byte_lt (j : Nat) : sample_long_name_byte j < 256 := by
  unfold sample_long_name_byte
  split_ifs <;> omega

theorem getD_lt_of_all (l : List Nat) (h : ∀ x ∈ l, x < 256) (i : Nat) : l.getD i 0 < 256 := by
  rw [List.getD_eq_getElem?_getD]
  by_cases hi : i < l.length
  · rw [List.getElem?_eq_getElem hi]
    exact h _ (List.getElem_mem hi)
  · rw [List.getElem?_eq_none (by omega)]
    decide

theorem sample_long_byte_at (i : Nat) : byte_at sample_long i = sample_long_byte i := by
  unfold byte_at
  rw [sample_long_getD]
  apply Nat.mod_eq_of_lt
  unfold sample_long_byte
  split_ifs
  · exact getD_lt_of_all _ (by decide) _
  · exact sample_long_name_byte_lt _
  · exact getD_lt_of_all _ (by decide) _
  · exact sample_long_name_byte_lt _
  · exact getD_lt_of_all _ (by decide) _

theorem sample_long_first (q : Nat) (h : byte_at sample_long q = 0x50) :
    q = 0 ∨ q = 1055 ∨ q = 2126 := by
  rw [sample_long_byte_at] at h
  unfold sample_long_byte at h
  have hn : ∀ j, sample_long_name_byte j ≠ 0x50 := by
    intro j
    unfold sample_long_name_byte
    split_ifs <;> omega
  have hL : ∀ j, j < 30 → sample_long_local.getD j 0 = 0x50 → j = 0 := by decide
  have hC : ∀ j, j < 46 → sample_long_central.getD j 0 = 0x50 → j = 0 := by decide
  have hE : ∀ j, j < 22 → sample_long_end.getD j 0 = 0x50 → j = 0 := by decide
  split_ifs at h with h1 h2 h3 h4
  · left; exact hL q h1 h
  · exact absurd h (hn _)
  · right; left
    have := hC (q - 1055) (by omega) h
    omega
  · exact absurd h (hn _)
  · right; right
    by_cases h5 : q - 2126 < 22
    · have := hE (q - 2126) h5 h
      omega
    · rw [List.getD_eq_getElem?_getD, List.getElem?_eq_none (by
        have : sample_long_end.length = 22 := rfl
        omega)] at h
      exact absurd h (by decide)

theorem sample_long_sig_dir (q : Nat) :
    sig_at sample_long q 0x01 0x02 = true ↔ q = 1055 := by
  constructor
  · intro h
    simp only [sig_at, Bool.and_eq_true, beq_iff_eq] at h
    obtain ⟨⟨⟨h0, _⟩, h2⟩, _⟩ := h
    rcases sample_long_first q h0 with hq | hq | hq
    · subst hq
      rw [sample_long_byte_at] at h2
      exact absurd h2 (by decide)
    · exact hq
    · subst hq
      rw [sample_long_byte_at] at h2
      exact absurd h2 (by decide)
  · intro hq
    subst hq
    simp only [sig_at, sample_long_byte_at]
    decide

theorem sample_long_eocd : ∃ p, find_end_of_central_dir sample_long 2148 = some p := by
  cases h : find_end_of_central_dir sample_long 2148 with
  | some p => exact ⟨p, rfl⟩
  | none =>
    exfalso
    unfold find_end_of_central_dir at h
    rw [if_neg (by omega)] at h
    simp only at h
    rw [eocd_scan_none_iff] at h
    have := h 18 (Nat.zero_le _) (by decide)
    have hs : sig_at sample_long (2148 - 4 - 18) 0x05 0x06 = true := by
      simp only [sig_at, sample_long_byte_at]
      decide
    rw [hs] at this
    exact absurd this (by simp)

theorem sample_long_scan :
    central_dir_scan sample_long (2148 - 4 + 1) 0 (2148 - 4) = (1, 1055) := by
  have hno : ∀ q, q ≠ 1055 → sig_at sample_long q 0x01 0x02 = false := by
    intro q hq
    cases hs : sig_at sample_long q 0x01 0x02 with
    | false => rfl
    | true => exact absurd ((sample_long_sig_dir q).mp hs) hq
  rw [show (2148 - 4 + 1 : Nat) = 1056 + 1089 from rfl, show (2148 - 4 : Nat) = 2144 from rfl,
    central_dir_scan_skip _ 1056 1089 0 2144 (fun q h1 _ => hno q (by omega)) (by omega),
    show (1056 : Nat) = 1055 + 1 from rfl,
    central_dir_scan_hit _ 1055 0 2144 ((sample_long_sig_dir 1055).mpr rfl) (by omega),
    show (1055 : Nat) = 0 + 1055 from rfl,
    central_dir_scan_skip _ 0 1055 (0 + 1) (0 + 1055) (fun q _ h2 => hno q (by omega)) (by omega)]
  rfl

/-- What `open` leaves on `sample_long`. -/
theorem sample_long_open :
    ∃ ar, zip_archive.open_ {} sample_long 2148 = .ok ar ∧ ar.m_data = sample_long ∧
      ar.m_num_entries = 1 ∧ ar.find_entry_by_index 0 = some 1059 := by
  obtain ⟨p, hp⟩ := sample_long_eocd
  obtain ⟨ar, har⟩ := open_ok_of_eocd sample_long 2148 p (by norm_num) hp
  obtain ⟨_, _, hd, _, _, _, hn, hc, ho⟩ := open_fields _ _ ar har
  rw [sample_long_scan] at hn hc ho
  simp only at hn hc ho
  have hw : central_dir_walk sample_long 1055 1 0 = [0] := by
    have hs : sig_at sample_long (1055 + 0) 0x01 0x02 = true := (sample_long_sig_dir 1055).mpr rfl
    simp [zip_archive.central_dir_walk, hs]
  rw [if_neg (by decide), hw] at ho
  rw [if_pos (by decide)] at hc
  refine ⟨ar, har, hd, hn, ?_⟩
  unfold zip_archive.find_entry_by_index
  rw [hc, hn, ho]
  rfl

theorem string_find_first (c : Nat) (l : List Nat) (s : Nat) (h1 : s < l.length)
    (h2 : l.getD s 0 = c) (h3 : ∀ j, j < s → l.getD j 0 ≠ c) : string_find c l = some s := by
  induction l generalizing s with
  | nil => simp at h1
  | cons a as ih =>
    unfold string_find
    cases s with
    | zero =>
      have : a = c := by simpa using h2
      simp [this]
    | succ s =>
      have hne : ¬ (a == c) = true := by
        have := h3 0 (by omega)
        simpa using this
      rw [if_neg hne]
      have := ih s (by simpa using h1) (by simpa using h2)
        (fun j hj => by
          have := h3 (j + 1) (by omega)
          simpa using this)
      rw [this]
      rfl

theorem bytes_at_getD (data : List Nat) (p n j : Nat) (hj : j < n) :
    (bytes_at data p n).getD j 0 = byte_at data (p + j) := by
  unfold bytes_at
  rw [List.getD_eq_getElem?_getD, List.getElem?_map, List.getElem?_range hj]
  rfl

theorem sample_long_entry_name :
    (dir_entry_name sample_long 1059).length = 1025 ∧
    (∀ j, j < 1025 → (dir_entry_name sample_long 1059).getD j 0 = sample_long_name_byte j) ∧
    string_find 0x2F (dir_entry_name sample_long 1059) = some 1023 := by
  have hfl : dir_filename_length sample_long 1059 = 1025 := by
    simp only [dir_filename_length, read_u16, sample_long_byte_at]
    decide
  have hlen : (dir_entry_name sample_long 1059).length = 1025 := by
    rw [dir_entry_name_length, hfl]
  have hget : ∀ j, j < 1025 →
      (dir_entry_name sample_long 1059).getD j 0 = sample_long_name_byte j := by
    intro j hj
    unfold dir_entry_name
    rw [hfl, bytes_at_getD _ _ _ _ hj, sample_long_byte_at]
    unfold dir_file_name sample_long_byte
    rw [if_neg (by omega), if_neg (by omega), if_neg (by omega), if_pos (by omega),
      show 1059 + 42 + j - 1101 = j by omega]
  refine ⟨hlen, hget, ?_⟩
  apply string_find_first
  · omega
  · rw [hget 1023 (by omega)]; rfl
  · intro j hj
    rw [hget j (by omega)]
    unfold sample_long_name_byte
    rw [if_pos hj]
    decide

/-- The main loop of `for_each_entry` at the root of an archive with one
record whose name has its first `/` before the end. -/
theorem for_each_entry_root_deep (ar : zip_archive) (stop : visited_entry → Bool)
    (entry s : Nat) (hn : ar.m_num_entries = 1) (he : ar.find_entry_by_index 0 = some entry)
    (hs : string_find 0x2F (dir_entry_name ar.m_data entry) = some s)
    (hlast : s ≠ (dir_entry_name ar.m_data entry).length - 1) :
    ar.for_each_entry [] stop =
      [.synthesized (make_virtual_entry ((dir_entry_name ar.m_data entry).take (s + 1)))] := by
  have hne : dir_entry_name ar.m_data entry ≠ [] := by
    intro hc
    rw [hc] at hs
    simp [string_find] at hs
  have hne2 : ((dir_entry_name ar.m_data entry).take (s + 1) == ([] : List Nat)) = false := by
    cases hd : dir_entry_name ar.m_data entry with
    | nil => exact absurd hd hne
    | cons a as => rfl
  have hne3 : (dir_entry_name ar.m_data entry == ([] : List Nat)) = false := by
    cases hd : dir_entry_name ar.m_data entry with
    | nil => exact absurd hd hne
    | cons a as => rfl
  have hlast2 : (s == (dir_entry_name ar.m_data entry).length - 1) = false := by
    simpa using hlast
  unfold zip_archive.for_each_entry
  simp only [List.isEmpty_nil, Bool.true_or, Bool.not_true, Bool.false_eq_true, if_false, hn]
  unfold zip_archive.for_each_walk
  rw [he]
  simp only [List.isEmpty_nil, Bool.not_true, Bool.false_and, Bool.false_eq_true, if_false, hne3,
    hs, hlast2, hne2, path_join, List.nil_append]
  unfold zip_archive.for_each_walk
  split <;> rfl

/-- C31: a synthesized directory record does not carry the name `p + d` when
`p + d` has 1024 bytes or more. The archive `sample_long` has one member, whose
name is 1023 bytes `a` followed by `/x`. `open` succeeds, and
`for_each_entry("", visit)` hands `visit` exactly one record, the synthesized
one for the first component `d` (1023 bytes `a` and `/`, 1024 bytes): its
`filename_length` is 1024 and its attribute `0x10`, and its 1024 name bytes are
all zero, while `d` begins with `a`. -/
theorem virtual_record_long_name :
    sample_long.length = 2148 ∧
    ∃ ar, zip_archive.open_ {} sample_long 2148 = .ok ar ∧
      ar.find_entry_by_index 0 = some 1059 ∧
      (dir_entry_name sample_long 1059).length = 1025 ∧
      string_find 0x2F (dir_entry_name sample_long 1059) = some 1023 ∧
      ((dir_entry_name sample_long 1059).take 1024).length = 1024 ∧
      ((dir_entry_name sample_long 1059).take 1024).getD 0 0 = 0x61 ∧
      ∀ stop : visited_entry → Bool,
        ar.for_each_entry [] stop =
          [.synthesized (make_virtual_entry ((dir_entry_name sample_long 1059).take 1024))] ∧
        (make_virtual_entry ((dir_entry_name sample_long 1059).take 1024)).external_file_attributes
          = 0x10 ∧
        visited_filename_length sample_long
          (.synthesized (make_virtual_entry ((dir_entry_name sample_long 1059).take 1024)))
          = 1024 ∧
        (∀ x ∈ visited_name sample_long
          (.synthesized (make_virtual_entry ((dir_entry_name sample_long 1059).take 1024))),
          x = 0) ∧
        visited_name sample_long
          (.synthesized (make_virtual_entry ((dir_entry_name sample_long 1059).take 1024)))
          ≠ [] ++ (dir_entry_name sample_long 1059).take 1024 := by
  obtain ⟨ar, har, hd, hn, he⟩ := sample_long_open
  obtain ⟨hlen, hget, hfind⟩ := sample_long_entry_name
  have htl : ((dir_entry_name sample_long 1059).take 1024).length = 1024 := by
    rw [List.length_take, hlen]
    rfl
  have ht0 : ((dir_entry_name sample_long 1059).take 1024).getD 0 0 = 0x61 := by
    rw [List.getD_eq_getElem?_getD, List.getElem?_take_of_lt (by omega),
      ← List.getD_eq_getElem?_getD, hget 0 (by omega)]
    rfl
  have hv := virtual_name_long sample_long ((dir_entry_name sample_long 1059).take 1024)
    (by omega) (by rw [htl]; norm_num)
  rw [htl] at hv
  refine ⟨sample_long_length, ar, har, he, hlen, hfind, htl, ht0, fun stop => ⟨?_, rfl, hv.1, ?_, ?_⟩⟩
  · have := for_each_entry_root_deep ar stop 1059 1023 hn he (by rw [hd]; exact hfind)
      (by rw [hd, hlen]; decide)
    rw [hd] at this
    exact this
  · intro x hx
    rw [hv.2] at hx
    exact List.eq_of_mem_replicate hx
  · intro hc
    rw [List.nil_append] at hc
    have h0 := congrArg (fun l => l.getD 0 0) hc
    simp only at h0
    rw [ht0, hv.2, List.getD_eq_getElem?_getD, List.getElem?_replicate] at h0
    simp at h0

end Zipfs
